import Mathlib

/-!
# Simple undirected graphs and Euler circuits

A shallow embedding of `Stage1/graph.cpp` (class `Graph`) and
`Stage2/euler.cpp` (`euler_feasibility`, `find_euler_circuit`).

Conventions of the embedding:

* `std::size_t` values are modelled as `Nat`.  The only arithmetic the modelled
  code performs on them is `++` on counters that are bounded by the number of
  stored adjacency entries, so no wrap-around can occur on a real machine.
* `std::vector<T>` is modelled as `List T`; `push_back` is `++ [x]`,
  `back`/`pop_back` are `getLast?`/`dropLast`.
* Loops whose termination is not syntactically evident carry a fuel argument and
  return `none` when the fuel is exhausted or when an index is out of range.
* `int` values are modelled as `Int`; a conversion from `std::size_t` is `to_int`, and an
  `int` that can leave the 32-bit range is reduced by `int_wrap`.
* A `std::vector` of more than `max_size()` elements is not created: `Graph(n)` throws
  `std::length_error` for `n` above `adj_max_size`.
-/

namespace OSProj

/-! ## Data model (`Stage1/graph.hpp`) -/

/-- The class `Graph`: vertex count `m_n`, edge count `m_m`, adjacency lists `adj`. -/
structure Graph where
  m_n : Nat
  m_m : Nat
  adj : List (List Nat)
deriving DecidableEq, Repr

namespace Graph

/-- The constructor `Graph::Graph(n)`: `m_n(n), m_m(0), adj(n)`. -/
def new (n : Nat) : Graph :=
  { m_n := n, m_m := 0, adj := List.replicate n [] }

/-- The accessor `n()`. -/
def n (g : Graph) : Nat := g.m_n

/-- The accessor `m()`. -/
def m (g : Graph) : Nat := g.m_m

/-- The accessor `neighbors(u)`, i.e. `adj[u]` (read as the empty list outside the vector). -/
def neighbors (g : Graph) (u : Nat) : List Nat := g.adj.getD u []

/-- The statement `adj[u].push_back(v)` on a vector of adjacency lists. -/
def push_adj (adj : List (List Nat)) (u v : Nat) : List (List Nat) :=
  adj.set u (adj.getD u [] ++ [v])

/-- The method `Graph::add_edge(u, v)`: the returned flag and the graph afterwards. -/
def add_edge (g : Graph) (u v : Nat) : Bool × Graph :=
  if u ≥ g.m_n ∨ v ≥ g.m_n then (false, g)
  else if u = v then (false, g)
  else if v ∈ g.adj.getD u [] then (false, g)
  else
    (true, { m_n := g.m_n, m_m := g.m_m + 1,
             adj := push_adj (push_adj g.adj u v) v u })

/-- The graph obtained from `Graph(n)` by calling `add_edge` on each pair in turn,
    whatever each call returns. -/
def build (n : Nat) (ops : List (Nat × Nat)) : Graph :=
  ops.foldl (fun g e => (g.add_edge e.1 e.2).2) (Graph.new n)

/-- Sum of the sizes of all adjacency lists. -/
def degree_sum (g : Graph) : Nat := (g.adj.map List.length).sum

/-- The class invariant established by the constructor and kept by `add_edge`. -/
structure Inv (g : Graph) : Prop where
  len : g.adj.length = g.m_n
  lt : ∀ u v, v ∈ g.neighbors u → v < g.m_n
  irrefl : ∀ u, u ∉ g.neighbors u
  symm : ∀ u v, v ∈ g.neighbors u → u ∈ g.neighbors v
  nodup : ∀ u, (g.neighbors u).Nodup
  count : g.degree_sum = 2 * g.m_m

end Graph

namespace Graph

/-! ## Euler helpers (`Stage1/graph.cpp`) -/

/-- One iteration of the first loop of `is_connected_ignoring_isolated`:
    `acc = (start, non_isolated)`, vertex `i`. -/
def scan_step (g : Graph) (acc : Nat × Nat) (i : Nat) : Nat × Nat :=
  if (g.neighbors i).isEmpty then acc
  else (if acc.1 = g.m_n then i else acc.1, acc.2 + 1)

/-- The first loop of `is_connected_ignoring_isolated`: the first vertex with a non-empty
    adjacency list (`m_n` when there is none) and the number of such vertices. -/
def scan (g : Graph) : Nat × Nat :=
  (List.range g.m_n).foldl g.scan_step (g.m_n, 0)

/-- The local variables of the BFS: the `vis` vector, the queue (front at the head) and
    the counter `reached`. -/
structure BfsState where
  vis : List Bool
  q : List Nat
  reached : Nat
deriving DecidableEq, Repr

/-- The body of the inner loop `for (v : adj[u])`; `none` when `vis[v]` is out of range. -/
def bfs_visit (g : Graph) (s : BfsState) (v : Nat) : Option BfsState :=
  match s.vis[v]? with
  | none => none
  | some true => some s
  | some false =>
    some { vis := s.vis.set v true,
           q := s.q ++ [v],
           reached := if (g.neighbors v).isEmpty then s.reached else s.reached + 1 }

/-- The inner loop `for (v : adj[u])` over the remaining neighbours. -/
def bfs_inner (g : Graph) : List Nat → BfsState → Option BfsState
  | [], s => some s
  | v :: vs, s => (bfs_visit g s v).bind (bfs_inner g vs)

/-- The loop `while (!q.empty())`, with at most `fuel` iterations; `none` when the fuel
    runs out or an index is out of range. -/
def bfs_loop (g : Graph) : Nat → BfsState → Option BfsState
  | 0, s =>
    match s.q with
    | [] => some s
    | _ :: _ => none
  | fuel + 1, s =>
    match s.q with
    | [] => some s
    | u :: rest =>
      match g.adj[u]? with
      | none => none
      | some nb => (bfs_inner g nb { s with q := rest }).bind (bfs_loop g fuel)

/-- The method `Graph::is_connected_ignoring_isolated()`, its BFS limited to `fuel`
    iterations. -/
def is_connected_ignoring_isolated (g : Graph) (fuel : Nat) : Option Bool :=
  let start := g.scan.1
  let non_isolated := g.scan.2
  if non_isolated ≤ 1 then some true
  else
    (bfs_loop g fuel
      { vis := (List.replicate g.m_n false).set start true, q := [start], reached := 1 }).map
      (fun s => s.reached == non_isolated)

/-- The method `Graph::all_even_degrees()`. -/
def all_even_degrees (g : Graph) : Bool :=
  (List.range g.m_n).all (fun i => !((g.neighbors i).length &&& 1 != 0))

/-- Adjacency as a relation: `v` is in the adjacency list of `u`. -/
def Adj (g : Graph) (u v : Nat) : Prop := v ∈ g.neighbors u

/-- Two vertices are joined by a path (possibly of length zero). -/
def Joined (g : Graph) (u v : Nat) : Prop := Relation.ReflTransGen g.Adj u v

/-- Every two vertices of positive degree are joined by a path. -/
def ConnectedIgnoringIsolated (g : Graph) : Prop :=
  ∀ u v, u < g.m_n → v < g.m_n → g.neighbors u ≠ [] → g.neighbors v ≠ [] → g.Joined u v

/-- Every vertex has even degree. -/
def AllEven (g : Graph) : Prop := ∀ u, u < g.m_n → (g.neighbors u).length % 2 = 0

end Graph

/-! ## Euler circuits (`Stage2/euler.hpp`, `Stage2/euler.cpp`) -/

/-- The struct `EulerCheck`. -/
structure EulerCheck where
  ok : Bool
  reason : String
deriving DecidableEq, Repr

/-- The function `euler_feasibility(G)`, the BFS of the connectivity test limited to `fuel`
    iterations. -/
def euler_feasibility (g : Graph) (fuel : Nat) : Option EulerCheck :=
  match g.is_connected_ignoring_isolated fuel with
  | none => none
  | some c =>
    if !c then some ⟨false, "Graph is not connected when ignoring isolated vertices"⟩
    else if !g.all_even_degrees then some ⟨false, "Not all vertices have even degree"⟩
    else some ⟨true, "OK"⟩

/-- The swap-with-last removal `Au[i] = Au.back(); Au.pop_back();` at the first index `i`
    holding `v` (no change when `v` does not occur). -/
def swap_remove (l : List Nat) (v : Nat) : List Nat :=
  let i := l.indexOf v
  if i < l.length then (l.set i (l.getLastD 0)).dropLast else l

/-- The lambda `remove_edge(u, v)` of `find_euler_circuit` acting on the adjacency copy;
    `none` when `adj[u]` or `adj[v]` is out of range. -/
def remove_edge (adj : List (List Nat)) (u v : Nat) : Option (List (List Nat)) :=
  match adj[u]? with
  | none => none
  | some au =>
    let adj1 := adj.set u (swap_remove au v)
    match adj1[v]? with
    | none => none
    | some av => some (adj1.set v (swap_remove av u))

/-- The local variables of the Hierholzer loop: the adjacency copy, the stack (top at the
    head) and the output vector. -/
structure HState where
  adj : List (List Nat)
  st : List Nat
  out : List Nat
deriving DecidableEq, Repr

/-- One iteration of `while (!st.empty())` for a non-empty stack; `none` when the stack is
    empty or `adj[u]` is out of range. -/
def hierholzer_step (s : HState) : Option HState :=
  match s.st with
  | [] => none
  | u :: rest =>
    match s.adj[u]? with
    | none => none
    | some au =>
      match au.getLast? with
      | some v =>
        match remove_edge (s.adj.set u au.dropLast) u v with
        | none => none
        | some adj2 => some { adj := adj2, st := v :: u :: rest, out := s.out }
      | none => some { adj := s.adj, st := rest, out := s.out ++ [u] }

/-- The loop `while (!st.empty())`, with at most `fuel` iterations. -/
def hierholzer_loop : Nat → HState → Option HState
  | 0, s =>
    match s.st with
    | [] => some s
    | _ :: _ => none
  | fuel + 1, s =>
    match s.st with
    | [] => some s
    | _ :: _ => (hierholzer_step s).bind (hierholzer_loop fuel)

/-- The start vertex chosen by `find_euler_circuit`: the first vertex with a non-empty
    adjacency list, `0` when there is none. -/
def find_start (adj : List (List Nat)) (n : Nat) : Nat :=
  ((List.range n).find? (fun i => !(adj.getD i []).isEmpty)).getD 0

/-- The function `find_euler_circuit(G)`: `fuel_bfs` bounds the BFS of the feasibility test
    and `fuel` the Hierholzer loop. -/
def find_euler_circuit (g : Graph) (fuel_bfs fuel : Nat) : Option (List Nat) :=
  match euler_feasibility g fuel_bfs with
  | none => none
  | some chk =>
    if !chk.ok then some []
    else if g.n = 0 then some []
    else if g.m = 0 then some []
    else
      let adj := (List.range g.n).map g.neighbors
      let start := find_start adj g.n
      match hierholzer_loop fuel { adj := adj, st := [start], out := [] } with
      | none => none
      | some s => some s.out.reverse

/-- The consecutive pairs of a sequence, as unordered pairs. -/
def consecutive_pairs (c : List Nat) : List (Sym2 Nat) :=
  (c.zip c.tail).map (fun p => s(p.1, p.2))

/-- The edge set of a graph: the unordered pairs `{u, v}` with `v` in the adjacency list
    of `u`. -/
def Graph.edge_set (g : Graph) : Finset (Sym2 Nat) :=
  (Finset.range g.m_n).biUnion (fun u => (g.neighbors u).toFinset.image (fun v => s(u, v)))

/-! ## Auxiliary definitions for the proofs -/

namespace Graph

/-- The set of vertices with a non-empty adjacency list. -/
def nonIsolated (g : Graph) (k : Nat) : Finset Nat :=
  (Finset.range k).filter (fun v => g.neighbors v ≠ [])

/-- The set of visited vertices that have a non-empty adjacency list. -/
def visitedNonIsolated (g : Graph) (vis : List Bool) : Finset Nat :=
  (Finset.range g.m_n).filter (fun v => vis[v]? = some true ∧ g.neighbors v ≠ [])

/-- The loop invariant of the BFS started at `start`. -/
structure BfsInv (g : Graph) (start : Nat) (s : BfsState) : Prop where
  len : s.vis.length = g.m_n
  qvis : ∀ v ∈ s.q, s.vis[v]? = some true
  reach : ∀ v, s.vis[v]? = some true → g.Joined start v
  cnt : s.reached = (g.visitedNonIsolated s.vis).card

/-- Every visited vertex outside the queue and outside `X` has all its neighbours visited. -/
def BfsClosed (g : Graph) (s : BfsState) (X : Nat → Prop) : Prop :=
  ∀ u, s.vis[u]? = some true → u ∉ s.q → ¬ X u → ∀ v ∈ g.neighbors u, s.vis[v]? = some true

end Graph

/-- The unordered pairs already traversed in state `s`, with anchor vertex `a`: the pairs
    along the stack, then the pair joining the anchor to the last vertex written to the
    output, then the pairs along the output. -/
def hierholzer_used (s : HState) (a : Nat) : List (Sym2 Nat) :=
  consecutive_pairs s.st ++
    (match s.st with
     | [] => consecutive_pairs s.out.reverse
     | _ :: _ => consecutive_pairs (a :: s.out.reverse))

/-- The loop invariant of the Hierholzer loop on graph `g` started at `start`; the anchor `a`
    is the stack vertex at which the walk on the stack re-joins the written output. -/
structure HInv (g : Graph) (start : Nat) (s : HState) (a : Nat) : Prop where
  len : s.adj.length = g.m_n
  symm : ∀ x y, y ∈ s.adj.getD x [] → x ∈ s.adj.getD y []
  nodup : ∀ x, (s.adj.getD x []).Nodup
  st_lt : ∀ x ∈ s.st, x < g.m_n
  parity : ∀ top ∈ s.st.head?, ∀ w,
    (s.adj.getD w []).length % 2 = if (w = top ∨ w = a) ∧ top ≠ a then 1 else 0
  edges : ∀ x y, y ∈ g.neighbors x ↔ (y ∈ s.adj.getD x [] ∨ s(x, y) ∈ hierholzer_used s a)
  used_nodup : (hierholzer_used s a).Nodup
  used_fresh : ∀ x y, s(x, y) ∈ hierholzer_used s a → y ∉ s.adj.getD x []
  anchor : s.st ≠ [] → a ∈ s.st
  out_done : ∀ w ∈ s.out, s.adj.getD w [] = []
  start_mem : start ∈ s.st ∨ start ∈ s.out
  bottom : ∀ b ∈ s.st.getLast?, b = start
  first_out : ∀ o ∈ s.out.head?, o = start
  last_out : s.st = [] → ∀ o ∈ s.out.getLast?, o = start
  anchor_init : s.out = [] → a = start
  count : (s.adj.map List.length).sum + 2 * (s.st.length + s.out.length) = 2 * g.m_m + 2

/-- List `l2` is `l` with its single occurrence of `z` removed. -/
structure Removed (l : List Nat) (z : Nat) (l2 : List Nat) : Prop where
  mem : ∀ x, x ∈ l2 ↔ (x ∈ l ∧ x ≠ z)
  nodup : l2.Nodup
  length : l2.length + 1 = l.length

/-! ## Random graphs (`Stage1/graph.cpp`, `Graph::random_simple`) -/

/-- What `Graph::random_simple` takes from the standard library, as a parameter: the values
    returned by successive calls `dist(rng)` of a `uniform_int_distribution(0, n - 1)`, the
    order in which a range-for visits an `unordered_set`, and the permutation applied by
    `std::shuffle`.  A seed selects one such source. -/
structure RandomSource where
  draw : Nat → Nat → Nat
  draw_lt : ∀ n i, 0 < n → draw n i < n
  order : List Nat → List Nat
  order_perm : ∀ l, (order l).Perm l
  shuffle : List (Nat × Nat) → List (Nat × Nat)
  shuffle_perm : ∀ l, (shuffle l).Perm l

/-- The value of `max_size()` of the adjacency vector `std::vector<std::vector<std::size_t>>`
    (elements of 24 bytes, `PTRDIFF_MAX / 24`): the constructor `Graph(n)` builds `adj(n)`,
    and `std::vector` refuses a larger size. -/
def adj_max_size : Nat := (2 ^ 63 - 1) / 24

/-- The value of `max_size()` of `std::vector<std::pair<std::size_t, std::size_t>>` (elements
    of 16 bytes), the limit of `edges.reserve` in the dense branch of `random_simple`. -/
def pair_max_size : Nat := (2 ^ 63 - 1) / 16

/-- The message of the `std::length_error` thrown by the constructor of `std::vector` for a
    size above `max_size()`. -/
def vector_length_what : String := "cannot create std::vector larger than max_size()"

/-- The message of the `std::length_error` thrown by `std::vector::reserve` for a size above
    `max_size()`. -/
def vector_reserve_what : String := "vector::reserve"

/-- The result of `Graph::random_simple`: a thrown `std::invalid_argument` with its message,
    a `std::length_error` thrown by the vector of a `Graph(n)` or by `edges.reserve`, with
    its message, or the returned graph. -/
inductive GenResult where
  | invalid_argument (what : String)
  | length_error (what : String)
  | graph (g : Graph)
deriving DecidableEq, Repr

/-- The lambda `pack(a, b)`: `(uint64(a) << 32) | uint64(b)` after ordering, in 64-bit
    unsigned arithmetic. -/
def pack (a b : Nat) : Nat :=
  let lo := if b < a then b else a
  let hi := if b < a then a else b
  ((lo <<< 32) % 2 ^ 64) ||| (hi % 2 ^ 64)

/-- The decoding `(key >> 32, key & 0xffffffff)` of a packed pair. -/
def unpack (key : Nat) : Nat × Nat := (key >>> 32, key &&& 0xffffffff)

/-- The loop `while (seen.size() < m)` of the sparse branch: `i` is the number of values
    drawn so far, `seen` the set in insertion order; at most `fuel` iterations. -/
def sample_loop (rs : RandomSource) (n m : Nat) : Nat → Nat → List Nat → Option (List Nat)
  | 0, _, seen => if seen.length < m then none else some seen
  | fuel + 1, i, seen =>
    if seen.length < m then
      let u := rs.draw n i
      let v := rs.draw n (i + 1)
      if u = v then sample_loop rs n m fuel (i + 2) seen
      else
        let key := pack u v
        sample_loop rs n m fuel (i + 2) (if key ∈ seen then seen else seen ++ [key])
    else some seen

/-- All pairs `(u, v)` with `u < v < n`, in the order the dense branch generates them. -/
def all_pairs (n : Nat) : List (Nat × Nat) :=
  (List.range n).flatMap (fun u => (List.range' (u + 1) (n - (u + 1))).map (fun v => (u, v)))

/-- Calling `g.add_edge(u, v)` on each pair in turn, ignoring the returned flags. -/
def Graph.add_all (g : Graph) (es : List (Nat × Nat)) : Graph :=
  es.foldl (fun g e => (g.add_edge e.1 e.2).2) g

/-- The flags returned by the calls `g.add_edge(u, v)` made on each pair in turn. -/
def Graph.add_flags : Graph → List (Nat × Nat) → List Bool
  | _, [] => []
  | g, e :: es => (g.add_edge e.1 e.2).1 :: Graph.add_flags (g.add_edge e.1 e.2).2 es

/-- The value `max_m = (nn * (nn - 1)) / 2` computed in `std::uint64_t`. -/
def max_edges_u64 (n : Nat) : Nat :=
  ((n % 2 ^ 64) * ((n % 2 ^ 64 + 2 ^ 64 - 1) % 2 ^ 64)) % 2 ^ 64 / 2

/-- The pairs on which `random_simple` calls `add_edge`, when it gets that far. -/
def random_simple_edges (rs : RandomSource) (n m fuel : Nat) : Option (List (Nat × Nat)) :=
  if m ≤ max_edges_u64 n / 2 then
    match sample_loop rs n m fuel 0 [] with
    | none => none
    | some seen => some ((rs.order seen).map unpack)
  else some ((rs.shuffle (all_pairs n)).take m)

/-- The function `Graph::random_simple(n, m, seed)`, the seed given by the random source it
    selects; the sampling loop of the sparse branch is limited to `fuel` iterations.  After
    the two parameter checks `Graph g(n)` throws for `n` above `adj_max_size`, and in the
    dense branch `edges.reserve(max_m)` throws for `max_m` above `pair_max_size`; running
    out of memory (`std::bad_alloc`) is not part of the model. -/
def Graph.random_simple (rs : RandomSource) (n m fuel : Nat) : Option GenResult :=
  if m > max_edges_u64 n then
    some (.invalid_argument
      "m exceeds the maximum number of edges for a simple undirected graph")
  else if n = 0 ∧ m ≠ 0 then
    some (.invalid_argument "cannot place edges on an empty graph")
  else if n > adj_max_size then some (.length_error vector_length_what)
  else if m = 0 ∨ n ≤ 1 then some (.graph (Graph.new n))
  else if m > max_edges_u64 n / 2 ∧ max_edges_u64 n > pair_max_size then
    some (.length_error vector_reserve_what)
  else
    match random_simple_edges rs n m fuel with
    | none => none
    | some es => some (.graph ((Graph.new n).add_all es))

/-- A random source that draws `0, 1, 2, …` (reduced into range) and leaves every order
    unchanged. -/
def RandomSource.counting : RandomSource where
  draw := fun n i => i % n
  draw_lt := fun _ _ h => Nat.mod_lt _ h
  order := fun l => l
  order_perm := fun l => List.Perm.refl l
  shuffle := fun l => l
  shuffle_perm := fun l => List.Perm.refl l

/-! ## The algorithm strategies (`Stage7/algorithms.cpp`) -/

/-- Modelled from the spec: `Graph::num_vertices()` is called by the strategies but declared
    in no header of the repository; the spec's vertex count `n`. -/
def Graph.num_vertices (g : Graph) : Nat := g.m_n

/-- The helper `join_sp`: the decimal numbers separated by single spaces. -/
def join_sp (xs : List Nat) : String := " ".intercalate (xs.map toString)

/-- The expression `tour.size() - 1` in `std::size_t` (64-bit unsigned) arithmetic. -/
def size_minus_one (k : Nat) : Nat := (k % 2 ^ 64 + 2 ^ 64 - 1) % 2 ^ 64

/-- The method `EulerCircuitAlg::run(G)`. -/
def EulerCircuitAlg.run (g : Graph) (fuel_bfs fuel : Nat) : Option String :=
  match euler_feasibility g fuel_bfs with
  | none => none
  | some chk =>
    if !chk.ok then some ("ERR " ++ chk.reason)
    else
      match find_euler_circuit g fuel_bfs fuel with
      | none => none
      | some tour =>
        some ("OK CIRCUIT " ++ toString (size_minus_one tour.length) ++ "\n" ++ join_sp tour)

/-! ### Machine integers -/

/-- The conversion `(int)x` of a `std::size_t` value to a 32-bit two's complement `int`. -/
def to_int (x : Nat) : Int :=
  if x % 2 ^ 32 < 2 ^ 31 then ((x % 2 ^ 32 : Nat) : Int) else ((x % 2 ^ 32 : Nat) : Int) - 2 ^ 32

/-- The value a 32-bit two's complement `int` holds after an arithmetic operation whose exact
    result is `x`: `x` itself inside `[-2^31, 2^31)`, wrapped around outside (what the
    machine addition yields where C++ leaves signed overflow undefined). -/
def int_wrap (x : Int) : Int := (x + 2 ^ 31) % 2 ^ 32 - 2 ^ 31

/-! ### MST weight (Kruskal with a union-find) -/

/-- The local struct `Edge { size_t u, v; int w; }` of `MstWeightAlg::run`. -/
structure Edge where
  u : Nat
  v : Nat
  w : Int
deriving DecidableEq, Repr

/-- The edge list built by `MstWeightAlg::run`: for every `u` and every `v` in
    `neighbors(u)` with `u < v`, the edge `{u, v, 1}`. -/
def mst_edges (g : Graph) : List Edge :=
  (List.range g.num_vertices).flatMap
    (fun u => ((g.neighbors u).filter (fun v => u < v)).map (fun v => { u := u, v := v, w := 1 }))

/-- The lambda `find(x)`: `while (p[x] != x) x = p[x];` with at most `fuel` iterations;
    `none` when the fuel runs out or `p[x]` is out of range. -/
def dsu_find (p : List Nat) : Nat → Nat → Option Nat
  | 0, x =>
    match p[x]? with
    | none => none
    | some px => if px ≠ x then none else some x
  | fuel + 1, x =>
    match p[x]? with
    | none => none
    | some px => if px ≠ x then dsu_find p fuel px else some x

/-- The lambda `unite(a, b)`: `a = find(a); b = find(b); if (a != b) p[a] = b;`. -/
def dsu_unite (p : List Nat) (fuel a b : Nat) : Option (List Nat) :=
  match dsu_find p fuel a, dsu_find p fuel b with
  | some ra, some rb =>
    if ra ≠ rb then (if ra < p.length then some (p.set ra rb) else none) else some p
  | _, _ => none

/-- The loop `for (auto &e : edges)` of `MstWeightAlg::run` on the parent vector `p` and the
    running `int total`; `total += e.w` is 32-bit addition. -/
def mst_loop (fuel : Nat) : List Edge → List Nat → Int → Option (List Nat × Int)
  | [], p, total => some (p, total)
  | e :: es, p, total =>
    match dsu_find p fuel e.u, dsu_find p fuel e.v with
    | some ra, some rb =>
      if ra ≠ rb then
        match dsu_unite p fuel e.u e.v with
        | none => none
        | some p2 => mst_loop fuel es p2 (int_wrap (total + e.w))
      else mst_loop fuel es p total
    | _, _ => none

/-- The value of `total` at the end of `MstWeightAlg::run`. -/
def mst_total (g : Graph) (fuel : Nat) : Option Int :=
  (mst_loop fuel (mst_edges g) (List.range g.num_vertices) 0).map (fun r => r.2)

/-- The method `MstWeightAlg::run(G)`, each `find` limited to `fuel` iterations. -/
def MstWeightAlg.run (g : Graph) (fuel : Nat) : Option String :=
  (mst_total g fuel).map (fun total => "OK MST_WEIGHT " ++ toString total)

/-! ### Components (Kosaraju) -/

/-- A loop over a list whose body may fail: the state after the last element, or `none`. -/
def fold_opt {σ : Type} (f : σ → Nat → Option σ) : List Nat → σ → Option σ
  | [], s => some s
  | v :: vs, s =>
    match f s v with
    | none => none
    | some s2 => fold_opt f vs s2

/-- The guarded call `if (!vis[v]) call(v)` on a state whose first component is `vis`;
    `none` when `vis[v]` is out of range. -/
def if_unvisited {α : Type} (call : Nat → List Bool × α → Option (List Bool × α))
    (st : List Bool × α) (v : Nat) : Option (List Bool × α) :=
  match st.1[v]? with
  | none => none
  | some true => some st
  | some false => call v st

/-- The method `SccAlg::dfs1(G, u, vis, order)`, the recursion depth limited to `fuel`;
    `none` when the fuel runs out or an index is out of range. -/
def dfs1 (g : Graph) : Nat → Nat → List Bool × List Nat → Option (List Bool × List Nat)
  | 0, _, _ => none
  | fuel + 1, u, (vis, order) =>
    if u < vis.length then
      match g.adj[u]? with
      | none => none
      | some nb =>
        match fold_opt (if_unvisited (dfs1 g fuel)) nb (vis.set u true, order) with
        | none => none
        | some (vis2, order2) => some (vis2, order2 ++ [u])
    else none

/-- The method `SccAlg::dfs2(GT, u, vis, comp)`, the recursion depth limited to `fuel`. -/
def dfs2 (gt : Graph) : Nat → Nat → List Bool × List Nat → Option (List Bool × List Nat)
  | 0, _, _ => none
  | fuel + 1, u, (vis, comp) =>
    if u < vis.length then
      match gt.adj[u]? with
      | none => none
      | some nb => fold_opt (if_unvisited (dfs2 gt fuel)) nb (vis.set u true, comp ++ [u])
    else none

/-- The first loop of `SccAlg::run`: `for i < n: if (!vis[i]) dfs1(G, i, vis, order)`. -/
def scc_order (g : Graph) (fuel : Nat) : Option (List Bool × List Nat) :=
  fold_opt (if_unvisited (dfs1 g fuel))
    (List.range g.num_vertices) (List.replicate g.num_vertices false, [])

/-- The graph `GT` of `SccAlg::run`: `Graph GT(n)` followed by `GT.add_edge(v, u)` for every
    `u` and every `v` in `G.neighbors(u)`. -/
def scc_transpose (g : Graph) : Graph :=
  (Graph.new g.num_vertices).add_all
    ((List.range g.num_vertices).flatMap (fun u => (g.neighbors u).map (fun v => (v, u))))

/-- The body of the second loop of `SccAlg::run` for `u = order[i]`:
    `if (!vis[u]) { comp = {}; dfs2(GT, u, vis, comp); … }`, appending `comp` to the
    components written so far. -/
def scc_collect_step (gt : Graph) (fuel : Nat) (st : List Bool × List (List Nat)) (u : Nat) :
    Option (List Bool × List (List Nat)) :=
  match st.1[u]? with
  | none => none
  | some true => some st
  | some false =>
    match dfs2 gt fuel u (st.1, []) with
    | none => none
    | some (vis2, comp) => some (vis2, st.2 ++ [comp])

/-- The second loop of `SccAlg::run` over the vertices `order[i]` for `i` from
    `order.size() - 1` down to `0`: the `vis` vector and the components found so far. -/
def scc_collect (gt : Graph) (fuel : Nat) (rev_order : List Nat) (n : Nat) :
    Option (List Bool × List (List Nat)) :=
  fold_opt (scc_collect_step gt fuel) rev_order (List.replicate n false, [])

/-- The start index `int i = (int)order.size() - 1` of the second loop of `SccAlg::run`. -/
def scc_start (len : Nat) : Int := int_wrap (to_int len - 1)

/-- The components written by `SccAlg::run`, in output order: the second loop visits
    `order[i]` for `i` from `scc_start (order.size())` down to `0` (no index when the start
    is negative). -/
def scc_components (g : Graph) (fuel : Nat) : Option (List (List Nat)) :=
  match scc_order g fuel with
  | none => none
  | some (_, order) =>
    (scc_collect (scc_transpose g) fuel
      (order.take (scc_start order.length + 1).toNat).reverse g.num_vertices).map (fun r => r.2)

/-- The method `SccAlg::run(G)`: the header line, then one line per component. -/
def SccAlg.run (g : Graph) (fuel : Nat) : Option String :=
  (scc_components g fuel).map
    (fun comps => "OK SCC\n" ++ String.join (comps.map (fun c => join_sp c ++ "\n")))

/-! ### Maximum flow (Edmonds-Karp) -/

/-- The read `v[i]` of a vector at an `int` index; a negative index is out of range. -/
def get_int {α : Type} (l : List α) (i : Int) : Option α :=
  if i < 0 then none else l[i.toNat]?

/-- The write `v[i] = x` of a vector at an `int` index. -/
def set_int {α : Type} (l : List α) (i : Int) (x : α) : Option (List α) :=
  if 0 ≤ i ∧ i.toNat < l.length then some (l.set i.toNat x) else none

/-- The read `cap[u][v]`. -/
def get_cap (cap : List (List Int)) (u v : Int) : Option Int :=
  match get_int cap u with
  | none => none
  | some row => get_int row v

/-- The write `cap[u][v] = x`. -/
def set_cap (cap : List (List Int)) (u v : Int) (x : Int) : Option (List (List Int)) :=
  match get_int cap u with
  | none => none
  | some row =>
    match set_int row v x with
    | none => none
    | some row2 => set_int cap u row2

/-- The capacity matrix built by `MaxFlowAlg::run`: `n × n` zeros, then `cap[u][v] = 1` for
    every `u` and every `v` in `neighbors(u)`. -/
def cap_init (g : Graph) : Option (List (List Int)) :=
  fold_opt (fun cap u =>
      fold_opt (fun cap2 v => set_cap cap2 (u : Int) (v : Int) 1) (g.neighbors u) cap)
    (List.range g.num_vertices)
    (List.replicate g.num_vertices (List.replicate g.num_vertices 0))

/-- The loop `for (int v = 0; v < (int)n; v++) if (par[v] == -1 && cap[u][v] > 0) {…}` over
    the remaining values of `v`, on the state `(par, q)`. -/
def mf_scan (cap : List (List Int)) (u : Int) :
    List Nat → List Int × List Int → Option (List Int × List Int)
  | [], st => some st
  | v :: vs, (par, q) =>
    match par[v]? with
    | none => none
    | some pv =>
      if pv = -1 then
        match get_cap cap u (v : Int) with
        | none => none
        | some c =>
          if c > 0 then mf_scan cap u vs (par.set v u, q ++ [(v : Int)])
          else mf_scan cap u vs (par, q)
      else mf_scan cap u vs (par, q)

/-- The loop `while (!q.empty() && par[t] == -1)` with at most `fuel` iterations: the
    vector `par` when the loop exits. -/
def mf_bfs (cap : List (List Int)) (n : Nat) (t : Int) :
    Nat → List Int × List Int → Option (List Int)
  | 0, (par, q) =>
    match q with
    | [] => some par
    | _ :: _ =>
      match get_int par t with
      | none => none
      | some pt => if pt = -1 then none else some par
  | fuel + 1, (par, q) =>
    match q with
    | [] => some par
    | u :: rest =>
      match get_int par t with
      | none => none
      | some pt =>
        if pt = -1 then
          match mf_scan cap u (List.range n) (par, rest) with
          | none => none
          | some st => mf_bfs cap n t fuel st
        else some par

/-- The loop `for (int v = t; v != s; v = par[v]) aug = std::min(aug, cap[par[v]][v]);`
    from the current `v` and `aug`, with at most `fuel` iterations. -/
def mf_bottleneck (cap : List (List Int)) (par : List Int) (s : Int) :
    Nat → Int → Int → Option Int
  | 0, v, aug => if v ≠ s then none else some aug
  | fuel + 1, v, aug =>
    if v ≠ s then
      match get_int par v with
      | none => none
      | some pv =>
        match get_cap cap pv v with
        | none => none
        | some c => mf_bottleneck cap par s fuel pv (min aug c)
    else some aug

/-- The loop `for (int v = t; v != s; v = par[v]) { cap[par[v]][v] -= aug;
    cap[v][par[v]] += aug; }` from the current `v`, with at most `fuel` iterations. -/
def mf_augment (par : List Int) (s aug : Int) :
    Nat → Int → List (List Int) → Option (List (List Int))
  | 0, v, cap => if v ≠ s then none else some cap
  | fuel + 1, v, cap =>
    if v ≠ s then
      match get_int par v with
      | none => none
      | some pv =>
        match get_cap cap pv v with
        | none => none
        | some c =>
          match set_cap cap pv v (c - aug) with
          | none => none
          | some cap1 =>
            match get_cap cap1 v pv with
            | none => none
            | some c2 =>
              match set_cap cap1 v pv (c2 + aug) with
              | none => none
              | some cap2 => mf_augment par s aug fuel pv cap2
    else some cap

/-- One iteration of `while (true)` in `MaxFlowAlg::run`: `none` on an out-of-range access or
    when an inner loop runs out of fuel, `some none` on `break`, and otherwise the updated
    capacities with the amount `aug` added to `flow`. -/
def mf_step (n : Nat) (s t : Int) (fuel : Nat) (cap : List (List Int)) :
    Option (Option (List (List Int) × Int)) :=
  match set_int (List.replicate n (-1 : Int)) s s with
  | none => none
  | some par0 =>
    match mf_bfs cap n t fuel (par0, [s]) with
    | none => none
    | some par =>
      match get_int par t with
      | none => none
      | some pt =>
        if pt = -1 then some none
        else
          match mf_bottleneck cap par s fuel t 1000000000 with
          | none => none
          | some aug =>
            match mf_augment par s aug fuel t cap with
            | none => none
            | some cap2 => some (some (cap2, aug))

/-- The loop `while (true)` of `MaxFlowAlg::run` with at most `fuel` iterations: the value
    of `flow` at the `break`. -/
def mf_loop (n : Nat) (s t : Int) (inner : Nat) : Nat → List (List Int) → Int → Option Int
  | 0, _, _ => none
  | fuel + 1, cap, flow =>
    match mf_step n s t inner cap with
    | none => none
    | some none => some flow
    | some (some (cap2, aug)) => mf_loop n s t inner fuel cap2 (flow + aug)

/-- The value of `flow` at the end of `MaxFlowAlg::run`, with `s = 0` and `t = (int)n - 1`;
    every loop is limited to `fuel` iterations. -/
def max_flow (g : Graph) (fuel : Nat) : Option Int :=
  match cap_init g with
  | none => none
  | some cap => mf_loop g.num_vertices 0 ((g.num_vertices : Int) - 1) fuel fuel cap 0

/-- The method `MaxFlowAlg::run(G)`. -/
def MaxFlowAlg.run (g : Graph) (fuel : Nat) : Option String :=
  (max_flow g fuel).map (fun flow => "OK MAXFLOW " ++ toString flow)

/-- The matrix has `n` rows of `n` entries. -/
def CapWF (n : Nat) (cap : List (List Int)) : Prop :=
  cap.length = n ∧ ∀ row ∈ cap, row.length = n

/-- The entry `cap[u][v]`, read as `0` outside the matrix. -/
def capv (cap : List (List Int)) (u v : Nat) : Int := (cap.getD u []).getD v 0

/-- Vertex `v` has been reached by the search: `par[v] != -1`. -/
def MfVisited (par : List Int) (v : Nat) : Prop := par.getD v (-1) ≠ -1

/-- The parent `par[v]` as a vertex. -/
def mf_parent (par : List Int) (v : Nat) : Nat := (par.getD v (-1)).toNat

/-- The search tree recorded in `par`: parents are reached vertices joined to their children
    by an arc of positive residual capacity, and `d` is the depth in the tree. -/
structure MfTree (n s : Nat) (cap : List (List Int)) (par : List Int) (d : Nat → Nat) : Prop where
  len : par.length = n
  range : ∀ v, v < n → MfVisited par v → 0 ≤ par.getD v (-1) ∧ mf_parent par v < n
  root : par.getD s (-1) = (s : Int)
  tree : ∀ v, v < n → MfVisited par v → v ≠ s →
    MfVisited par (mf_parent par v) ∧ 0 < capv cap (mf_parent par v) v ∧
      d v = d (mf_parent par v) + 1
  droot : d s = 0
  dbound : ∀ v, v < n → MfVisited par v → d v + par.count (-1) < n

/-- Every queued value is a reached vertex. -/
def MfQueue (n : Nat) (par : List Int) (q : List Int) : Prop :=
  ∀ x ∈ q, 0 ≤ x ∧ x.toNat < n ∧ MfVisited par x.toNat

/-- Every reached vertex outside the queue and outside `X` has all its residual neighbours
    reached. -/
def MfClosed (n : Nat) (cap : List (List Int)) (par : List Int) (q : List Int)
    (X : Nat → Prop) : Prop :=
  ∀ u, u < n → MfVisited par u → (u : Int) ∉ q → ¬ X u →
    ∀ v, v < n → 0 < capv cap u v → MfVisited par v

/-- Vertex `v` can be reached from `s` along arcs of positive residual capacity. -/
def ResReach (n : Nat) (cap : List (List Int)) (s v : Nat) : Prop :=
  Relation.ReflTransGen (fun a b => a < n ∧ b < n ∧ 0 < capv cap a b) s v

/-- The sum of row `u` of the matrix over the columns `0..n-1`. -/
def rowsum (n : Nat) (cap : List (List Int)) (u : Nat) : Int :=
  ∑ w in Finset.range n, capv cap u w

/-- The `j`-th ancestor of `v` in the search tree. -/
def mf_anc (par : List Int) (v j : Nat) : Nat := (mf_parent par)^[j] v

/-- The state of the update loop of one augmentation when it stands at vertex `v`: `cap2` is
    the matrix so far, `cap` the matrix before the loop, `aug` the amount pushed along the
    tree path from `t`. -/
structure AugInv (n t : Nat) (cap cap2 : List (List Int)) (par : List Int) (d : Nat → Nat)
    (aug : Int) (v : Nat) : Prop where
  wf : CapWF n cap2
  untouched : ∀ a b, a < n → b < n →
    (∀ x, x < n → MfVisited par x → d v < d x → a ≠ x ∧ b ≠ x) → capv cap2 a b = capv cap a b
  nonneg : ∀ a b, a < n → b < n → 0 ≤ capv cap2 a b
  pair : ∀ a b, a < n → b < n → capv cap2 a b + capv cap2 b a = capv cap a b + capv cap b a
  rows : ∀ u, u < n → rowsum n cap2 u =
    rowsum n cap u + (if u = t then aug else 0) - (if u = v then aug else 0)

/-- The invariant of `while (true)` in `MaxFlowAlg::run`: `cap` holds the residual
    capacities of a flow of value `flow` in the network with capacities `c0`. -/
structure FlowInv (n s t : Nat) (c0 : Nat → Nat → Int) (cap : List (List Int))
    (flow : Int) : Prop where
  wf : CapWF n cap
  nonneg : ∀ u v, u < n → v < n → 0 ≤ capv cap u v
  pair : ∀ u v, u < n → v < n → capv cap u v + capv cap v u = c0 u v + c0 v u
  conserve : ∀ u, u < n → u ≠ s → u ≠ t →
    rowsum n cap u = ∑ v in Finset.range n, c0 u v
  value : (∑ v in Finset.range n, c0 s v) - rowsum n cap s = flow

/-- The search found no path: the reached vertices form a cut with no residual capacity
    leaving it. -/
def MfCut (n s t : Nat) (cap : List (List Int)) (par : List Int) : Prop :=
  MfVisited par s ∧ ¬ MfVisited par t ∧
    ∀ u, u < n → MfVisited par u → ∀ v, v < n → ¬ MfVisited par v → capv cap u v = 0

/-- The capacities of the network: `1` on the arc `(u, v)` when `v` is adjacent to `u`. -/
def unit_cap (g : Graph) (u v : Nat) : Int := if v ∈ g.neighbors u then 1 else 0

/-- A flow from `s` to `t` in the network on the vertices `0..n-1` with arc capacities `c`:
    between `0` and the capacity on every arc, and conserved at every vertex other than `s`
    and `t`. -/
structure IsFlow (n s t : Nat) (c : Nat → Nat → ℚ) (f : Nat → Nat → ℚ) : Prop where
  nonneg : ∀ u v, u < n → v < n → 0 ≤ f u v
  le_cap : ∀ u v, u < n → v < n → f u v ≤ c u v
  conserve : ∀ u, u < n → u ≠ s → u ≠ t →
    ∑ v in Finset.range n, f u v = ∑ v in Finset.range n, f v u

/-- The value of a flow: what leaves `s` minus what enters `s`. -/
def flow_value (n s : Nat) (f : Nat → Nat → ℚ) : ℚ :=
  ∑ v in Finset.range n, f s v - ∑ v in Finset.range n, f v s

/-- The network of `MaxFlowAlg::run`: capacity `1` on the arc `(u, v)` for every `v` in the
    adjacency list of `u`, so on both arcs of every edge. -/
def unit_capacity (g : Graph) (u v : Nat) : ℚ := if v ∈ g.neighbors u then 1 else 0

/-! ### Hamiltonian circuit (backtracking) -/

/-- The loop `for (size_t v : G.neighbors(u))` of `HamiltonAlg::dfs` over the remaining
    neighbours; `rec` is the recursive call.  The result is the returned flag with `path` and
    `used` as the call leaves them. -/
def HamiltonAlg.dfs_loop (rec : List Int → List Int → Option (Bool × List Int × List Int)) :
    List Nat → List Int → List Int → Option (Bool × List Int × List Int)
  | [], path, used => some (false, path, used)
  | v :: vs, path, used =>
    match used[v]? with
    | none => none
    | some f =>
      if f = 0 then
        match rec (path ++ [to_int v]) (used.set v 1) with
        | none => none
        | some (true, path2, used2) => some (true, path2, used2)
        | some (false, path2, used2) =>
          HamiltonAlg.dfs_loop rec vs path2.dropLast (used2.set v 0)
      else HamiltonAlg.dfs_loop rec vs path used

/-- The method `HamiltonAlg::dfs(G, path, used, n)` with recursion depth at most `fuel`;
    `none` when the depth is exceeded or a vector is read out of range. -/
def HamiltonAlg.dfs (g : Graph) (n : Int) :
    Nat → List Int → List Int → Option (Bool × List Int × List Int)
  | 0, _, _ => none
  | fuel + 1, path, used =>
    if to_int path.length = n then
      match path.getLast?, path.head? with
      | some u, some v =>
        match get_int g.adj u with
        | none => none
        | some nb => some (nb.any (fun x => decide (to_int x = v)), path, used)
      | _, _ => none
    else
      match path.getLast? with
      | none => none
      | some u =>
        match get_int g.adj u with
        | none => none
        | some nb => HamiltonAlg.dfs_loop (HamiltonAlg.dfs g n fuel) nb path used

/-- The method `HamiltonAlg::run(G)`; `none` also when `std::vector<int> used(n, 0)` throws
    because `n` is negative. -/
def HamiltonAlg.run (g : Graph) (fuel : Nat) : Option String :=
  let n := to_int g.num_vertices
  if n < 0 then none
  else
    match set_int (List.replicate n.toNat (0 : Int)) 0 1 with
    | none => none
    | some used =>
      match HamiltonAlg.dfs g n fuel [0] used with
      | none => none
      | some (true, path, _) =>
        match path.head? with
        | none => none
        | some p0 =>
          some ("OK HAMILTON " ++ " ".intercalate (path.map toString) ++ " " ++ toString p0)
      | some (false, _, _) => some "ERR No Hamiltonian cycle"

/-! ## The second shipped version (`src/src/graph.cpp`, `src/src/euler.cpp`) -/

namespace Src

/-- The method `Graph::add_edge(u, v)` of `src/src/graph.cpp`, which looks for `v` in `adj[u]`
    and for `u` in `adj[v]`. -/
def add_edge (g : Graph) (u v : Nat) : Bool × Graph :=
  if u ≥ g.m_n ∨ v ≥ g.m_n then (false, g)
  else if u = v then (false, g)
  else if v ∈ g.adj.getD u [] then (false, g)
  else if u ∈ g.adj.getD v [] then (false, g)
  else
    (true, { m_n := g.m_n, m_m := g.m_m + 1,
             adj := Graph.push_adj (Graph.push_adj g.adj u v) v u })

/-- The graph obtained from `Graph(n)` by calling this version of `add_edge` on each pair in
    turn. -/
def build (n : Nat) (ops : List (Nat × Nat)) : Graph :=
  ops.foldl (fun g e => (add_edge g e.1 e.2).2) (Graph.new n)

/-- The body of the inner loop `for (auto v : adj[u])` of `src/src/graph.cpp`; `none` when
    `vis[v]` is out of range. -/
def bfs_visit (s : Graph.BfsState) (v : Nat) : Option Graph.BfsState :=
  match s.vis[v]? with
  | none => none
  | some true => some s
  | some false => some { vis := s.vis.set v true, q := s.q ++ [v], reached := s.reached }

/-- The inner loop `for (auto v : adj[u])` over the remaining neighbours. -/
def bfs_inner : List Nat → Graph.BfsState → Option Graph.BfsState
  | [], s => some s
  | v :: vs, s => (bfs_visit s v).bind (bfs_inner vs)

/-- The loop `while (!q.empty())` of `src/src/graph.cpp`, which counts every dequeued vertex;
    at most `fuel` iterations. -/
def bfs_loop (g : Graph) : Nat → Graph.BfsState → Option Graph.BfsState
  | 0, s =>
    match s.q with
    | [] => some s
    | _ :: _ => none
  | fuel + 1, s =>
    match s.q with
    | [] => some s
    | u :: rest =>
      match g.adj[u]? with
      | none => none
      | some nb =>
        (bfs_inner nb { s with q := rest, reached := s.reached + 1 }).bind (bfs_loop g fuel)

/-- The method `Graph::is_connected_ignoring_isolated()` of `src/src/graph.cpp`, its BFS
    limited to `fuel` iterations. -/
def is_connected_ignoring_isolated (g : Graph) (fuel : Nat) : Option Bool :=
  if g.m_n = 0 then some true
  else
    let start := ((List.range g.m_n).find? (fun i => !(g.neighbors i).isEmpty)).getD g.m_n
    if start = g.m_n then some true
    else
      (bfs_loop g fuel
        { vis := (List.replicate g.m_n false).set start true, q := [start], reached := 0 }).map
        (fun s => s.reached == (List.range g.m_n).countP (fun i => !(g.neighbors i).isEmpty))

/-- The method `Graph::all_even_degrees()` of `src/src/graph.cpp`. -/
def all_even_degrees (g : Graph) : Bool :=
  (List.range g.m_n).all (fun i => !((g.neighbors i).length % 2 != 0))

/-- The function `euler_feasibility(G)` of `src/src/euler.cpp`. -/
def euler_feasibility (g : Graph) (fuel : Nat) : Option EulerCheck :=
  match is_connected_ignoring_isolated g fuel with
  | none => none
  | some c =>
    if !c then some ⟨false, "Graph is not connected when ignoring isolated vertices"⟩
    else if !all_even_degrees g then some ⟨false, "Not all vertices have even degree"⟩
    else some ⟨true, "OK"⟩

/-- The function `find_euler_circuit(G)` of `src/src/euler.cpp`: no early return for an
    edgeless graph and no final `std::reverse`; its loop and `remove_edge` are those of
    `Stage2/euler.cpp`. -/
def find_euler_circuit (g : Graph) (fuel_bfs fuel : Nat) : Option (List Nat) :=
  match euler_feasibility g fuel_bfs with
  | none => none
  | some chk =>
    if !chk.ok then some []
    else
      let adj := (List.range g.n).map g.neighbors
      let start := find_start adj g.n
      match hierholzer_loop fuel { adj := adj, st := [start], out := [] } with
      | none => none
      | some s => some s.out

end Src

/-! ## Reading text (`Stage6/server_protocol.hpp`, `Stage1/graph.cpp`) -/

/-- The function `std::isspace` in the "C" locale. -/
def is_space (c : Char) : Bool :=
  c = ' ' || c = '\t' || c = '\n' || c = '\x0b' || c = '\x0c' || c = '\r'

/-- The loop `while (is >> t) out.push_back(t)` of `split_ws` over the remaining characters;
    `cur` is the token read so far. -/
def split_ws_from : List Char → List Char → List (List Char)
  | [], cur => if cur = [] then [] else [cur]
  | c :: cs, cur =>
    if is_space c then
      (if cur = [] then split_ws_from cs [] else cur :: split_ws_from cs [])
    else split_ws_from cs (cur ++ [c])

/-- The helper `split_ws`: the maximal runs of characters that are not white space. -/
def split_ws (s : List Char) : List (List Char) := split_ws_from s []

/-- The outcome of reading an unsigned number. -/
inductive Scan where
  | no_conversion
  | out_of_range
  | value (v : Nat) (rest : List Char)
deriving DecidableEq, Repr

/-- The value of a run of decimal digits. -/
def digits_value (ds : List Char) : Nat := ds.foldl (fun acc c => 10 * acc + (c.toNat - 48)) 0

/-- What `strtoul(s, &end, 10)` and `operator>>(std::size_t&)` do with the characters `s`:
    skip white space, take an optional sign and then decimal digits; no digit is no
    conversion, a value of `2^64` or more is out of range, and a negated value wraps around
    modulo `2^64`. -/
def scan_unsigned (s : List Char) : Scan :=
  let s1 := s.dropWhile is_space
  let neg := s1.head? = some '-'
  let s2 := if s1.head? = some '-' ∨ s1.head? = some '+' then s1.tail else s1
  let ds := s2.takeWhile Char.isDigit
  if ds = [] then .no_conversion
  else if digits_value ds ≥ 2 ^ 64 then .out_of_range
  else .value (if neg then (2 ^ 64 - digits_value ds) % 2 ^ 64 else digits_value ds)
    (s2.dropWhile Char.isDigit)

/-- The function `std::stoul(str)`: the value, or the `what()` of the exception it throws
    (`std::invalid_argument` or `std::out_of_range`). -/
def stoul (str : List Char) : Except String Nat :=
  match scan_unsigned str with
  | .no_conversion => .error "stoul"
  | .out_of_range => .error "stoul"
  | .value v _ => .ok v

/-- The extraction `is >> a >> b` of two `std::size_t` values from a line; `none` when the
    stream fails. -/
def extract_two (line : List Char) : Option (Nat × Nat) :=
  match scan_unsigned line with
  | .value a rest =>
    match scan_unsigned rest with
    | .value b _ => some (a, b)
    | _ => none
  | _ => none

/-! ## The algorithm server (`Stage7/alg_server.cpp`) -/

/-- The loop of `recv_line` over the remaining bytes of the connection; `line` holds the
    bytes read so far.  `none` when the connection ends before a newline. -/
def recv_line_from : List Char → List Char → Option (List Char × List Char)
  | [], _ => none
  | c :: cs, line =>
    if c = '\n' then some (if line.getLast? = some '\r' then line.dropLast else line, cs)
    else recv_line_from cs (line ++ [c])

/-- The function `recv_line`: the next line without its newline and without one trailing
    carriage return, and the bytes that follow it. -/
def recv_line (input : List Char) : Option (List Char × List Char) := recv_line_from input []

/-- The concrete strategy classes behind `GraphAlgorithm*`. -/
inductive GraphAlgorithm where
  | EulerCircuitAlg
  | MstWeightAlg
  | SccAlg
  | MaxFlowAlg
  | HamiltonAlg
deriving DecidableEq, Repr

/-- The factory `create_algorithm(alg_name)`; `none` is `nullptr`. -/
def create_algorithm (alg_name : List Char) : Option GraphAlgorithm :=
  if alg_name = "EULER".toList then some .EulerCircuitAlg
  else if alg_name = "MST".toList then some .MstWeightAlg
  else if alg_name = "SCC".toList then some .SccAlg
  else if alg_name = "MAXFLOW".toList then some .MaxFlowAlg
  else if alg_name = "HAMILTON".toList then some .HamiltonAlg
  else none

/-- The virtual call `alg->run(G)`; every loop of the strategy is limited to `fuel`
    iterations. -/
def run_algorithm (alg : GraphAlgorithm) (g : Graph) (fuel : Nat) : Option String :=
  match alg with
  | .EulerCircuitAlg => EulerCircuitAlg.run g fuel fuel
  | .MstWeightAlg => MstWeightAlg.run g fuel
  | .SccAlg => SccAlg.run g fuel
  | .MaxFlowAlg => MaxFlowAlg.run g fuel
  | .HamiltonAlg => HamiltonAlg.run g fuel

/-- How `handle_client` ends: it returns `false` before anything is sent (`closed`), it
    passes `response` to `send_str` and returns `true` (`sent`), an exception with the given
    `what()` leaves it (`uncaught`), or it reads `toks[2]` beyond the end of the vector
    (`out_of_range`). -/
inductive Outcome where
  | closed
  | sent (response : String)
  | uncaught (what : String)
  | out_of_range
deriving DecidableEq, Repr

/-- The loop `for (size_t i = 0; i < m; ++i)` of FILE mode with `k` iterations to go: the
    graph and the unread bytes after the loop, or the outcome that ends the request. -/
def read_edges : Nat → Graph → List Char → Outcome ⊕ (Graph × List Char)
  | 0, g, input => .inr (g, input)
  | k + 1, g, input =>
    match recv_line input with
    | none => .inl (.sent "ERR missing edges\nEND\n")
    | some (line, rest) =>
      match split_ws line with
      | [a, b] =>
        match stoul a with
        | .error what => .inl (.uncaught what)
        | .ok u =>
          match stoul b with
          | .error what => .inl (.uncaught what)
          | .ok v =>
            if (g.add_edge u v).1 then read_edges k (g.add_edge u v).2 rest
            else .inl (.sent "ERR invalid/duplicate edge\nEND\n")
      | _ => .inl (.sent "ERR bad edge\nEND\n")

/-- The RAND branch of `handle_client`: the graph of the request, or the outcome that ends
    it; `none` while `random_simple` is still sampling after `fuel` rounds.  Every exception
    of `random_simple` is caught as a `std::exception` and answered with its message. -/
def rand_graph (rng : Nat → RandomSource) (fuel : Nat) (toks : List (List Char)) :
    Option (Outcome ⊕ Graph) :=
  match toks with
  | [_, _, _, a, b, c] =>
    match stoul a with
    | .error what => some (.inl (.uncaught what))
    | .ok n =>
      match stoul b with
      | .error what => some (.inl (.uncaught what))
      | .ok m =>
        match stoul c with
        | .error what => some (.inl (.uncaught what))
        | .ok seed =>
          match Graph.random_simple (rng (seed % 2 ^ 32)) n m fuel with
          | none => none
          | some (.invalid_argument what) => some (.inl (.sent ("ERR " ++ what ++ "\nEND\n")))
          | some (.length_error what) => some (.inl (.sent ("ERR " ++ what ++ "\nEND\n")))
          | some (.graph g) => some (.inr g)
  | _ => some (.inl (.sent "ERR RAND usage\nEND\n"))

/-- The FILE branch of `handle_client`: the graph of the request, or the outcome that ends
    it.  The assignment `G = Graph(n)` stands outside any `try`: for `n` above
    `adj_max_size` its `std::length_error` leaves `handle_client`. -/
def file_graph (rest : List Char) : Outcome ⊕ Graph :=
  match recv_line rest with
  | none => .inl (.sent "ERR missing n m\nEND\n")
  | some (line, rest2) =>
    match split_ws line with
    | [a, b] =>
      match stoul a with
      | .error what => .inl (.uncaught what)
      | .ok n =>
        match stoul b with
        | .error what => .inl (.uncaught what)
        | .ok m =>
          if n > adj_max_size then .inl (.uncaught vector_length_what)
          else
            match read_edges m (Graph.new n) rest2 with
            | .inl o => .inl o
            | .inr (g, rest3) =>
              match recv_line rest3 with
              | none => .inl (.sent "ERR expected END\nEND\n")
              | some (last, _) =>
                if last ≠ "END".toList then .inl (.sent "ERR expected END\nEND\n")
                else .inr g
    | _ => .inl (.sent "ERR bad n m\nEND\n")

/-- The part of `handle_client` that builds the graph (`if (toks[2] == "RAND") … else if
    (toks[2] == "FILE") … else …`), given the third token. -/
def request_graph (rng : Nat → RandomSource) (fuel : Nat) (toks : List (List Char))
    (mode : List Char) (rest : List Char) : Option (Outcome ⊕ Graph) :=
  if mode = "RAND".toList then rand_graph rng fuel toks
  else if mode = "FILE".toList then some (file_graph rest)
  else some (.inl (.sent "ERR unknown input mode\nEND\n"))

/-- The function `handle_client(fd)` on the bytes the peer sends before closing; `rng` gives
    the pseudo-random source of each seed.  `none` when `random_simple` or the strategy
    yields no result within `fuel` iterations of some loop. -/
def handle_client (rng : Nat → RandomSource) (fuel : Nat) (input : List Char) :
    Option Outcome :=
  match recv_line input with
  | none => some .closed
  | some (line, rest) =>
    let toks := split_ws line
    if toks.length < 2 ∨ toks[0]? ≠ some "ALG".toList then
      some (.sent "ERR bad request\nEND\n")
    else
      match toks[1]?, toks[2]? with
      | some alg_name, some mode =>
        match request_graph rng fuel toks mode rest with
        | none => none
        | some (.inl o) => some o
        | some (.inr g) =>
          match create_algorithm alg_name with
          | none => some (.sent "ERR unknown algorithm\nEND\n")
          | some alg =>
            match run_algorithm alg g fuel with
            | none => none
            | some result => some (.sent (result ++ "\nEND\n"))
      | _, _ => some .out_of_range

/-! ## Loading a graph from a file (`Stage1/graph.cpp`, `Graph::load_from_file`) -/

/-- The lines that successive calls of `std::getline` return on the remaining characters of
    a file; `cur` is the line read so far. -/
def get_lines_from : List Char → List Char → List (List Char)
  | [], cur => if cur = [] then [] else [cur]
  | c :: cs, cur => if c = '\n' then cur :: get_lines_from cs [] else get_lines_from cs (cur ++ [c])

/-- The lines that successive calls of `std::getline` return on a file. -/
def get_lines (content : List Char) : List (List Char) := get_lines_from content []

/-- The test `only_ws || (!line.empty() && line[0] == '#')` for a line to skip. -/
def skip_line (line : List Char) : Bool := line.all is_space || line.head? = some '#'

/-- The first loop of `load_from_file`: `n`, `m` and the lines not yet read; `none` when the
    header does not parse.  Without a header line `n` and `m` keep their initial value `0`. -/
def read_header : List (List Char) → Option ((Nat × Nat) × List (List Char))
  | [] => some ((0, 0), [])
  | line :: rest =>
    if skip_line line then read_header rest
    else
      match extract_two line with
      | none => none
      | some nm => some (nm, rest)

/-- The second loop of `load_from_file`, `while (added < m && std::getline(in, line))`, with
    `k = m - added` edges still to read; `none` is `std::nullopt`. -/
def read_edge_lines (k : Nat) (g : Graph) : List (List Char) → Option Graph
  | [] => if k = 0 then some g else none
  | line :: rest =>
    match k with
    | 0 => some g
    | k2 + 1 =>
      if skip_line line then read_edge_lines (k2 + 1) g rest
      else
        match extract_two line with
        | none => none
        | some (u, v) =>
          if (g.add_edge u v).1 then read_edge_lines k2 (g.add_edge u v).2 rest else none

/-- The result of `Graph::load_from_file`: `std::nullopt`, the returned graph, or the
    `std::length_error` thrown by the vector of `Graph g(n)`, with its message. -/
inductive LoadResult where
  | nullopt
  | loaded (g : Graph)
  | length_error (what : String)
deriving DecidableEq, Repr

/-- The function `Graph::load_from_file(path)` on the content of the file at `path` (`none`
    when the file cannot be opened).  After the validation `Graph g(n)` throws for `n` above
    `adj_max_size`. -/
def Graph.load_from_file (file : Option (List Char)) : LoadResult :=
  match file with
  | none => .nullopt
  | some content =>
    match read_header (get_lines content) with
    | none => .nullopt
    | some ((n, m), rest) =>
      if n = 0 ∧ m ≠ 0 then .nullopt
      else if n ≠ 0 ∧ m > max_edges_u64 n then .nullopt
      else if n > adj_max_size then .length_error vector_length_what
      else
        match read_edge_lines m (Graph.new n) rest with
        | none => .nullopt
        | some g => .loaded g

/-- The state of the backtracking search: `pn` is the path (distinct vertices along edges),
    and `used` marks exactly the vertices of the path. -/
structure HamState (g : Graph) (n : Nat) (pn : List Nat) (used : List Int) : Prop where
  ne : pn ≠ []
  nodup : pn.Nodup
  lt : ∀ v ∈ pn, v < n
  chain : List.Chain' g.Adj pn
  ulen : used.length = n
  umark : ∀ v, v < n → used[v]? = some (if v ∈ pn then 1 else 0)

/-- The path `pn` followed by `ext` visits `n` distinct vertices along edges, and its last
    vertex is adjacent to its first. -/
def HamCompletes (g : Graph) (n : Nat) (pn ext : List Nat) : Prop :=
  (pn ++ ext).length = n ∧ (pn ++ ext).Nodup ∧ (∀ v ∈ ext, v < n) ∧
    List.Chain' g.Adj (pn ++ ext) ∧
    ∃ l h, (pn ++ ext).getLast? = some l ∧ (pn ++ ext).head? = some h ∧ g.Adj l h

/-- What a call of `dfs` on the path `pn` returns: `false` with `path` and `used` restored when
    no completion of the path exists, `true` with `path` completed otherwise. -/
def HamPost (g : Graph) (n : Nat) (pn : List Nat) (used : List Int)
    (r : Bool × List Int × List Int) : Prop :=
  (r.1 = false → r.2.1 = pn.map (fun x : Nat => (x : Int)) ∧ r.2.2 = used ∧
    ∀ ext, ¬ HamCompletes g n pn ext) ∧
  (r.1 = true → ∃ ext, r.2.1 = (pn ++ ext).map (fun x : Nat => (x : Int)) ∧
    HamCompletes g n pn ext)

/-- What the neighbour loop of `dfs` returns after trying the neighbours `vs`. -/
def HamLoopPost (g : Graph) (n : Nat) (pn : List Nat) (used : List Int) (vs : List Nat)
    (r : Bool × List Int × List Int) : Prop :=
  (r.1 = false → r.2.1 = pn.map (fun x : Nat => (x : Int)) ∧ r.2.2 = used ∧
    ∀ v ∈ vs, ∀ ext, ¬ HamCompletes g n pn (v :: ext)) ∧
  (r.1 = true → ∃ ext, r.2.1 = (pn ++ ext).map (fun x : Nat => (x : Int)) ∧
    HamCompletes g n pn ext)

/-- An ordering of all `n` vertices that starts at vertex `0`, has every consecutive pair
    adjacent, and whose last vertex is adjacent to vertex `0`. -/
def IsHamiltonOrder (g : Graph) (n : Nat) (p : List Nat) : Prop :=
  p.length = n ∧ p.Nodup ∧ (∀ v ∈ p, v < n) ∧ p.head? = some 0 ∧ List.Chain' g.Adj p ∧
    ∃ l, p.getLast? = some l ∧ g.Adj l 0

/-- What the Hierholzer loop keeps true of its adjacency copy and stack on any graph,
    feasible or not: the copy stays symmetric, duplicate-free and loop-free with entries below
    `n`, the stack holds vertices below `n`, and every edge removed so far is accounted for by
    a pushed vertex. -/
structure HWeak (n m : Nat) (s : HState) : Prop where
  len : s.adj.length = n
  symm : ∀ x y, y ∈ s.adj.getD x [] → x ∈ s.adj.getD y []
  nodup : ∀ x, (s.adj.getD x []).Nodup
  irrefl : ∀ x, x ∉ s.adj.getD x []
  lt : ∀ x y, y ∈ s.adj.getD x [] → y < n
  st_lt : ∀ x ∈ s.st, x < n
  count : (s.adj.map List.length).sum + 2 * (s.st.length + s.out.length) = 2 * m + 2

/-- How the states of the two breadth-first searches correspond: same `vis`, same queue, and
    the Stage1 counter is ahead by the vertices still in the queue. -/
def BfsSim (s1 ss : Graph.BfsState) : Prop :=
  ss.vis = s1.vis ∧ ss.q = s1.q ∧ s1.reached = ss.reached + ss.q.length

/-- What a caller observes of the outcome of `random_simple`: the reason of the thrown
    exception, or the vertex count and the edge set of the returned graph. -/
def GenResult.view : GenResult → String ⊕ (Nat × Finset (Sym2 Nat))
  | .invalid_argument what => .inl what
  | .length_error what => .inl what
  | .graph g => .inr (g.m_n, g.edge_set)

/-- The counting random source with the `unordered_set` visited in reverse insertion
    order. -/
def RandomSource.counting_reversed : RandomSource where
  draw := fun n i => i % n
  draw_lt := fun _ _ h => Nat.mod_lt _ h
  order := fun l => l.reverse
  order_perm := fun l => List.reverse_perm l
  shuffle := fun l => l
  shuffle_perm := fun l => List.Perm.refl l

/-- The lines of a FILE request that follow the header are edge lines for the pairs `es`:
    for each pair `(u, v)` in turn one line of two tokens that `std::stoul` reads as `u` and
    `v`; `out` is the input that follows these lines. -/
def EdgeLines : List (Nat × Nat) → List Char → List Char → Prop
  | [], input, out => input = out
  | e :: es, input, out =>
    ∃ line rest a b, recv_line input = some (line, rest) ∧ split_ws line = [a, b] ∧
      stoul a = .ok e.1 ∧ stoul b = .ok e.2 ∧ EdgeLines es rest out

/-- A response that was sent ends with the line `END`. -/
def Outcome.Framed (o : Outcome) : Prop :=
  ∀ r, o = .sent r → ∃ body : String, r = body ++ "\nEND\n"

/-! ## Basic facts about `add_edge` -/

namespace Graph

theorem neighbors_new (n u : Nat) : (Graph.new n).neighbors u = [] := by
  unfold neighbors new
  simp only [List.getD_eq_getElem?_getD]
  by_cases h : u < n
  · simp [List.getElem?_replicate, h]
  · simp [List.getElem?_replicate, h]

theorem getD_push_adj (adj : List (List Nat)) (u v w : Nat) (hu : u < adj.length) :
    (push_adj adj u v).getD w [] = if w = u then adj.getD u [] ++ [v] else adj.getD w [] := by
  unfold push_adj
  simp only [List.getD_eq_getElem?_getD]
  by_cases h : w = u
  · subst h
    simp [hu]
  · have h' : u ≠ w := fun e => h e.symm
    simp [h, List.getElem?_set_ne h']

theorem length_push_adj (adj : List (List Nat)) (u v : Nat) :
    (push_adj adj u v).length = adj.length := by
  simp [push_adj]

end Graph

namespace Graph

theorem add_edge_fst (g : Graph) (u v : Nat) :
    (g.add_edge u v).1 = true ↔ (u < g.m_n ∧ v < g.m_n ∧ u ≠ v ∧ v ∉ g.neighbors u) := by
  unfold add_edge neighbors
  by_cases h1 : u ≥ g.m_n ∨ v ≥ g.m_n
  · simp only [h1, if_true]
    constructor
    · intro h; cases h
    · rintro ⟨a, b, -, -⟩; omega
  · by_cases h2 : u = v
    · simp [h1, h2]
    · by_cases h3 : v ∈ g.adj.getD u []
      · rw [if_neg h1, if_neg h2, if_pos h3]
        simp only [Bool.false_eq_true, false_iff]
        tauto
      · rw [if_neg h1, if_neg h2, if_neg h3]
        simp only [true_iff]
        exact ⟨by omega, by omega, h2, h3⟩

theorem add_edge_snd_of_false (g : Graph) (u v : Nat) (h : (g.add_edge u v).1 = false) :
    (g.add_edge u v).2 = g := by
  unfold add_edge at h ⊢
  by_cases h1 : u ≥ g.m_n ∨ v ≥ g.m_n
  · simp [h1]
  · by_cases h2 : u = v
    · simp [h1, h2]
    · by_cases h3 : v ∈ g.adj.getD u []
      · rw [if_neg h1, if_neg h2, if_pos h3]
      · rw [if_neg h1, if_neg h2, if_neg h3] at h
        cases h

theorem add_edge_snd_of_true (g : Graph) (u v : Nat) (h : (g.add_edge u v).1 = true) :
    (g.add_edge u v).2 =
      { m_n := g.m_n, m_m := g.m_m + 1, adj := push_adj (push_adj g.adj u v) v u } := by
  unfold add_edge at h ⊢
  by_cases h1 : u ≥ g.m_n ∨ v ≥ g.m_n
  · simp [h1] at h
  · by_cases h2 : u = v
    · simp [h1, h2] at h
    · by_cases h3 : v ∈ g.adj.getD u []
      · rw [if_neg h1, if_neg h2, if_pos h3] at h
        cases h
      · rw [if_neg h1, if_neg h2, if_neg h3]

theorem neighbors_add_edge (g : Graph) (u v w : Nat) (hlen : g.adj.length = g.m_n)
    (h : (g.add_edge u v).1 = true) :
    (g.add_edge u v).2.neighbors w =
      if w = v then g.neighbors v ++ [u]
      else if w = u then g.neighbors u ++ [v] else g.neighbors w := by
  obtain ⟨hu, hv, huv, -⟩ := (add_edge_fst g u v).1 h
  rw [add_edge_snd_of_true g u v h]
  unfold neighbors
  simp only
  rw [getD_push_adj _ _ _ _ (by rw [length_push_adj]; omega)]
  rw [getD_push_adj _ _ _ _ (by omega), getD_push_adj _ _ _ _ (by omega)]
  have hvu : v ≠ u := fun e => huv e.symm
  by_cases h1 : w = v
  · simp [h1, hvu]
  · simp [h1]

theorem sum_length_push_adj (adj : List (List Nat)) (u v : Nat) (hu : u < adj.length) :
    ((push_adj adj u v).map List.length).sum = (adj.map List.length).sum + 1 := by
  unfold push_adj
  induction adj generalizing u with
  | nil => simp at hu
  | cons a t ih =>
    cases u with
    | zero => simp; omega
    | succ k =>
      simp only [List.length_cons, Nat.add_lt_add_iff_right] at hu
      have := ih k hu
      simp only [List.getD_cons_succ, List.set_cons_succ, List.map_cons, List.sum_cons]
      omega

theorem inv_new (n : Nat) : (Graph.new n).Inv where
  len := by simp [new]
  lt := by intro u v h; simp [neighbors_new] at h
  irrefl := by intro u; simp [neighbors_new]
  symm := by intro u v h; simp [neighbors_new] at h
  nodup := by intro u; simp [neighbors_new]
  count := by simp [new, degree_sum]

theorem inv_add_edge (g : Graph) (u v : Nat) (hg : g.Inv) : (g.add_edge u v).2.Inv := by
  cases hb : (g.add_edge u v).1 with
  | false => rw [add_edge_snd_of_false g u v hb]; exact hg
  | true =>
    obtain ⟨hu, hv, huv, hnot⟩ := (add_edge_fst g u v).1 hb
    have hnb := fun w => neighbors_add_edge g u v w hg.len hb
    have hnot' : u ∉ g.neighbors v := fun h => hnot (hg.symm v u h)
    have hn : (g.add_edge u v).2.m_n = g.m_n := by rw [add_edge_snd_of_true g u v hb]
    have hvu : v ≠ u := fun e => huv e.symm
    refine ⟨?_, ?_, ?_, ?_, ?_, ?_⟩
    · rw [add_edge_snd_of_true g u v hb]; simp [length_push_adj, hg.len]
    · intro a b hab
      rw [hnb a] at hab
      rw [hn]
      split_ifs at hab with h1 h2
      · rcases List.mem_append.1 hab with h | h
        · exact hg.lt _ _ h
        · simp at h; omega
      · rcases List.mem_append.1 hab with h | h
        · exact hg.lt _ _ h
        · simp at h; omega
      · exact hg.lt _ _ hab
    · intro a ha
      rw [hnb a] at ha
      split_ifs at ha with h1 h2
      · rcases List.mem_append.1 ha with h | h
        · exact hg.irrefl _ (h1 ▸ h)
        · simp at h; omega
      · rcases List.mem_append.1 ha with h | h
        · exact hg.irrefl _ (h2 ▸ h)
        · simp at h; omega
      · exact hg.irrefl _ ha
    · intro a b hab
      rw [hnb a] at hab
      rw [hnb b]
      split_ifs at hab with h1 h2
      · subst h1
        rcases List.mem_append.1 hab with h | h
        · have := hg.symm _ _ h
          have hne : b ≠ a := fun e => hg.irrefl a (e ▸ h)
          simp only [hne, if_false]
          split_ifs <;> simp [this]
        · simp at h; subst h
          simp [huv]
      · subst h2
        rcases List.mem_append.1 hab with h | h
        · have := hg.symm _ _ h
          have hne : b ≠ a := fun e => hg.irrefl a (e ▸ h)
          split_ifs <;> simp [this]
        · simp at h; subst h
          simp
      · have := hg.symm _ _ hab
        split_ifs with h3 h4
        · subst h3; simp [this]
        · subst h4; simp [this]
        · exact this
    · intro a
      rw [hnb a]
      split_ifs with h1 h2
      · exact List.Nodup.append (hg.nodup _) (by simp) (by simpa using hnot')
      · exact List.Nodup.append (hg.nodup _) (by simp) (by simpa using hnot)
      · exact hg.nodup _
    · rw [add_edge_snd_of_true g u v hb]
      unfold degree_sum
      simp only
      rw [sum_length_push_adj _ _ _ (by rw [length_push_adj]; have := hg.len; omega),
        sum_length_push_adj _ _ _ (by have := hg.len; omega)]
      have := hg.count
      unfold degree_sum at this
      omega

theorem inv_foldl (ops : List (Nat × Nat)) (g : Graph) (hg : g.Inv) :
    (ops.foldl (fun g e => (g.add_edge e.1 e.2).2) g).Inv := by
  induction ops generalizing g with
  | nil => exact hg
  | cons e t ih => exact ih _ (inv_add_edge g e.1 e.2 hg)

theorem inv_build (n : Nat) (ops : List (Nat × Nat)) : (build n ops).Inv :=
  inv_foldl ops _ (inv_new n)

theorem m_n_add_edge (g : Graph) (u v : Nat) : (g.add_edge u v).2.m_n = g.m_n := by
  cases hb : (g.add_edge u v).1 with
  | false => rw [add_edge_snd_of_false g u v hb]
  | true => rw [add_edge_snd_of_true g u v hb]

theorem m_n_foldl (ops : List (Nat × Nat)) (g : Graph) :
    (ops.foldl (fun g e => (g.add_edge e.1 e.2).2) g).m_n = g.m_n := by
  induction ops generalizing g with
  | nil => rfl
  | cons e t ih => simp only [List.foldl_cons]; rw [ih, m_n_add_edge]

theorem m_n_build (n : Nat) (ops : List (Nat × Nat)) : (build n ops).m_n = n := by
  unfold build; rw [m_n_foldl]; rfl

end Graph

namespace Graph

theorem neighbors_length_le (g : Graph) (hg : g.Inv) (u : Nat) (hu : u < g.m_n) :
    (g.neighbors u).length ≤ g.m_n - 1 := by
  have hsub : (g.neighbors u).toFinset ⊆ (Finset.range g.m_n).erase u := by
    intro x hx
    rw [List.mem_toFinset] at hx
    rw [Finset.mem_erase, Finset.mem_range]
    exact ⟨fun e => hg.irrefl u (e ▸ hx), hg.lt u x hx⟩
  have hcard := Finset.card_le_card hsub
  rw [List.toFinset_card_of_nodup (hg.nodup u),
    Finset.card_erase_of_mem (Finset.mem_range.2 hu), Finset.card_range] at hcard
  exact hcard

theorem degree_sum_le (g : Graph) (hg : g.Inv) : g.degree_sum ≤ g.m_n * (g.m_n - 1) := by
  unfold degree_sum
  have h := List.sum_le_card_nsmul (g.adj.map List.length) (g.m_n - 1) (by
    intro x hx
    obtain ⟨l, hl, rfl⟩ := List.mem_map.1 hx
    obtain ⟨i, hi, rfl⟩ := List.getElem_of_mem hl
    have := neighbors_length_le g hg i (by rw [← hg.len]; exact hi)
    unfold neighbors at this
    rw [List.getD_eq_getElem _ _ hi] at this
    exact this)
  simpa [hg.len] using h

theorem m_le_of_inv (g : Graph) (hg : g.Inv) : g.m_m ≤ g.m_n * (g.m_n - 1) / 2 := by
  have h1 := degree_sum_le g hg
  have h2 := hg.count
  rw [Nat.le_div_iff_mul_le (by norm_num)]
  omega

end Graph

/-! ## Claims about `add_edge` and the structural invariants -/

/-- C1: `add_edge(u, v)` returns true exactly when `u < n`, `v < n`, `u ≠ v` and `v` is not
    already in the adjacency list of `u`. -/
theorem add_edge_true_iff (g : Graph) (u v : Nat) :
    (g.add_edge u v).1 = true ↔
      (u < g.n ∧ v < g.n ∧ u ≠ v ∧ v ∉ g.neighbors u) :=
  Graph.add_edge_fst g u v

/-- C2: when `add_edge(u, v)` returns false the graph is left exactly as it was
    (`n`, `m` and every adjacency list). -/
theorem add_edge_false_unchanged (g : Graph) (u v : Nat)
    (h : (g.add_edge u v).1 = false) :
    (g.add_edge u v).2 = g ∧ (g.add_edge u v).2.n = g.n ∧ (g.add_edge u v).2.m = g.m ∧
      ∀ w, (g.add_edge u v).2.neighbors w = g.neighbors w := by
  rw [Graph.add_edge_snd_of_false g u v h]
  exact ⟨rfl, rfl, rfl, fun _ => rfl⟩

theorem add_edge_false_unchanged_witness :
    (((Graph.new 3).add_edge 0 1).2.add_edge 1 0).1 = false ∧
    (((Graph.new 3).add_edge 0 1).2.add_edge 1 0).2 = ((Graph.new 3).add_edge 0 1).2 :=
  ⟨by decide, (add_edge_false_unchanged ((Graph.new 3).add_edge 0 1).2 1 0 (by decide)).1⟩

/-- C3: when `add_edge(u, v)` returns true on a graph whose adjacency vector has `n` entries,
    afterwards `v` is a neighbor of `u` and `u` of `v`, `m` grew by exactly one, `n` is
    unchanged and the adjacency list of every other vertex is unchanged. -/
theorem add_edge_true_effect (g : Graph) (u v : Nat) (hlen : g.adj.length = g.n)
    (h : (g.add_edge u v).1 = true) :
    v ∈ (g.add_edge u v).2.neighbors u ∧ u ∈ (g.add_edge u v).2.neighbors v ∧
    (g.add_edge u v).2.m = g.m + 1 ∧ (g.add_edge u v).2.n = g.n ∧
    ∀ w, w ≠ u → w ≠ v → (g.add_edge u v).2.neighbors w = g.neighbors w := by
  have hnb := fun w => Graph.neighbors_add_edge g u v w hlen h
  obtain ⟨-, -, huv, -⟩ := (Graph.add_edge_fst g u v).1 h
  refine ⟨?_, ?_, ?_, ?_, ?_⟩
  · rw [hnb u]; simp [huv]
  · rw [hnb v]; simp
  · rw [Graph.add_edge_snd_of_true g u v h]; rfl
  · rw [Graph.add_edge_snd_of_true g u v h]; rfl
  · intro w hwu hwv
    rw [hnb w]; simp [hwu, hwv]

theorem add_edge_true_effect_witness :
    ((Graph.new 3).add_edge 0 1).1 = true ∧
    1 ∈ ((Graph.new 3).add_edge 0 1).2.neighbors 0 ∧
    0 ∈ ((Graph.new 3).add_edge 0 1).2.neighbors 1 ∧
    ((Graph.new 3).add_edge 0 1).2.m = (Graph.new 3).m + 1 :=
  have h := add_edge_true_effect (Graph.new 3) 0 1 (by decide) (by decide)
  ⟨by decide, h.1, h.2.1, h.2.2.1⟩

/-- C4: symmetry invariant. In every graph obtained from `Graph(n)` by any sequence of
    `add_edge` calls, `v ∈ neighbors(u)` if and only if `u ∈ neighbors(v)`. -/
theorem build_symmetric (n : Nat) (ops : List (Nat × Nat)) (u v : Nat) :
    v ∈ (Graph.build n ops).neighbors u ↔ u ∈ (Graph.build n ops).neighbors v :=
  ⟨(Graph.inv_build n ops).symm u v, (Graph.inv_build n ops).symm v u⟩

/-- C5: simplicity invariant. In every graph obtained from `Graph(n)` by `add_edge` calls,
    every adjacency list holds only ids below `n`, holds no id twice, and the list of `u`
    never holds `u`. -/
theorem build_simple (n : Nat) (ops : List (Nat × Nat)) (u : Nat) :
    (∀ v ∈ (Graph.build n ops).neighbors u, v < n) ∧
    ((Graph.build n ops).neighbors u).Nodup ∧
    u ∉ (Graph.build n ops).neighbors u := by
  have hg := Graph.inv_build n ops
  refine ⟨fun v hv => ?_, hg.nodup u, hg.irrefl u⟩
  have := hg.lt u v hv
  rwa [Graph.m_n_build] at this

/-- C6: edge-count invariant. In every graph obtained from `Graph(n)` by `add_edge` calls,
    the sum of the adjacency-list sizes is `2 * m()`, so `m()` is half that sum. -/
theorem build_degree_sum (n : Nat) (ops : List (Nat × Nat)) :
    (Graph.build n ops).degree_sum = 2 * (Graph.build n ops).m ∧
    (Graph.build n ops).m = (Graph.build n ops).degree_sum / 2 := by
  have h := (Graph.inv_build n ops).count
  refine ⟨h, ?_⟩
  unfold Graph.m
  omega

/-- C7: edge-count bound. In every graph obtained from `Graph(n)` by `add_edge` calls,
    `m() ≤ n(n-1)/2`, and once `m() = n(n-1)/2` every further `add_edge` returns false. -/
theorem build_m_bound (n : Nat) (ops : List (Nat × Nat)) :
    0 ≤ (Graph.build n ops).m ∧ (Graph.build n ops).m ≤ n * (n - 1) / 2 ∧
    ((Graph.build n ops).m = n * (n - 1) / 2 →
      ∀ u v, ((Graph.build n ops).add_edge u v).1 = false) := by
  have hg := Graph.inv_build n ops
  have hb := Graph.m_le_of_inv _ hg
  rw [Graph.m_n_build] at hb
  refine ⟨Nat.zero_le _, hb, ?_⟩
  intro hfull u v
  cases hr : ((Graph.build n ops).add_edge u v).1 with
  | false => rfl
  | true =>
    exfalso
    have hg2 := Graph.inv_add_edge _ u v hg
    have hb2 := Graph.m_le_of_inv _ hg2
    rw [Graph.m_n_add_edge, Graph.m_n_build, Graph.add_edge_snd_of_true _ u v hr] at hb2
    simp only at hb2
    unfold Graph.m at hfull
    omega

theorem build_m_bound_witness :
    (Graph.build 2 [(0, 1)]).m = 2 * (2 - 1) / 2 ∧
    ((Graph.build 2 [(0, 1)]).add_edge 1 0).1 = false :=
  ⟨by decide, (build_m_bound 2 [(0, 1)]).2.2 (by decide) 1 0⟩

namespace Graph

/-! ## Correctness of the connectivity test -/

theorem adj_getElem?_of_lt (g : Graph) (hlen : g.adj.length = g.m_n) (u : Nat) (hu : u < g.m_n) :
    g.adj[u]? = some (g.neighbors u) := by
  unfold neighbors
  rw [List.getD_eq_getElem?_getD, List.getElem?_eq_getElem (by omega)]
  rfl

theorem neighbors_eq_nil_of_ge (g : Graph) (hlen : g.adj.length = g.m_n) (u : Nat)
    (hu : g.m_n ≤ u) : g.neighbors u = [] := by
  unfold neighbors
  rw [List.getD_eq_getElem?_getD, List.getElem?_eq_none (by omega)]
  rfl

theorem joined_symm (g : Graph) (hg : g.Inv) {u v : Nat} (h : g.Joined u v) : g.Joined v u := by
  unfold Joined at *
  induction h with
  | refl => exact Relation.ReflTransGen.refl
  | tail _ hbc ih => exact Relation.ReflTransGen.head (hg.symm _ _ hbc) ih

theorem nonIsolated_succ (g : Graph) (k : Nat) :
    g.nonIsolated (k + 1) =
      if g.neighbors k ≠ [] then insert k (g.nonIsolated k) else g.nonIsolated k := by
  unfold nonIsolated
  rw [Finset.range_succ, Finset.filter_insert]

theorem scan_prefix (g : Graph) (k : Nat) (hk : k ≤ g.m_n) :
    ((List.range k).foldl g.scan_step (g.m_n, 0)).2 = (g.nonIsolated k).card ∧
    (((List.range k).foldl g.scan_step (g.m_n, 0)).2 = 0 →
      ((List.range k).foldl g.scan_step (g.m_n, 0)).1 = g.m_n) ∧
    (0 < ((List.range k).foldl g.scan_step (g.m_n, 0)).2 →
      ((List.range k).foldl g.scan_step (g.m_n, 0)).1 < k ∧
      g.neighbors ((List.range k).foldl g.scan_step (g.m_n, 0)).1 ≠ []) := by
  induction k with
  | zero => simp [nonIsolated]
  | succ k ih =>
    obtain ⟨h1, h2, h3⟩ := ih (by omega)
    rw [List.range_succ, List.foldl_append]
    simp only [List.foldl_cons, List.foldl_nil]
    generalize (List.range k).foldl g.scan_step (g.m_n, 0) = acc at h1 h2 h3 ⊢
    rw [nonIsolated_succ]
    have hnotin : k ∉ g.nonIsolated k := by simp [nonIsolated]
    unfold scan_step
    by_cases he : g.neighbors k = []
    · simp only [he, List.isEmpty_nil, if_true, ne_eq, not_true_eq_false, if_false]
      refine ⟨h1, h2, fun hpos => ?_⟩
      obtain ⟨a, b⟩ := h3 hpos
      exact ⟨by omega, b⟩
    · have he' : (g.neighbors k).isEmpty = false := by
        cases hn : g.neighbors k with
        | nil => exact absurd hn he
        | cons a t => rfl
      simp only [he', Bool.false_eq_true, if_false, ne_eq, he, not_false_eq_true, if_true]
      refine ⟨?_, ?_, ?_⟩
      · rw [Finset.card_insert_of_not_mem hnotin, h1]
      · intro h; omega
      · intro _
        by_cases hz : acc.2 = 0
        · rw [if_pos (h2 hz)]
          exact ⟨by omega, he⟩
        · obtain ⟨a, b⟩ := h3 (by omega)
          have : acc.1 ≠ g.m_n := by omega
          rw [if_neg this]
          exact ⟨by omega, b⟩

theorem scan_spec (g : Graph) :
    g.scan.2 = (g.nonIsolated g.m_n).card ∧
    (0 < g.scan.2 → g.scan.1 < g.m_n ∧ g.neighbors g.scan.1 ≠ []) := by
  obtain ⟨h1, -, h3⟩ := scan_prefix g g.m_n (le_refl _)
  exact ⟨h1, h3⟩

theorem getElem?_set_true (vis : List Bool) (v w : Nat) (hv : v < vis.length) :
    (vis.set v true)[w]? = some true ↔ (w = v ∨ vis[w]? = some true) := by
  rw [List.getElem?_set]
  by_cases h : v = w
  · subst h; simp [hv]
  · have : ¬ w = v := fun e => h e.symm
    simp [h, this]

theorem count_false_set (vis : List Bool) (v : Nat) (h : vis[v]? = some false) :
    (vis.set v true).count false + 1 = vis.count false := by
  induction vis generalizing v with
  | nil => simp at h
  | cons a t ih =>
    cases v with
    | zero =>
      simp at h
      subst h
      simp
    | succ k =>
      simp only [List.getElem?_cons_succ] at h
      have := ih k h
      simp only [List.set_cons_succ, List.count_cons]
      omega

theorem bfs_visit_spec (g : Graph) (start : Nat) (s : BfsState) (v : Nat) (X : Nat → Prop)
    (hs : BfsInv g start s) (hv : v < g.m_n) (hj : g.Joined start v) :
    ∃ s2, bfs_visit g s v = some s2 ∧ BfsInv g start s2 ∧
      s2.vis.count false + s2.q.length = s.vis.count false + s.q.length ∧
      s2.vis[v]? = some true ∧
      (∀ w : Nat, s.vis[w]? = some true → s2.vis[w]? = some true) ∧
      (BfsClosed g s X → BfsClosed g s2 X) := by
  have hvl : v < s.vis.length := by rw [hs.len]; exact hv
  unfold bfs_visit
  cases hb : s.vis[v]? with
  | none =>
    rw [List.getElem?_eq_none_iff] at hb
    omega
  | some b =>
    cases b with
    | true => exact ⟨s, rfl, hs, rfl, hb, fun _ h => h, fun h => h⟩
    | false =>
      refine ⟨_, rfl, ⟨?_, ?_, ?_, ?_⟩, ?_, ?_, ?_, ?_⟩
      · simp [hs.len]
      · intro w hw
        simp only at hw ⊢
        rw [getElem?_set_true _ _ _ hvl]
        rcases List.mem_append.1 hw with h | h
        · exact Or.inr (hs.qvis w h)
        · simp at h; exact Or.inl h
      · intro w hw
        simp only at hw
        rw [getElem?_set_true _ _ _ hvl] at hw
        rcases hw with h | h
        · subst h; exact hj
        · exact hs.reach w h
      · simp only
        have hset : g.visitedNonIsolated (s.vis.set v true) =
            if g.neighbors v ≠ [] then insert v (g.visitedNonIsolated s.vis)
            else g.visitedNonIsolated s.vis := by
          ext w
          unfold visitedNonIsolated
          split_ifs with hn
          · simp only [Finset.mem_insert, Finset.mem_filter, Finset.mem_range,
              getElem?_set_true _ _ _ hvl]
            constructor
            · rintro ⟨h1, h2 | h2, h3⟩
              · exact Or.inl h2
              · exact Or.inr ⟨h1, h2, h3⟩
            · rintro (h | ⟨h1, h2, h3⟩)
              · subst h; exact ⟨hv, Or.inl rfl, hn⟩
              · exact ⟨h1, Or.inr h2, h3⟩
          · simp only [Finset.mem_filter, Finset.mem_range, getElem?_set_true _ _ _ hvl]
            constructor
            · rintro ⟨h1, h2 | h2, h3⟩
              · subst h2; exact absurd h3 hn
              · exact ⟨h1, h2, h3⟩
            · rintro ⟨h1, h2, h3⟩
              exact ⟨h1, Or.inr h2, h3⟩
        rw [hset]
        have hnotin : v ∉ g.visitedNonIsolated s.vis := by
          unfold visitedNonIsolated
          simp [hb]
        by_cases hn : g.neighbors v = []
        · simp [hn, hs.cnt]
        · have he' : (g.neighbors v).isEmpty = false := by
            cases hn' : g.neighbors v with
            | nil => exact absurd hn' hn
            | cons a t => rfl
          simp only [he', Bool.false_eq_true, if_false, ne_eq, hn, not_false_eq_true, if_true]
          rw [Finset.card_insert_of_not_mem hnotin, hs.cnt]
      · simp only [List.length_append, List.length_singleton]
        have := count_false_set s.vis v hb
        omega
      · simp only
        rw [getElem?_set_true _ _ _ hvl]; exact Or.inl rfl
      · intro w hw
        simp only
        rw [getElem?_set_true _ _ _ hvl]; exact Or.inr hw
      · intro hc u hu huq hX x hx
        simp only at hu huq ⊢
        rw [getElem?_set_true _ _ _ hvl] at hu ⊢
        have huv : u ≠ v := by
          intro e; apply huq; simp [e]
        rcases hu with h | h
        · exact absurd h huv
        · exact Or.inr (hc u h (fun hq => huq (List.mem_append_left _ hq)) hX x hx)

theorem bfs_inner_spec (g : Graph) (start : Nat) (X : Nat → Prop) (vs : List Nat) :
    ∀ (s : BfsState), BfsInv g start s → (∀ v ∈ vs, v < g.m_n ∧ g.Joined start v) →
    ∃ s2, bfs_inner g vs s = some s2 ∧ BfsInv g start s2 ∧
      s2.vis.count false + s2.q.length = s.vis.count false + s.q.length ∧
      (∀ v ∈ vs, s2.vis[v]? = some true) ∧
      (∀ w : Nat, s.vis[w]? = some true → s2.vis[w]? = some true) ∧
      (BfsClosed g s X → BfsClosed g s2 X) := by
  induction vs with
  | nil =>
    intro s hs _
    exact ⟨s, rfl, hs, rfl, by simp, fun _ h => h, fun h => h⟩
  | cons v vs ih =>
    intro s hs hvs
    obtain ⟨hv, hj⟩ := hvs v (List.mem_cons_self _ _)
    obtain ⟨s1, e1, i1, m1, v1, mono1, c1⟩ := bfs_visit_spec g start s v X hs hv hj
    obtain ⟨s2, e2, i2, m2, v2, mono2, c2⟩ :=
      ih s1 i1 (fun w hw => hvs w (List.mem_cons_of_mem _ hw))
    refine ⟨s2, ?_, i2, by omega, ?_, fun w hw => mono2 w (mono1 w hw), fun h => c2 (c1 h)⟩
    · simp [bfs_inner, e1, e2]
    · intro w hw
      rcases List.mem_cons.1 hw with h | h
      · subst h; exact mono2 _ v1
      · exact v2 w h

theorem bfs_loop_spec (g : Graph) (hg : g.Inv) (start : Nat) (fuel : Nat) :
    ∀ (s : BfsState), BfsInv g start s → BfsClosed g s (fun _ => False) →
      s.vis.count false + s.q.length ≤ fuel →
    ∃ s2, bfs_loop g fuel s = some s2 ∧ BfsInv g start s2 ∧
      BfsClosed g s2 (fun _ => False) ∧ s2.q = [] ∧
      (∀ w : Nat, s.vis[w]? = some true → s2.vis[w]? = some true) := by
  induction fuel with
  | zero =>
    intro s hs hc hm
    have hq : s.q = [] := List.length_eq_zero.1 (by omega)
    refine ⟨s, ?_, hs, hc, hq, fun _ h => h⟩
    simp [bfs_loop, hq]
  | succ fuel ih =>
    intro s hs hc hm
    cases hq : s.q with
    | nil =>
      refine ⟨s, ?_, hs, hc, hq, fun _ h => h⟩
      simp [bfs_loop, hq]
    | cons u rest =>
      have huvis : s.vis[u]? = some true := hs.qvis u (by simp [hq])
      have hu : u < g.m_n := by
        have : u < s.vis.length := by
          by_contra hcon
          rw [List.getElem?_eq_none (by omega)] at huvis
          cases huvis
        rw [← hs.len]; exact this
      have hs0 : BfsInv g start { s with q := rest } :=
        ⟨hs.len, fun v hv => hs.qvis v (by simp [hq, hv]), hs.reach, hs.cnt⟩
      have hc0 : BfsClosed g { s with q := rest } (fun w => w = u) := by
        intro w hw hwq hX x hx
        simp only at hw hwq hX
        exact hc w hw (by simp [hq, hwq, hX]) (fun h => h) x hx
      obtain ⟨s1, e1, i1, m1, v1, mono1, c1⟩ :=
        bfs_inner_spec g start (fun w => w = u) (g.neighbors u) { s with q := rest } hs0
          (fun v hv => ⟨hg.lt u v hv,
            Relation.ReflTransGen.tail (hs.reach u huvis) hv⟩)
      have hc1 : BfsClosed g s1 (fun _ => False) := by
        intro w hw hwq _ x hx
        by_cases hwu : w = u
        · subst hwu; exact v1 x hx
        · exact c1 hc0 w hw hwq hwu x hx
      simp only at m1
      rw [hq] at hm
      simp only [List.length_cons] at hm
      obtain ⟨s2, e2, i2, c2, q2, mono2⟩ := ih s1 i1 hc1 (by omega)
      refine ⟨s2, ?_, i2, c2, q2, fun w hw => mono2 w (mono1 w hw)⟩
      simp [bfs_loop, hq, adj_getElem?_of_lt g hg.len u hu, e1, e2]

end Graph


namespace Graph

theorem getElem?_replicate_set (n start w : Nat) (hs : start < n) :
    ((List.replicate n false).set start true)[w]? = some true ↔ w = start := by
  rw [getElem?_set_true _ _ _ (by simpa using hs)]
  constructor
  · rintro (h | h)
    · exact h
    · rw [List.getElem?_replicate] at h
      split_ifs at h
      cases h
  · intro h; exact Or.inl h

theorem count_false_init (n start : Nat) (hs : start < n) :
    ((List.replicate n false).set start true).count false + 1 = n := by
  rw [count_false_set _ _ (by rw [List.getElem?_replicate]; simp [hs])]
  simp

theorem is_connected_spec (g : Graph) (hg : g.Inv) (fuel : Nat) (hf : g.m_n ≤ fuel) :
    ∃ b, g.is_connected_ignoring_isolated fuel = some b ∧
      (b = true ↔ g.ConnectedIgnoringIsolated) := by
  obtain ⟨hN, hstart⟩ := scan_spec g
  unfold is_connected_ignoring_isolated
  simp only
  by_cases hle : g.scan.2 ≤ 1
  · rw [if_pos hle]
    refine ⟨true, rfl, ?_⟩
    simp only [true_iff]
    intro u v hu hv hnu hnv
    have hum : u ∈ g.nonIsolated g.m_n := by simp [nonIsolated, hu, hnu]
    have hvm : v ∈ g.nonIsolated g.m_n := by simp [nonIsolated, hv, hnv]
    rw [hN] at hle
    have := Finset.card_le_one.1 hle u hum v hvm
    subst this
    exact Relation.ReflTransGen.refl
  · rw [if_neg hle]
    obtain ⟨hsl, hsn⟩ := hstart (by omega)
    generalize hst : g.scan.1 = start at hsl hsn ⊢
    have hinit : BfsInv g start
        { vis := (List.replicate g.m_n false).set start true, q := [start], reached := 1 } := by
      refine ⟨by simp, ?_, ?_, ?_⟩
      · intro v hv
        simp only [List.mem_singleton] at hv
        simp only
        rw [getElem?_replicate_set _ _ _ hsl]; exact hv
      · intro v hv
        simp only at hv
        rw [getElem?_replicate_set _ _ _ hsl] at hv
        subst hv
        exact Relation.ReflTransGen.refl
      · simp only
        have : g.visitedNonIsolated ((List.replicate g.m_n false).set start true) = {start} := by
          ext w
          unfold visitedNonIsolated
          simp only [Finset.mem_filter, Finset.mem_range, Finset.mem_singleton,
            getElem?_replicate_set _ _ _ hsl]
          constructor
          · rintro ⟨-, h, -⟩; exact h
          · intro h; subst h; exact ⟨hsl, rfl, hsn⟩
        rw [this, Finset.card_singleton]
    have hclosed : BfsClosed g
        { vis := (List.replicate g.m_n false).set start true, q := [start], reached := 1 }
        (fun _ => False) := by
      intro u hu huq _ x _
      simp only at hu huq
      rw [getElem?_replicate_set _ _ _ hsl] at hu
      exact absurd (by simp [hu]) huq
    have hmeas := count_false_init g.m_n start hsl
    obtain ⟨s2, e2, i2, c2, q2, mono2⟩ := bfs_loop_spec g hg start fuel _ hinit hclosed (by
      simp only [List.length_singleton]; omega)
    refine ⟨s2.reached == g.scan.2, by rw [e2]; rfl, ?_⟩
    have hstartvis : s2.vis[start]? = some true :=
      mono2 start (by simp only; rw [getElem?_replicate_set _ _ _ hsl])
    have hall : ∀ v, g.Joined start v → s2.vis[v]? = some true := by
      intro v hv
      unfold Joined at hv
      induction hv with
      | refl => exact hstartvis
      | tail _ hbc ih => exact c2 _ ih (by simp [q2]) (fun h => h) _ hbc
    have hsub : g.visitedNonIsolated s2.vis ⊆ g.nonIsolated g.m_n := by
      intro w hw
      unfold visitedNonIsolated at hw
      unfold nonIsolated
      simp only [Finset.mem_filter, Finset.mem_range] at hw ⊢
      exact ⟨hw.1, hw.2.2⟩
    rw [beq_iff_eq, i2.cnt, hN]
    constructor
    · intro hcard u v hu hv hnu hnv
      have heq := Finset.eq_of_subset_of_card_le hsub (by omega)
      have hvis : ∀ w, w < g.m_n → g.neighbors w ≠ [] → g.Joined start w := by
        intro w hw hnw
        have : w ∈ g.visitedNonIsolated s2.vis := by
          rw [heq]; simp [nonIsolated, hw, hnw]
        unfold visitedNonIsolated at this
        simp only [Finset.mem_filter, Finset.mem_range] at this
        exact i2.reach w this.2.1
      exact Relation.ReflTransGen.trans (joined_symm g hg (hvis u hu hnu)) (hvis v hv hnv)
    · intro hconn
      congr 1
      apply Finset.Subset.antisymm hsub
      intro w hw
      unfold nonIsolated at hw
      unfold visitedNonIsolated
      simp only [Finset.mem_filter, Finset.mem_range] at hw ⊢
      exact ⟨hw.1, hall w (hconn start w hsl hw.1 hsn hw.2), hw.2⟩

theorem all_even_degrees_iff (g : Graph) : g.all_even_degrees = true ↔ g.AllEven := by
  unfold all_even_degrees AllEven
  rw [List.all_eq_true]
  constructor
  · intro h u hu
    have := h u (List.mem_range.2 hu)
    simp only [Nat.and_one_is_mod, bne_iff_ne, ne_eq, Bool.not_eq_true', decide_eq_false_iff_not,
      Decidable.not_not, Bool.not_not] at this
    simpa using this
  · intro h u hu
    have := h u (List.mem_range.1 hu)
    simp [Nat.and_one_is_mod, this]

end Graph

theorem euler_feasibility_spec (g : Graph) (hg : g.Inv) (fuel : Nat) (hf : g.m_n ≤ fuel) :
    ∃ chk, euler_feasibility g fuel = some chk ∧
      (¬ g.ConnectedIgnoringIsolated →
        chk = ⟨false, "Graph is not connected when ignoring isolated vertices"⟩) ∧
      (g.ConnectedIgnoringIsolated → ¬ g.AllEven →
        chk = ⟨false, "Not all vertices have even degree"⟩) ∧
      (g.ConnectedIgnoringIsolated → g.AllEven → chk = ⟨true, "OK"⟩) ∧
      (chk.ok = true ↔ (g.ConnectedIgnoringIsolated ∧ g.AllEven)) := by
  obtain ⟨b, hb, hiff⟩ := Graph.is_connected_spec g hg fuel hf
  have hev := Graph.all_even_degrees_iff g
  unfold euler_feasibility
  rw [hb]
  cases b with
  | false =>
    have hnc : ¬ g.ConnectedIgnoringIsolated := fun h => by
      have := hiff.2 h; cases this
    refine ⟨_, rfl, fun _ => rfl, fun h => absurd h hnc, fun h => absurd h hnc, ?_⟩
    simp [hnc]
  | true =>
    have hc : g.ConnectedIgnoringIsolated := hiff.1 rfl
    cases he : g.all_even_degrees with
    | false =>
      have hne : ¬ g.AllEven := fun h => by
        have := hev.2 h; rw [he] at this; cases this
      refine ⟨_, rfl, fun h => absurd hc h, fun _ _ => rfl, fun _ h => absurd h hne, ?_⟩
      simp [hne]
    | true =>
      have hae : g.AllEven := hev.1 he
      refine ⟨_, rfl, fun h => absurd hc h, fun _ h => absurd hae h, fun _ _ => rfl, ?_⟩
      simp [hc, hae]

/-! ## Lists: swap-with-last removal and consecutive pairs -/

theorem swap_remove_of_not_mem (l : List Nat) (v : Nat) (h : v ∉ l) : swap_remove l v = l := by
  unfold swap_remove
  have : l.indexOf v = l.length := List.indexOf_eq_length.2 h
  simp [this]

theorem swap_remove_append (a b : List Nat) (v : Nat) (hv : v ∉ a) :
    swap_remove (a ++ v :: b) v = (a ++ (v :: b).getLast (by simp) :: b).dropLast := by
  unfold swap_remove
  have hi : (a ++ v :: b).indexOf v = a.length := by
    rw [List.indexOf_append_of_not_mem hv, List.indexOf_cons_self]; rfl
  simp only [hi]
  rw [if_pos (by simp)]
  rw [List.set_append_right _ _ (le_refl _)]
  simp only [Nat.sub_self, List.set_cons_zero]
  congr 3
  rw [List.getLastD_eq_getLast?, List.getLast?_append]
  rw [List.getLast?_eq_getLast _ (by simp)]
  simp

theorem swap_remove_perm (l : List Nat) (v : Nat) (hv : v ∈ l) (hnd : l.Nodup) :
    (swap_remove l v).Perm (l.erase v) := by
  obtain ⟨a, b, rfl⟩ := List.append_of_mem hv
  have hva : v ∉ a := by
    intro h
    have := List.nodup_append.1 hnd
    exact this.2.2 h (List.mem_cons_self _ _)
  rw [swap_remove_append a b v hva]
  have herase : (a ++ v :: b).erase v = a ++ b := by
    rw [List.erase_append_right _ hva]
    simp
  rw [herase]
  rcases List.eq_nil_or_concat b with hb | ⟨b2, z, hb⟩
  · subst hb
    simp
  · subst hb
    simp only [List.concat_eq_append]
    have h1 : (v :: (b2 ++ [z])).getLast (by simp) = z := by
      simp
    rw [h1]
    have h2 : (a ++ z :: (b2 ++ [z])).dropLast = a ++ z :: b2 := by
      rw [show a ++ z :: (b2 ++ [z]) = (a ++ z :: b2) ++ [z] by simp]
      exact List.dropLast_concat
    rw [h2]
    refine List.Perm.append_left a ?_
    exact (List.perm_append_singleton z b2).symm

theorem mem_swap_remove (l : List Nat) (v x : Nat) (hv : v ∈ l) (hnd : l.Nodup) :
    x ∈ swap_remove l v ↔ (x ∈ l ∧ x ≠ v) := by
  rw [(swap_remove_perm l v hv hnd).mem_iff, hnd.mem_erase_iff]
  tauto

theorem nodup_swap_remove (l : List Nat) (v : Nat) (hv : v ∈ l) (hnd : l.Nodup) :
    (swap_remove l v).Nodup :=
  (swap_remove_perm l v hv hnd).nodup_iff.2 (hnd.erase v)

theorem length_swap_remove (l : List Nat) (v : Nat) (hv : v ∈ l) (hnd : l.Nodup) :
    (swap_remove l v).length + 1 = l.length := by
  rw [(swap_remove_perm l v hv hnd).length_eq, List.length_erase_of_mem hv]
  have : 0 < l.length := List.length_pos_of_mem hv
  omega

theorem getD_set (adj : List (List Nat)) (u w : Nat) (l : List Nat) (hu : u < adj.length) :
    (adj.set u l).getD w [] = if w = u then l else adj.getD w [] := by
  simp only [List.getD_eq_getElem?_getD, List.getElem?_set]
  by_cases h : u = w
  · subst h; simp [hu]
  · have : ¬ w = u := fun e => h e.symm
    simp [h, this]

theorem sum_length_set (adj : List (List Nat)) (u : Nat) (l : List Nat) (hu : u < adj.length) :
    ((adj.set u l).map List.length).sum + (adj.getD u []).length =
      (adj.map List.length).sum + l.length := by
  induction adj generalizing u with
  | nil => simp at hu
  | cons a t ih =>
    cases u with
    | zero => simp; omega
    | succ k =>
      simp only [List.length_cons, Nat.add_lt_add_iff_right] at hu
      have := ih k hu
      simp only [List.getD_cons_succ, List.set_cons_succ, List.map_cons, List.sum_cons]
      omega

theorem consecutive_pairs_nil : consecutive_pairs [] = [] := rfl

theorem consecutive_pairs_singleton (a : Nat) : consecutive_pairs [a] = [] := rfl

theorem consecutive_pairs_cons_cons (a b : Nat) (l : List Nat) :
    consecutive_pairs (a :: b :: l) = s(a, b) :: consecutive_pairs (b :: l) := rfl

theorem mem_of_mem_consecutive_pairs (l : List Nat) (x y : Nat)
    (h : s(x, y) ∈ consecutive_pairs l) : x ∈ l ∧ y ∈ l := by
  induction l with
  | nil => simp [consecutive_pairs] at h
  | cons a t ih =>
    cases t with
    | nil => simp [consecutive_pairs] at h
    | cons b t =>
      rw [consecutive_pairs_cons_cons, List.mem_cons] at h
      rcases h with h | h
      · rcases Sym2.eq_iff.1 h with ⟨rfl, rfl⟩ | ⟨rfl, rfl⟩ <;> simp
      · obtain ⟨h1, h2⟩ := ih h
        exact ⟨List.mem_cons_of_mem _ h1, List.mem_cons_of_mem _ h2⟩

theorem length_consecutive_pairs (l : List Nat) :
    (consecutive_pairs l).length = l.length - 1 := by
  unfold consecutive_pairs
  simp

theorem removed_swap_remove (l : List Nat) (v : Nat) (hv : v ∈ l) (hnd : l.Nodup) :
    Removed l v (swap_remove l v) :=
  ⟨fun x => mem_swap_remove l v x hv hnd, nodup_swap_remove l v hv hnd,
    length_swap_remove l v hv hnd⟩

theorem removed_dropLast (l : List Nat) (v : Nat) (hv : l.getLast? = some v) (hnd : l.Nodup) :
    Removed l v l.dropLast := by
  obtain ⟨ys, rfl⟩ := List.getLast?_eq_some_iff.1 hv
  rw [List.dropLast_concat]
  have hnd2 := List.nodup_append.1 hnd
  refine ⟨fun x => ?_, hnd2.1, by simp⟩
  constructor
  · intro hx
    refine ⟨List.mem_append_left _ hx, fun e => ?_⟩
    subst e
    exact hnd2.2.2 hx (List.mem_singleton_self _)
  · rintro ⟨hx, hne⟩
    rcases List.mem_append.1 hx with h | h
    · exact h
    · simp at h; exact absurd h hne

/-- The adjacency vector after the push branch of the loop body. -/
theorem hierholzer_step_push_eq (s : HState) (u v : Nat) (rest : List Nat)
    (hst : s.st = u :: rest) (hu : u < s.adj.length) (hv : v < s.adj.length) (huv : v ≠ u)
    (hlast : (s.adj.getD u []).getLast? = some v) (hnd : (s.adj.getD u []).Nodup) :
    hierholzer_step s =
      some { adj := (s.adj.set u (s.adj.getD u []).dropLast).set v
                      (swap_remove (s.adj.getD v []) u),
             st := v :: u :: rest, out := s.out } := by
  have hAu : s.adj[u]? = some (s.adj.getD u []) := by
    rw [List.getD_eq_getElem?_getD, List.getElem?_eq_getElem hu]; rfl
  have hAv : s.adj[v]? = some (s.adj.getD v []) := by
    rw [List.getD_eq_getElem?_getD, List.getElem?_eq_getElem hv]; rfl
  have hrm := removed_dropLast _ v hlast hnd
  have hvn : v ∉ (s.adj.getD u []).dropLast := fun h => ((hrm.mem v).1 h).2 rfl
  unfold hierholzer_step
  rw [hst]
  simp only [hAu, hlast]
  unfold remove_edge
  have h1 : (s.adj.set u (s.adj.getD u []).dropLast)[u]? = some (s.adj.getD u []).dropLast := by
    rw [List.getElem?_set]; simp [hu]
  simp only [h1, swap_remove_of_not_mem _ _ hvn, List.set_set]
  have h2 : (s.adj.set u (s.adj.getD u []).dropLast)[v]? = some (s.adj.getD v []) := by
    rw [List.getElem?_set, if_neg (fun e => huv e.symm)]; exact hAv
  simp only [h2]

theorem hierholzer_step_pop_eq (s : HState) (u : Nat) (rest : List Nat)
    (hst : s.st = u :: rest) (hu : u < s.adj.length) (hempty : s.adj.getD u [] = []) :
    hierholzer_step s = some { adj := s.adj, st := rest, out := s.out ++ [u] } := by
  have hAu : s.adj[u]? = some [] := by
    rw [← hempty, List.getD_eq_getElem?_getD, List.getElem?_eq_getElem hu]; rfl
  unfold hierholzer_step
  rw [hst]
  simp only [hAu, List.getLast?_nil]


theorem mem_of_getLast?_eq_some (l : List Nat) (v : Nat) (h : l.getLast? = some v) : v ∈ l := by
  obtain ⟨ys, rfl⟩ := List.getLast?_eq_some_iff.1 h
  simp

theorem hinv_push (g : Graph) (hg : g.Inv) (start a : Nat) (s : HState) (u v : Nat)
    (rest : List Nat) (h : HInv g start s a) (hst : s.st = u :: rest)
    (hlast : (s.adj.getD u []).getLast? = some v) :
    ∃ s2, hierholzer_step s = some s2 ∧ HInv g start s2 a ∧
      s2.st = v :: u :: rest ∧ s2.out = s.out ∧
      (s2.adj.map List.length).sum + 2 = (s.adj.map List.length).sum := by
  have hvAu : v ∈ s.adj.getD u [] := mem_of_getLast?_eq_some _ _ hlast
  have hvg : v ∈ g.neighbors u := (h.edges u v).2 (Or.inl hvAu)
  have huv : v ≠ u := fun e => hg.irrefl u (e ▸ hvg)
  have hvlt : v < g.m_n := hg.lt u v hvg
  have hult : u < g.m_n := h.st_lt u (by simp [hst])
  have huAv : u ∈ s.adj.getD v [] := h.symm u v hvAu
  have rU := removed_dropLast _ v hlast (h.nodup u)
  have rV := removed_swap_remove _ u huAv (h.nodup v)
  have hlen := h.len
  refine ⟨_, hierholzer_step_push_eq s u v rest hst (by omega) (by omega) huv hlast (h.nodup u),
    ?_, rfl, rfl, ?_⟩
  · have hget : ∀ w, ((s.adj.set u (s.adj.getD u []).dropLast).set v
          (swap_remove (s.adj.getD v []) u)).getD w [] =
        if w = v then swap_remove (s.adj.getD v []) u
        else if w = u then (s.adj.getD u []).dropLast else s.adj.getD w [] := by
      intro w
      rw [getD_set _ _ _ _ (by rw [List.length_set]; omega), getD_set _ _ _ _ (by omega)]
    have hmem : ∀ x y, y ∈ ((s.adj.set u (s.adj.getD u []).dropLast).set v
          (swap_remove (s.adj.getD v []) u)).getD x [] ↔
        (y ∈ s.adj.getD x [] ∧ ¬ (x = u ∧ y = v) ∧ ¬ (x = v ∧ y = u)) := by
      intro x y
      rw [hget x]
      by_cases hxv : x = v
      · subst hxv
        rw [if_pos rfl, rV.mem y]
        constructor
        · rintro ⟨h1, h2⟩
          exact ⟨h1, fun hc => huv hc.1, fun hc => h2 hc.2⟩
        · rintro ⟨h1, -, h3⟩
          exact ⟨h1, fun e => h3 ⟨rfl, e⟩⟩
      · rw [if_neg hxv]
        by_cases hxu : x = u
        · subst hxu
          rw [if_pos rfl, rU.mem y]
          constructor
          · rintro ⟨h1, h2⟩
            exact ⟨h1, fun hc => h2 hc.2, fun hc => hxv hc.1⟩
          · rintro ⟨h1, h2, -⟩
            exact ⟨h1, fun e => h2 ⟨rfl, e⟩⟩
        · rw [if_neg hxu]
          constructor
          · intro h1
            exact ⟨h1, fun hc => hxu hc.1, fun hc => hxv hc.1⟩
          · rintro ⟨h1, -, -⟩
            exact h1
    have hlenw : ∀ w, (((s.adj.set u (s.adj.getD u []).dropLast).set v
          (swap_remove (s.adj.getD v []) u)).getD w []).length +
          (if w = u then 1 else 0) + (if w = v then 1 else 0) = (s.adj.getD w []).length := by
      intro w
      rw [hget w]
      by_cases hwv : w = v
      · subst hwv
        rw [if_pos rfl, if_neg huv, if_pos rfl]
        have := rV.length
        omega
      · rw [if_neg hwv, if_neg hwv]
        by_cases hwu : w = u
        · subst hwu
          rw [if_pos rfl, if_pos rfl]
          have := rU.length
          omega
        · rw [if_neg hwu, if_neg hwu]
          rfl
    have hused : hierholzer_used
        { adj := (s.adj.set u (s.adj.getD u []).dropLast).set v (swap_remove (s.adj.getD v []) u),
          st := v :: u :: rest, out := s.out } a = s(v, u) :: hierholzer_used s a := by
      unfold hierholzer_used
      rw [hst]
      rfl
    have hsym : ∀ x y, (s(x, y) = s(v, u)) ↔ ((x = u ∧ y = v) ∨ (x = v ∧ y = u)) := by
      intro x y
      rw [Sym2.eq_iff]
      tauto
    refine ⟨?_, ?_, ?_, ?_, ?_, ?_, ?_, ?_, ?_, ?_, ?_, ?_, ?_, ?_, ?_, ?_⟩
    · simp [hlen]
    · intro x y hxy
      rw [hmem] at hxy ⊢
      obtain ⟨h1, h2, h3⟩ := hxy
      exact ⟨h.symm x y h1, fun hc => h3 ⟨hc.2, hc.1⟩, fun hc => h2 ⟨hc.2, hc.1⟩⟩
    · intro x
      rw [hget x]
      split_ifs
      · exact rV.nodup
      · exact rU.nodup
      · exact h.nodup x
    · intro x hx
      simp only [List.mem_cons] at hx
      rcases hx with rfl | hx
      · exact hvlt
      · exact h.st_lt x (by rw [hst]; simpa using hx)
    · intro top htop w
      simp only [List.head?_cons, Option.mem_def, Option.some.injEq] at htop
      subst htop
      have hp := h.parity u (by simp [hst]) w
      have hl := hlenw w
      simp only at hl ⊢
      split_ifs at hp hl ⊢ <;> omega
    · intro x y
      rw [hused, List.mem_cons, hsym, hmem, h.edges x y]
      constructor
      · rintro (h1 | h1)
        · by_cases hc1 : x = u ∧ y = v
          · exact Or.inr (Or.inl (Or.inl hc1))
          · by_cases hc2 : x = v ∧ y = u
            · exact Or.inr (Or.inl (Or.inr hc2))
            · exact Or.inl ⟨h1, hc1, hc2⟩
        · exact Or.inr (Or.inr h1)
      · rintro (⟨h1, -, -⟩ | (⟨rfl, rfl⟩ | ⟨rfl, rfl⟩) | h1)
        · exact Or.inl h1
        · exact Or.inl hvAu
        · exact Or.inl huAv
        · exact Or.inr h1
    · rw [hused, List.nodup_cons]
      exact ⟨fun hc => h.used_fresh v u hc huAv, h.used_nodup⟩
    · intro x y hxy
      rw [hused, List.mem_cons, hsym] at hxy
      rw [hmem]
      rcases hxy with (hc | hc) | hc
      · exact fun hh => hh.2.1 hc
      · exact fun hh => hh.2.2 hc
      · exact fun hh => h.used_fresh x y hc hh.1
    · intro _
      have := h.anchor (by simp [hst])
      rw [hst] at this
      exact List.mem_cons_of_mem _ this
    · intro w hw
      apply List.eq_nil_iff_forall_not_mem.2
      intro y hy
      rw [hmem] at hy
      rw [h.out_done w hw] at hy
      simp at hy
    · rcases h.start_mem with h1 | h1
      · left; rw [hst] at h1; exact List.mem_cons_of_mem _ h1
      · right; exact h1
    · intro b hb
      apply h.bottom b
      rw [hst]
      simpa [List.getLast?_cons_cons] using hb
    · exact h.first_out
    · intro hnil
      simp at hnil
    · exact h.anchor_init
    · have e1 := sum_length_set (s.adj.set u (s.adj.getD u []).dropLast) v
        (swap_remove (s.adj.getD v []) u) (by rw [List.length_set]; omega)
      have e2 := sum_length_set s.adj u (s.adj.getD u []).dropLast (by omega)
      rw [getD_set _ _ _ _ (by omega), if_neg huv] at e1
      have := rU.length
      have := rV.length
      have := h.count
      rw [hst] at this
      simp only [List.length_cons] at this ⊢
      omega
  · have e1 := sum_length_set (s.adj.set u (s.adj.getD u []).dropLast) v
      (swap_remove (s.adj.getD v []) u) (by rw [List.length_set]; omega)
    have e2 := sum_length_set s.adj u (s.adj.getD u []).dropLast (by omega)
    rw [getD_set _ _ _ _ (by omega), if_neg huv] at e1
    have := rU.length
    have := rV.length
    simp only
    omega

theorem hinv_pop (g : Graph) (start a : Nat) (s : HState) (u : Nat)
    (rest : List Nat) (h : HInv g start s a) (hst : s.st = u :: rest)
    (hempty : s.adj.getD u [] = []) :
    ∃ s2 a2, hierholzer_step s = some s2 ∧ HInv g start s2 a2 ∧
      s2.st = rest ∧ s2.out = s.out ++ [u] ∧ s2.adj = s.adj := by
  have hult : u < g.m_n := h.st_lt u (by simp [hst])
  have hua : u = a := by
    have hp := h.parity u (by simp [hst]) u
    rw [hempty] at hp
    by_contra hne
    simp [hne] at hp
  subst hua
  have hpar : ∀ w, (s.adj.getD w []).length % 2 = 0 := by
    intro w
    have hp := h.parity u (by simp [hst]) w
    simpa using hp
  have hlen := h.len
  refine ⟨_, rest.headD u, hierholzer_step_pop_eq s u rest hst (by omega) hempty, ?_,
    rfl, rfl, rfl⟩
  have hperm : (hierholzer_used { adj := s.adj, st := rest, out := s.out ++ [u] }
      (rest.headD u)).Perm (hierholzer_used s u) := by
    unfold hierholzer_used
    rw [hst]
    cases rest with
    | nil =>
      simp only [consecutive_pairs_nil, consecutive_pairs_singleton, List.nil_append,
        List.reverse_append, List.reverse_cons, List.reverse_nil, List.singleton_append]
      exact List.Perm.refl _
    | cons b r =>
      simp only [List.headD_cons, List.reverse_append, List.reverse_cons, List.reverse_nil,
        List.nil_append, List.singleton_append, consecutive_pairs_cons_cons, List.cons_append]
      rw [show s(b, u) = s(u, b) from Sym2.eq_swap]
      exact List.perm_middle
  refine ⟨hlen, h.symm, h.nodup, ?_, ?_, ?_, ?_, ?_, ?_, ?_, ?_, ?_, ?_, ?_, ?_, ?_⟩
  · intro x hx
    exact h.st_lt x (by rw [hst]; exact List.mem_cons_of_mem _ hx)
  · intro top htop w
    simp only at htop ⊢
    cases rest with
    | nil => simp at htop
    | cons b r =>
      simp only [List.head?_cons, Option.mem_def, Option.some.injEq] at htop
      subst htop
      rw [hpar w]
      simp
  · intro x y
    rw [hperm.mem_iff]
    exact h.edges x y
  · exact hperm.nodup_iff.2 h.used_nodup
  · intro x y hxy
    exact h.used_fresh x y (hperm.mem_iff.1 hxy)
  · intro hne
    simp only at hne ⊢
    cases rest with
    | nil => exact absurd rfl hne
    | cons b r => simp
  · intro w hw
    simp only at hw ⊢
    rcases List.mem_append.1 hw with h1 | h1
    · exact h.out_done w h1
    · simp at h1; subst h1; exact hempty
  · simp only
    rcases h.start_mem with h1 | h1
    · rw [hst] at h1
      rcases List.mem_cons.1 h1 with h2 | h2
      · right; simp [h2]
      · left; exact h2
    · right; exact List.mem_append_left _ h1
  · intro b hb
    simp only at hb
    apply h.bottom b
    rw [hst]
    cases rest with
    | nil => simp at hb
    | cons c r => simpa [List.getLast?_cons_cons] using hb
  · intro o ho
    simp only at ho
    cases hout : s.out with
    | nil =>
      rw [hout] at ho
      simp at ho
      rw [← ho]
      exact h.anchor_init hout
    | cons c r =>
      rw [hout] at ho
      simp at ho
      exact h.first_out o (by simp [hout, ho])
  · intro hnil o ho
    simp only at hnil ho
    subst hnil
    simp only [List.getLast?_concat, Option.mem_def, Option.some.injEq] at ho
    rw [← ho]
    exact h.bottom u (by simp [hst])
  · intro hnil
    simp at hnil
  · have := h.count
    rw [hst] at this
    simp only [List.length_cons, List.length_append, List.length_nil] at this ⊢
    omega

theorem hierholzer_loop_spec (g : Graph) (hg : g.Inv) (start : Nat) (fuel : Nat) :
    ∀ (s : HState) (a : Nat), HInv g start s a →
      (s.adj.map List.length).sum + s.st.length ≤ fuel →
    ∃ s2 a2, hierholzer_loop fuel s = some s2 ∧ HInv g start s2 a2 ∧ s2.st = [] := by
  induction fuel with
  | zero =>
    intro s a h hm
    have hq : s.st = [] := List.length_eq_zero.1 (by omega)
    exact ⟨s, a, by simp [hierholzer_loop, hq], h, hq⟩
  | succ fuel ih =>
    intro s a h hm
    cases hq : s.st with
    | nil => exact ⟨s, a, by simp [hierholzer_loop, hq], h, hq⟩
    | cons u rest =>
      rw [hq] at hm
      simp only [List.length_cons] at hm
      cases hl : (s.adj.getD u []).getLast? with
      | none =>
        have hempty : s.adj.getD u [] = [] := List.getLast?_eq_none_iff.1 hl
        obtain ⟨s1, a1, e1, i1, st1, -, adj1⟩ := hinv_pop g start a s u rest h hq hempty
        obtain ⟨s2, a2, e2, i2, st2⟩ := ih s1 a1 i1 (by rw [st1, adj1]; omega)
        refine ⟨s2, a2, ?_, i2, st2⟩
        simp [hierholzer_loop, hq]
        rw [e1]
        simpa using e2
      | some v =>
        obtain ⟨s1, e1, i1, st1, -, sum1⟩ := hinv_push g hg start a s u v rest h hq hl
        obtain ⟨s2, a2, e2, i2, st2⟩ := ih s1 a i1 (by
          rw [st1]; simp only [List.length_cons]; omega)
        refine ⟨s2, a2, ?_, i2, st2⟩
        simp [hierholzer_loop, hq]
        rw [e1]
        simpa using e2

namespace Graph

theorem bfs_loop_mono (g : Graph) (f : Nat) :
    ∀ (f2 : Nat) (s r : BfsState), f ≤ f2 → bfs_loop g f s = some r → bfs_loop g f2 s = some r := by
  induction f with
  | zero =>
    intro f2 s r _ h
    cases hq : s.q with
    | nil =>
      simp [bfs_loop, hq] at h
      subst h
      cases f2 <;> simp [bfs_loop, hq]
    | cons u rest => simp [bfs_loop, hq] at h
  | succ f ih =>
    intro f2 s r hle h
    cases f2 with
    | zero => omega
    | succ f2 =>
      cases hq : s.q with
      | nil =>
        simp [bfs_loop, hq] at h
        subst h
        simp [bfs_loop, hq]
      | cons u rest =>
        simp only [bfs_loop, hq] at h ⊢
        cases ha : g.adj[u]? with
        | none => simp [ha] at h
        | some nb =>
          simp only [ha] at h ⊢
          cases hi : bfs_inner g nb { vis := s.vis, q := rest, reached := s.reached } with
          | none => simp [hi] at h
          | some s1 =>
            simp only [hi, Option.some_bind] at h ⊢
            exact ih f2 s1 r (by omega) h

theorem is_connected_mono (g : Graph) (f f2 : Nat) (b : Bool) (hle : f ≤ f2)
    (h : g.is_connected_ignoring_isolated f = some b) :
    g.is_connected_ignoring_isolated f2 = some b := by
  unfold is_connected_ignoring_isolated at h ⊢
  simp only at h ⊢
  by_cases hc : g.scan.2 ≤ 1
  · rw [if_pos hc] at h ⊢; exact h
  · rw [if_neg hc] at h ⊢
    cases hl : bfs_loop g f
        { vis := (List.replicate g.m_n false).set g.scan.1 true, q := [g.scan.1], reached := 1 } with
    | none => simp [hl] at h
    | some r =>
      rw [hl] at h
      rw [bfs_loop_mono g f f2 _ r hle hl]
      exact h

theorem is_connected_sound (g : Graph) (hg : g.Inv) (fuel : Nat) (b : Bool)
    (h : g.is_connected_ignoring_isolated fuel = some b) :
    (b = true ↔ g.ConnectedIgnoringIsolated) := by
  obtain ⟨b2, h2, hiff⟩ := is_connected_spec g hg (max fuel g.m_n) (le_max_right _ _)
  have := is_connected_mono g fuel (max fuel g.m_n) b (le_max_left _ _) h
  rw [this] at h2
  cases h2
  exact hiff

theorem map_neighbors_range (g : Graph) (hlen : g.adj.length = g.m_n) :
    (List.range g.m_n).map g.neighbors = g.adj := by
  apply List.ext_getElem
  · simp [hlen]
  · intro i h1 h2
    simp only [List.getElem_map, List.getElem_range]
    unfold neighbors
    rw [List.getD_eq_getElem _ _ h2]

theorem exists_nonIsolated (g : Graph) (hg : g.Inv) (hm : 0 < g.m_m) :
    ∃ i, i < g.m_n ∧ g.neighbors i ≠ [] := by
  by_contra hcon
  push_neg at hcon
  have hz : g.degree_sum = 0 := by
    unfold degree_sum
    apply List.sum_eq_zero
    intro x hx
    obtain ⟨l, hl, rfl⟩ := List.mem_map.1 hx
    obtain ⟨i, hi, rfl⟩ := List.getElem_of_mem hl
    have := hcon i (by rw [← hg.len]; exact hi)
    unfold neighbors at this
    rw [List.getD_eq_getElem _ _ hi] at this
    simp [this]
  have := hg.count
  omega

theorem mem_edge_set (g : Graph) (hg : g.Inv) (x y : Nat) :
    s(x, y) ∈ g.edge_set ↔ y ∈ g.neighbors x := by
  unfold edge_set
  simp only [Finset.mem_biUnion, Finset.mem_range, Finset.mem_image, List.mem_toFinset]
  constructor
  · rintro ⟨u, -, v, hv, he⟩
    rcases Sym2.eq_iff.1 he with ⟨rfl, rfl⟩ | ⟨rfl, rfl⟩
    · exact hv
    · exact hg.symm _ _ hv
  · intro h
    refine ⟨x, ?_, y, h, rfl⟩
    by_contra hge
    rw [neighbors_eq_nil_of_ge g hg.len x (by omega)] at h
    simp at h

end Graph

theorem find_start_spec (g : Graph) (hg : g.Inv) (hm : 0 < g.m_m) :
    find_start g.adj g.m_n < g.m_n ∧ g.neighbors (find_start g.adj g.m_n) ≠ [] := by
  obtain ⟨i, hi, hne⟩ := Graph.exists_nonIsolated g hg hm
  unfold find_start
  have hsome : ((List.range g.m_n).find? (fun i => !(g.adj.getD i []).isEmpty)).isSome = true := by
    rw [List.find?_isSome]
    refine ⟨i, List.mem_range.2 hi, ?_⟩
    unfold Graph.neighbors at hne
    cases hl : g.adj.getD i [] with
    | nil => exact absurd hl hne
    | cons a t => rfl
  obtain ⟨j, hj⟩ := Option.isSome_iff_exists.1 hsome
  rw [hj]
  simp only [Option.getD_some]
  have hp := List.find?_some hj
  have hmem := List.mem_of_find?_eq_some hj
  refine ⟨List.mem_range.1 hmem, ?_⟩
  unfold Graph.neighbors
  intro hnil
  rw [hnil] at hp
  simp at hp

theorem hinv_init (g : Graph) (hg : g.Inv) (hev : g.AllEven) (start : Nat)
    (hs : start < g.m_n) :
    HInv g start { adj := g.adj, st := [start], out := [] } start := by
  refine ⟨hg.len, hg.symm, hg.nodup, ?_, ?_, ?_, ?_, ?_, ?_, ?_, ?_, ?_, ?_, ?_, ?_, ?_⟩
  · intro x hx
    simp only [List.mem_singleton] at hx
    subst hx; exact hs
  · intro top htop w
    simp only [List.head?_cons, Option.mem_def, Option.some.injEq] at htop
    subst htop
    simp only [ne_eq, not_true_eq_false, and_false, if_false]
    by_cases hw : w < g.m_n
    · exact hev w hw
    · have := Graph.neighbors_eq_nil_of_ge g hg.len w (by omega)
      unfold Graph.neighbors at this
      rw [this]; rfl
  · intro x y
    simp [hierholzer_used, consecutive_pairs, Graph.neighbors]
  · simp [hierholzer_used, consecutive_pairs]
  · intro x y hxy
    simp [hierholzer_used, consecutive_pairs] at hxy
  · intro _; simp
  · intro w hw; simp at hw
  · left; simp
  · intro b hb
    simp at hb
    exact hb.symm
  · intro o ho; simp at ho
  · intro hnil; simp at hnil
  · intro _; rfl
  · have := hg.count
    unfold Graph.degree_sum at this
    simp only [List.length_singleton, List.length_nil]
    omega

theorem hinv_final (g : Graph) (hg : g.Inv) (hc : g.ConnectedIgnoringIsolated) (start a : Nat)
    (hs : start < g.m_n) (hsn : g.neighbors start ≠ [])
    (s : HState) (h : HInv g start s a) (hst : s.st = []) :
    (Multiset.ofList (consecutive_pairs s.out.reverse) = g.edge_set.val) ∧
    s.out.length = g.m_m + 1 ∧
    s.out.reverse.head? = some start ∧ s.out.reverse.getLast? = some start := by
  have hused : hierholzer_used s a = consecutive_pairs s.out.reverse := by
    unfold hierholzer_used
    rw [hst]
    rfl
  have hstart : start ∈ s.out := by
    rcases h.start_mem with h1 | h1
    · rw [hst] at h1; simp at h1
    · exact h1
  have hreach : ∀ w, g.Joined start w → w ∈ s.out := by
    intro w hw
    unfold Graph.Joined at hw
    induction hw with
    | refl => exact hstart
    | @tail b c _ hbc ih =>
      rcases (h.edges b c).1 hbc with h1 | h1
      · rw [h.out_done b ih] at h1
        simp at h1
      · rw [hused] at h1
        have := (mem_of_mem_consecutive_pairs _ _ _ h1).2
        simpa using this
  have hempty : ∀ x, s.adj.getD x [] = [] := by
    intro x
    apply List.eq_nil_iff_forall_not_mem.2
    intro y hy
    have hxy : y ∈ g.neighbors x := (h.edges x y).2 (Or.inl hy)
    have hxn : g.neighbors x ≠ [] := List.ne_nil_of_mem hxy
    have hxlt : x < g.m_n := by
      by_contra hge
      exact hxn (Graph.neighbors_eq_nil_of_ge g hg.len x (by omega))
    have := h.out_done x (hreach x (hc start x hs hxlt hsn hxn))
    rw [this] at hy
    simp at hy
  have hsum : (s.adj.map List.length).sum = 0 := by
    apply List.sum_eq_zero
    intro x hx
    obtain ⟨l, hl, rfl⟩ := List.mem_map.1 hx
    obtain ⟨i, hi, rfl⟩ := List.getElem_of_mem hl
    have := hempty i
    rw [List.getD_eq_getElem _ _ hi] at this
    simp [this]
  refine ⟨?_, ?_, ?_, ?_⟩
  · rw [Multiset.Nodup.ext (by rw [Multiset.coe_nodup, ← hused]; exact h.used_nodup)
      g.edge_set.nodup]
    intro z
    induction z using Sym2.ind with
    | _ x y =>
      rw [Finset.mem_val, Graph.mem_edge_set g hg, h.edges x y, hempty x, hused]
      simp
  · have := h.count
    rw [hsum, hst] at this
    simp only [List.length_nil] at this
    omega
  · rw [List.head?_reverse]
    obtain ⟨l, hl⟩ : ∃ l, s.out.getLast? = some l := by
      cases hl : s.out.getLast? with
      | none =>
        rw [List.getLast?_eq_none_iff] at hl
        rw [hl] at hstart; simp at hstart
      | some l => exact ⟨l, rfl⟩
    rw [hl, h.last_out hst l hl]
  · rw [List.getLast?_reverse]
    obtain ⟨l, hl⟩ : ∃ l, s.out.head? = some l := by
      cases hl : s.out.head? with
      | none =>
        rw [List.head?_eq_none_iff] at hl
        rw [hl] at hstart; simp at hstart
      | some l => exact ⟨l, rfl⟩
    rw [hl, h.first_out l hl]

theorem euler_feasibility_ok (g : Graph) (hg : g.Inv) (fuel : Nat) (chk : EulerCheck)
    (hchk : euler_feasibility g fuel = some chk) (hok : chk.ok = true) :
    g.ConnectedIgnoringIsolated ∧ g.AllEven := by
  unfold euler_feasibility at hchk
  cases hb : g.is_connected_ignoring_isolated fuel with
  | none => simp [hb] at hchk
  | some b =>
    rw [hb] at hchk
    cases b with
    | false =>
      simp at hchk
      rw [← hchk] at hok
      cases hok
    | true =>
      have hc := (Graph.is_connected_sound g hg fuel true hb).1 rfl
      cases he : g.all_even_degrees with
      | false =>
        simp [he] at hchk
        rw [← hchk] at hok
        cases hok
      | true => exact ⟨hc, (Graph.all_even_degrees_iff g).1 he⟩

theorem find_euler_circuit_spec (g : Graph) (hg : g.Inv) (fuel_bfs fuel : Nat) (chk : EulerCheck)
    (hchk : euler_feasibility g fuel_bfs = some chk) (hok : chk.ok = true) (hm : 0 < g.m_m)
    (hf : 2 * g.m_m + 1 ≤ fuel) :
    ∃ c, find_euler_circuit g fuel_bfs fuel = some c ∧
      Multiset.ofList (consecutive_pairs c) = g.edge_set.val ∧
      c.length = g.m_m + 1 ∧
      c.head? = some (find_start g.adj g.m_n) ∧ c.getLast? = some (find_start g.adj g.m_n) := by
  obtain ⟨hc, hev⟩ := euler_feasibility_ok g hg fuel_bfs chk hchk hok
  obtain ⟨hs, hsn⟩ := find_start_spec g hg hm
  have hinit := hinv_init g hg hev _ hs
  have hcount := hg.count
  unfold Graph.degree_sum at hcount
  obtain ⟨s2, a2, e2, i2, st2⟩ :=
    hierholzer_loop_spec g hg _ fuel _ _ hinit (by simp only [List.length_singleton]; omega)
  obtain ⟨f1, f2, f3, f4⟩ := hinv_final g hg hc _ a2 hs hsn s2 i2 st2
  refine ⟨s2.out.reverse, ?_, f1, by simpa using f2, f3, f4⟩
  unfold find_euler_circuit
  rw [hchk]
  have hn : ¬ g.n = 0 := by unfold Graph.n; omega
  have hm0 : ¬ g.m = 0 := by unfold Graph.m; omega
  simp only [hok, Bool.not_true, Bool.false_eq_true, if_false, hn, hm0]
  unfold Graph.n
  rw [Graph.map_neighbors_range g hg.len, e2]

/-! ## Claims about connectivity, feasibility and the Euler circuit -/

/-- C8: on every graph built from `Graph(n)` by `add_edge` calls,
    `is_connected_ignoring_isolated()` returns (its BFS needs at most `n` iterations), and it
    returns true exactly when every two vertices of positive degree are joined by a path;
    in particular it returns true when at most one vertex has positive degree and when
    `n = 0`. -/
theorem is_connected_ignoring_isolated_correct (n : Nat) (ops : List (Nat × Nat)) (fuel : Nat)
    (hf : n ≤ fuel) :
    ∃ b, (Graph.build n ops).is_connected_ignoring_isolated fuel = some b ∧
      (b = true ↔ (Graph.build n ops).ConnectedIgnoringIsolated) ∧
      ((∀ u v, (Graph.build n ops).neighbors u ≠ [] → (Graph.build n ops).neighbors v ≠ [] →
          u = v) → b = true) ∧
      (n = 0 → b = true) := by
  have hg := Graph.inv_build n ops
  obtain ⟨b, hb, hiff⟩ := Graph.is_connected_spec _ hg fuel (by rw [Graph.m_n_build]; exact hf)
  refine ⟨b, hb, hiff, ?_, ?_⟩
  · intro h
    apply hiff.2
    intro u v _ _ hu hv
    rw [h u v hu hv]
    exact Relation.ReflTransGen.refl
  · intro hn
    apply hiff.2
    intro u v hu
    rw [Graph.m_n_build] at hu
    omega

theorem is_connected_ignoring_isolated_correct_witness :
    4 ≤ 4 ∧
    ∃ b, (Graph.build 4 [(0, 1), (2, 3)]).is_connected_ignoring_isolated 4 = some b ∧
      (b = true ↔ (Graph.build 4 [(0, 1), (2, 3)]).ConnectedIgnoringIsolated) :=
  ⟨le_refl 4,
    (is_connected_ignoring_isolated_correct 4 [(0, 1), (2, 3)] 4 (le_refl 4)).imp
      (fun _ h => ⟨h.1, h.2.1⟩)⟩

/-- C9: on every graph built from `Graph(n)` by `add_edge` calls, `euler_feasibility`
    returns `ok = false` with the connectivity reason when the non-isolated vertices are not
    connected (whatever the degrees), otherwise `ok = false` with the even-degree reason
    when some vertex has odd degree, otherwise `ok = true`; so `ok` holds exactly when the
    graph is connected ignoring isolated vertices and every degree is even. -/
theorem euler_feasibility_correct (n : Nat) (ops : List (Nat × Nat)) (fuel : Nat)
    (hf : n ≤ fuel) :
    ∃ chk, euler_feasibility (Graph.build n ops) fuel = some chk ∧
      (¬ (Graph.build n ops).ConnectedIgnoringIsolated →
        chk = ⟨false, "Graph is not connected when ignoring isolated vertices"⟩) ∧
      ((Graph.build n ops).ConnectedIgnoringIsolated → ¬ (Graph.build n ops).AllEven →
        chk = ⟨false, "Not all vertices have even degree"⟩) ∧
      ((Graph.build n ops).ConnectedIgnoringIsolated → (Graph.build n ops).AllEven →
        chk = ⟨true, "OK"⟩) ∧
      (chk.ok = true ↔
        ((Graph.build n ops).ConnectedIgnoringIsolated ∧ (Graph.build n ops).AllEven)) :=
  euler_feasibility_spec _ (Graph.inv_build n ops) fuel (by rw [Graph.m_n_build]; exact hf)

theorem euler_feasibility_correct_witness :
    3 ≤ 3 ∧
    euler_feasibility (Graph.build 3 [(0, 1), (1, 2)]) 3 =
      some ⟨false, "Not all vertices have even degree"⟩ ∧
    euler_feasibility (Graph.build 3 [(0, 1), (1, 2), (2, 0)]) 3 = some ⟨true, "OK"⟩ ∧
    euler_feasibility (Graph.build 1 []) 1 = some ⟨true, "OK"⟩ ∧
    ∃ chk, euler_feasibility (Graph.build 3 [(0, 1), (1, 2)]) 3 = some chk ∧
      (chk.ok = true ↔ ((Graph.build 3 [(0, 1), (1, 2)]).ConnectedIgnoringIsolated ∧
        (Graph.build 3 [(0, 1), (1, 2)]).AllEven)) :=
  ⟨le_refl 3, by decide, by decide, by decide,
    (euler_feasibility_correct 3 [(0, 1), (1, 2)] 3 (le_refl 3)).imp
      (fun _ h => ⟨h.1, h.2.2.2.2⟩)⟩

/-- C10: on every graph built from `Graph(n)` by `add_edge` calls on which
    `euler_feasibility` reports `ok` and which has `m > 0`, `find_euler_circuit` returns
    (its loop needs at most `2 * m + 1` iterations) a sequence whose multiset of unordered
    consecutive pairs is exactly the edge set of the graph, each edge once; so every
    consecutive pair is an edge. -/
theorem find_euler_circuit_uses_each_edge_once (n : Nat) (ops : List (Nat × Nat))
    (fuel_bfs fuel : Nat) (chk : EulerCheck)
    (hchk : euler_feasibility (Graph.build n ops) fuel_bfs = some chk) (hok : chk.ok = true)
    (hm : 0 < (Graph.build n ops).m) (hf : 2 * (Graph.build n ops).m + 1 ≤ fuel) :
    ∃ c, find_euler_circuit (Graph.build n ops) fuel_bfs fuel = some c ∧
      Multiset.ofList (consecutive_pairs c) = (Graph.build n ops).edge_set.val ∧
      (∀ x y, s(x, y) ∈ consecutive_pairs c → y ∈ (Graph.build n ops).neighbors x) := by
  have hg := Graph.inv_build n ops
  obtain ⟨c, h1, h2, -, -, -⟩ :=
    find_euler_circuit_spec _ hg fuel_bfs fuel chk hchk hok hm hf
  refine ⟨c, h1, h2, ?_⟩
  intro x y hxy
  rw [← Graph.mem_edge_set _ hg, ← Finset.mem_val, ← h2]
  exact hxy

theorem find_euler_circuit_uses_each_edge_once_witness :
    euler_feasibility (Graph.build 3 [(0, 1), (1, 2), (2, 0)]) 3 = some ⟨true, "OK"⟩ ∧
    find_euler_circuit (Graph.build 3 [(0, 1), (1, 2), (2, 0)]) 3 7 = some [0, 2, 1, 0] ∧
    ∃ c, find_euler_circuit (Graph.build 3 [(0, 1), (1, 2), (2, 0)]) 3 7 = some c ∧
      Multiset.ofList (consecutive_pairs c) =
        (Graph.build 3 [(0, 1), (1, 2), (2, 0)]).edge_set.val :=
  ⟨by decide, by decide,
    (find_euler_circuit_uses_each_edge_once 3 [(0, 1), (1, 2), (2, 0)] 3 7 ⟨true, "OK"⟩
      (by decide) rfl (by decide) (by decide)).imp (fun _ h => ⟨h.1, h.2.1⟩)⟩

theorem max_edges_u64_le (n : Nat) : max_edges_u64 n ≤ n * (n - 1) / 2 := by
  unfold max_edges_u64
  apply Nat.div_le_div_right
  refine le_trans (Nat.mod_le _ _) ?_
  rcases Nat.eq_zero_or_pos n with h | h
  · subst h; simp
  · apply Nat.mul_le_mul (Nat.mod_le _ _)
    have h1 : n % 2 ^ 64 ≤ n := Nat.mod_le _ _
    rcases Nat.eq_zero_or_pos (n % 2 ^ 64) with h0 | h0
    · rw [h0]
      have : n % 2 ^ 64 = 0 := h0
      have h2 := Nat.div_add_mod n (2 ^ 64)
      rw [this] at h2
      have h3 : 0 < n / 2 ^ 64 := by
        by_contra hc
        have : n / 2 ^ 64 = 0 := by omega
        rw [this] at h2
        omega
      norm_num
      omega
    · have : (n % 2 ^ 64 + 2 ^ 64 - 1) % 2 ^ 64 = n % 2 ^ 64 - 1 := by
        have hlt : n % 2 ^ 64 < 2 ^ 64 := Nat.mod_lt _ (by norm_num)
        omega
      rw [this]
      omega

/-- C14: `random_simple(n, m, seed)` throws `std::invalid_argument` (no graph is returned
    and `m` is never clamped) whenever `m > n(n-1)/2`, and whenever `n = 0` and `m > 0`,
    whatever the seed. -/
theorem random_simple_rejects (rs : RandomSource) (n m fuel : Nat)
    (h : n * (n - 1) / 2 < m ∨ (n = 0 ∧ 0 < m)) :
    ∃ what, Graph.random_simple rs n m fuel = some (.invalid_argument what) := by
  have hm : max_edges_u64 n < m := by
    rcases h with h | ⟨h1, h2⟩
    · exact lt_of_le_of_lt (max_edges_u64_le n) h
    · subst h1
      have := max_edges_u64_le 0
      simp at this
      omega
  unfold Graph.random_simple
  rw [if_pos hm]
  exact ⟨_, rfl⟩

theorem random_simple_rejects_witness :
    5 * (5 - 1) / 2 < 11 ∧
    Graph.random_simple RandomSource.counting 5 11 0 = some (.invalid_argument
      "m exceeds the maximum number of edges for a simple undirected graph") ∧
    Graph.random_simple RandomSource.counting 0 1 0 = some (.invalid_argument
      "m exceeds the maximum number of edges for a simple undirected graph") ∧
    ∃ what, Graph.random_simple RandomSource.counting 5 11 0 = some (.invalid_argument what) :=
  ⟨by decide, by decide, by decide,
    random_simple_rejects RandomSource.counting 5 11 0 (Or.inl (by decide))⟩


theorem exists_pair_of_mem (l : List Nat) (hl : 2 ≤ l.length) (x : Nat) (hx : x ∈ l) :
    ∃ y, s(x, y) ∈ consecutive_pairs l := by
  induction l with
  | nil => simp at hx
  | cons a t ih =>
    cases t with
    | nil => simp at hl
    | cons b t =>
      rw [consecutive_pairs_cons_cons]
      rcases List.mem_cons.1 hx with h | h
      · subst h
        exact ⟨b, List.mem_cons_self _ _⟩
      · cases t with
        | nil =>
          simp only [List.mem_singleton] at h
          subst h
          exact ⟨a, by rw [Sym2.eq_swap]; exact List.mem_cons_self _ _⟩
        | cons c t =>
          obtain ⟨y, hy⟩ := ih (by simp) h
          exact ⟨y, List.mem_cons_of_mem _ hy⟩

/-- C11: on every graph built from `Graph(n)` by `add_edge` calls on which
    `euler_feasibility` reports `ok` and which has `m > 0`, `find_euler_circuit` returns a
    sequence of exactly `m + 1` vertex ids (all below `n`) whose first element equals its
    last element. -/
theorem find_euler_circuit_closed (n : Nat) (ops : List (Nat × Nat))
    (fuel_bfs fuel : Nat) (chk : EulerCheck)
    (hchk : euler_feasibility (Graph.build n ops) fuel_bfs = some chk) (hok : chk.ok = true)
    (hm : 0 < (Graph.build n ops).m) (hf : 2 * (Graph.build n ops).m + 1 ≤ fuel) :
    ∃ c, find_euler_circuit (Graph.build n ops) fuel_bfs fuel = some c ∧
      c.length = (Graph.build n ops).m + 1 ∧ (∀ x ∈ c, x < n) ∧
      c.head? = c.getLast? ∧ c.head? ≠ none := by
  have hg := Graph.inv_build n ops
  obtain ⟨c, h1, h2, h3, h4, h5⟩ :=
    find_euler_circuit_spec _ hg fuel_bfs fuel chk hchk hok hm hf
  refine ⟨c, h1, h3, ?_, by rw [h4, h5], by rw [h4]; simp⟩
  intro x hx
  unfold Graph.m at hm
  obtain ⟨y, hy⟩ := exists_pair_of_mem c (by omega) x hx
  have hmem : s(x, y) ∈ (Graph.build n ops).edge_set := by
    rw [← Finset.mem_val, ← h2]; exact hy
  rw [Graph.mem_edge_set _ hg] at hmem
  by_contra hge
  rw [Graph.neighbors_eq_nil_of_ge _ hg.len x (by rw [Graph.m_n_build]; omega)] at hmem
  simp at hmem

theorem find_euler_circuit_closed_witness :
    euler_feasibility (Graph.build 3 [(0, 1), (1, 2), (2, 0)]) 3 = some ⟨true, "OK"⟩ ∧
    (Graph.build 3 [(0, 1), (1, 2), (2, 0)]).m = 3 ∧
    find_euler_circuit (Graph.build 3 [(0, 1), (1, 2), (2, 0)]) 3 7 = some [0, 2, 1, 0] ∧
    ∃ c, find_euler_circuit (Graph.build 3 [(0, 1), (1, 2), (2, 0)]) 3 7 = some c ∧
      c.length = (Graph.build 3 [(0, 1), (1, 2), (2, 0)]).m + 1 ∧ c.head? = c.getLast? :=
  ⟨by decide, by decide, by decide,
    (find_euler_circuit_closed 3 [(0, 1), (1, 2), (2, 0)] 3 7 ⟨true, "OK"⟩
      (by decide) rfl (by decide) (by decide)).imp (fun _ h => ⟨h.1, h.2.1, h.2.2.2.1⟩)⟩

theorem find_euler_circuit_early (g : Graph) (fuel_bfs fuel : Nat) (chk : EulerCheck)
    (hchk : euler_feasibility g fuel_bfs = some chk)
    (h : chk.ok = false ∨ g.n = 0 ∨ g.m = 0) :
    find_euler_circuit g fuel_bfs fuel = some [] := by
  unfold find_euler_circuit
  rw [hchk]
  rcases h with h | h | h
  · simp [h]
  · by_cases h1 : chk.ok = true <;> simp [h1, h]
  · by_cases h1 : chk.ok = true <;> by_cases h2 : g.n = 0 <;> simp [h1, h2, h]

theorem find_euler_circuit_nonempty (g : Graph) (fuel_bfs fuel : Nat) (c : List Nat)
    (hc : find_euler_circuit g fuel_bfs fuel = some c) (hne : c ≠ []) :
    ∃ chk, euler_feasibility g fuel_bfs = some chk ∧ chk.ok = true ∧ g.n ≠ 0 ∧ g.m ≠ 0 := by
  cases hchk : euler_feasibility g fuel_bfs with
  | none =>
    unfold find_euler_circuit at hc
    rw [hchk] at hc
    cases hc
  | some chk =>
    refine ⟨chk, rfl, ?_, ?_, ?_⟩
    · by_contra hok
      have := find_euler_circuit_early g fuel_bfs fuel chk hchk (Or.inl (by simpa using hok))
      rw [this] at hc
      cases hc
      exact hne rfl
    · intro hn
      have := find_euler_circuit_early g fuel_bfs fuel chk hchk (Or.inr (Or.inl hn))
      rw [this] at hc
      cases hc
      exact hne rfl
    · intro hn
      have := find_euler_circuit_early g fuel_bfs fuel chk hchk (Or.inr (Or.inr hn))
      rw [this] at hc
      cases hc
      exact hne rfl

/-- C12: on every graph built from `Graph(n)` by `add_edge` calls the feasibility test
    returns, and `find_euler_circuit` returns the empty sequence whenever feasibility is not
    `ok`, or `n = 0`, or `m = 0`; so a non-empty result implies that feasibility passed. -/
theorem find_euler_circuit_empty_cases (n : Nat) (ops : List (Nat × Nat))
    (fuel_bfs fuel : Nat) (hf : n ≤ fuel_bfs) :
    ∃ chk, euler_feasibility (Graph.build n ops) fuel_bfs = some chk ∧
      ((chk.ok = false ∨ (Graph.build n ops).n = 0 ∨ (Graph.build n ops).m = 0) →
        find_euler_circuit (Graph.build n ops) fuel_bfs fuel = some []) ∧
      (∀ c, find_euler_circuit (Graph.build n ops) fuel_bfs fuel = some c → c ≠ [] →
        chk.ok = true) := by
  obtain ⟨chk, hchk, -⟩ :=
    euler_feasibility_spec _ (Graph.inv_build n ops) fuel_bfs (by rw [Graph.m_n_build]; exact hf)
  refine ⟨chk, hchk, find_euler_circuit_early _ fuel_bfs fuel chk hchk, ?_⟩
  intro c hc hne
  obtain ⟨chk2, h2, hok, -, -⟩ := find_euler_circuit_nonempty _ fuel_bfs fuel c hc hne
  rw [hchk] at h2
  cases h2
  exact hok

theorem find_euler_circuit_empty_cases_witness :
    1 ≤ 1 ∧
    (Graph.build 1 []).n = 1 ∧ (Graph.build 1 []).m = 0 ∧
    euler_feasibility (Graph.build 1 []) 1 = some ⟨true, "OK"⟩ ∧
    find_euler_circuit (Graph.build 1 []) 1 0 = some [] ∧
    find_euler_circuit (Graph.build 3 [(0, 1), (1, 2)]) 3 5 = some [] ∧
    ∃ chk, euler_feasibility (Graph.build 1 []) 1 = some chk ∧
      ((chk.ok = false ∨ (Graph.build 1 []).n = 0 ∨ (Graph.build 1 []).m = 0) →
        find_euler_circuit (Graph.build 1 []) 1 0 = some []) :=
  ⟨le_refl 1, by decide, by decide, by decide, by decide, by decide,
    (find_euler_circuit_empty_cases 1 [] 1 0 (le_refl 1)).imp (fun _ h => ⟨h.1, h.2.1⟩)⟩

/-- C13: `random_simple(4294967297, 2147483649, seed)` throws `std::invalid_argument` for
    every seed although `m ≤ n(n-1)/2`: the product `nn * (nn - 1)` wraps around in
    `std::uint64_t`. -/
theorem random_simple_overflow_rejects (rs : RandomSource) (fuel : Nat) :
    2147483649 ≤ 4294967297 * (4294967297 - 1) / 2 ∧
    max_edges_u64 4294967297 = 2147483648 ∧
    Graph.random_simple rs 4294967297 2147483649 fuel = some (.invalid_argument
      "m exceeds the maximum number of edges for a simple undirected graph") := by
  refine ⟨by decide, by decide, ?_⟩
  unfold Graph.random_simple
  rw [if_pos (by decide)]

theorem euler_run_infeasible (g : Graph) (fuel_bfs fuel : Nat) (chk : EulerCheck)
    (hchk : euler_feasibility g fuel_bfs = some chk) (hok : chk.ok = false) :
    EulerCircuitAlg.run g fuel_bfs fuel = some ("ERR " ++ chk.reason) := by
  unfold EulerCircuitAlg.run
  rw [hchk]
  simp [hok]

theorem euler_run_edgeless (g : Graph) (fuel_bfs fuel : Nat) (chk : EulerCheck)
    (hchk : euler_feasibility g fuel_bfs = some chk) (hok : chk.ok = true) (hm : g.m = 0) :
    EulerCircuitAlg.run g fuel_bfs fuel = some "OK CIRCUIT 18446744073709551615\n" := by
  unfold EulerCircuitAlg.run
  rw [hchk, find_euler_circuit_early g fuel_bfs fuel chk hchk (Or.inr (Or.inr hm))]
  simp only [hok, Bool.not_true, Bool.false_eq_true, if_false]
  decide

theorem euler_run_feasible (n : Nat) (ops : List (Nat × Nat))
    (fuel_bfs fuel : Nat) (chk : EulerCheck)
    (hchk : euler_feasibility (Graph.build n ops) fuel_bfs = some chk) (hok : chk.ok = true)
    (hm : 0 < (Graph.build n ops).m) (hf : 2 * (Graph.build n ops).m + 1 ≤ fuel)
    (hsmall : (Graph.build n ops).m < 2 ^ 64 - 1) :
    ∃ c, find_euler_circuit (Graph.build n ops) fuel_bfs fuel = some c ∧
      EulerCircuitAlg.run (Graph.build n ops) fuel_bfs fuel =
        some ("OK CIRCUIT " ++ toString (Graph.build n ops).m ++ "\n" ++ join_sp c) := by
  obtain ⟨c, h1, -, h3, -, -⟩ :=
    find_euler_circuit_spec _ (Graph.inv_build n ops) fuel_bfs fuel chk hchk hok hm hf
  refine ⟨c, h1, ?_⟩
  unfold EulerCircuitAlg.run
  rw [hchk, h1]
  simp only [hok, Bool.not_true, Bool.false_eq_true, if_false]
  have : size_minus_one c.length = (Graph.build n ops).m := by
    unfold size_minus_one
    rw [h3]
    unfold Graph.m at hsmall ⊢
    omega
  rw [this]

/-- C15: on the edgeless graph with one vertex, where `euler_feasibility` reports `ok`,
    `EulerCircuitAlg::run` reports the circuit length `18446744073709551615`
    (`tour.size() - 1` on the empty tour) and not the edge count `0`. -/
theorem euler_run_edgeless_length :
    euler_feasibility (Graph.new 1) 1 = some ⟨true, "OK"⟩ ∧ (Graph.new 1).m = 0 ∧
    find_euler_circuit (Graph.new 1) 1 0 = some [] ∧
    EulerCircuitAlg.run (Graph.new 1) 1 0 = some "OK CIRCUIT 18446744073709551615\n" := by
  refine ⟨by decide, by decide, by decide, by decide⟩


theorem fold_opt_spec {σ : Type} (f : σ → Nat → Option σ) (I : List Nat → σ → Prop)
    (l : List Nat) (s0 : σ) (h0 : I [] s0)
    (hstep : ∀ done v rest s, done ++ v :: rest = l → I done s →
      ∃ s2, f s v = some s2 ∧ I (done ++ [v]) s2) :
    ∃ s2, fold_opt f l s0 = some s2 ∧ I l s2 := by
  have key : ∀ (rest done : List Nat) (s : σ), done ++ rest = l → I done s →
      ∃ s2, fold_opt f rest s = some s2 ∧ I l s2 := by
    intro rest
    induction rest with
    | nil =>
      intro done s hl hI
      rw [List.append_nil] at hl
      subst hl
      exact ⟨s, rfl, hI⟩
    | cons v rest ih =>
      intro done s hl hI
      obtain ⟨s1, e1, i1⟩ := hstep done v rest s hl hI
      obtain ⟨s2, e2, i2⟩ := ih (done ++ [v]) s1 (by rw [← hl]; simp) i1
      exact ⟨s2, by simp [fold_opt, e1, e2], i2⟩
  exact key l [] s0 rfl h0

theorem getD_set_any {α : Type} (l : List α) (u w : Nat) (x d : α) (hu : u < l.length) :
    (l.set u x).getD w d = if w = u then x else l.getD w d := by
  simp only [List.getD_eq_getElem?_getD, List.getElem?_set]
  by_cases h : u = w
  · subst h; simp [hu]
  · have : ¬ w = u := fun e => h e.symm
    simp [h, this]

theorem get_int_natCast {α : Type} (l : List α) (i : Nat) : get_int l (i : Int) = l[i]? := by
  unfold get_int
  simp

theorem set_int_natCast {α : Type} (l : List α) (i : Nat) (x : α) (h : i < l.length) :
    set_int l (i : Int) x = some (l.set i x) := by
  unfold set_int
  simp [h]

theorem capWF_row (n : Nat) (cap : List (List Int)) (h : CapWF n cap) (u : Nat) (hu : u < n) :
    ∃ row, cap[u]? = some row ∧ row.length = n ∧ cap.getD u [] = row := by
  have hl : u < cap.length := by rw [h.1]; exact hu
  refine ⟨cap[u], List.getElem?_eq_getElem hl, h.2 _ (List.getElem_mem hl), ?_⟩
  rw [List.getD_eq_getElem _ _ hl]

theorem get_cap_eq (n : Nat) (cap : List (List Int)) (h : CapWF n cap) (u v : Nat)
    (hu : u < n) (hv : v < n) : get_cap cap (u : Int) (v : Int) = some (capv cap u v) := by
  obtain ⟨row, hr, hlen, hd⟩ := capWF_row n cap h u hu
  unfold get_cap capv
  rw [get_int_natCast, hr]
  simp only
  rw [get_int_natCast, hd, List.getElem?_eq_getElem (by omega), List.getD_eq_getElem _ _ (by omega)]

theorem set_cap_spec (n : Nat) (cap : List (List Int)) (h : CapWF n cap) (u v : Nat) (x : Int)
    (hu : u < n) (hv : v < n) :
    ∃ cap2, set_cap cap (u : Int) (v : Int) x = some cap2 ∧ CapWF n cap2 ∧
      ∀ a b, capv cap2 a b = if a = u ∧ b = v then x else capv cap a b := by
  obtain ⟨row, hr, hlen, hd⟩ := capWF_row n cap h u hu
  have hl : u < cap.length := by rw [h.1]; exact hu
  refine ⟨cap.set u (row.set v x), ?_, ?_, ?_⟩
  · unfold set_cap
    rw [get_int_natCast, hr]
    simp only
    rw [set_int_natCast _ _ _ (by omega)]
    simp only
    rw [set_int_natCast _ _ _ hl]
  · refine ⟨by simp [h.1], ?_⟩
    intro r hrm
    rcases List.mem_or_eq_of_mem_set hrm with h1 | h1
    · exact h.2 r h1
    · rw [h1]; simp [hlen]
  · intro a b
    unfold capv
    rw [getD_set_any _ _ _ _ _ hl]
    by_cases ha : a = u
    · subst ha
      rw [if_pos rfl, hd, getD_set_any _ _ _ _ _ (by omega)]
      simp only [true_and]
    · rw [if_neg ha]
      simp [ha]


theorem capv_replicate (n a b : Nat) :
    capv (List.replicate n (List.replicate n (0 : Int))) a b = 0 := by
  unfold capv
  simp only [List.getD_eq_getElem?_getD, List.getElem?_replicate]
  by_cases ha : a < n
  · by_cases hb : b < n <;> simp [ha, hb]
  · simp [ha]

theorem capWF_replicate (n : Nat) : CapWF n (List.replicate n (List.replicate n (0 : Int))) := by
  refine ⟨by simp, ?_⟩
  intro row hrow
  rw [List.mem_replicate] at hrow
  rw [hrow.2]; simp

theorem cap_row_spec (n : Nat) (u : Nat) (hu : u < n) (nb : List Nat) (hnb : ∀ v ∈ nb, v < n)
    (cap : List (List Int)) (h : CapWF n cap) :
    ∃ cap2, fold_opt (fun cap2 v => set_cap cap2 (u : Int) (v : Int) 1) nb cap = some cap2 ∧
      CapWF n cap2 ∧
      ∀ a b, capv cap2 a b = if a = u ∧ b ∈ nb then 1 else capv cap a b := by
  have := fold_opt_spec (fun cap2 v => set_cap cap2 (u : Int) (v : Int) 1)
    (fun done c => CapWF n c ∧ ∀ a b, capv c a b = if a = u ∧ b ∈ done then 1 else capv cap a b)
    nb cap ⟨h, by simp⟩ (by
      intro done v rest c hl ⟨hc, hval⟩
      have hv : v < n := hnb v (by rw [← hl]; simp)
      obtain ⟨c2, e2, w2, v2⟩ := set_cap_spec n c hc u v 1 hu hv
      refine ⟨c2, e2, w2, ?_⟩
      intro a b
      rw [v2 a b, hval a b]
      by_cases h1 : a = u ∧ b = v
      · rw [if_pos h1, if_pos ⟨h1.1, by simp [h1.2]⟩]
      · rw [if_neg h1]
        by_cases h2 : a = u ∧ b ∈ done
        · rw [if_pos h2, if_pos ⟨h2.1, by simp [h2.2]⟩]
        · rw [if_neg h2, if_neg]
          rintro ⟨h3, h4⟩
          rcases List.mem_append.1 h4 with h5 | h5
          · exact h2 ⟨h3, h5⟩
          · simp at h5; exact h1 ⟨h3, h5⟩)
  exact this

theorem cap_init_spec (g : Graph) (hg : g.Inv) :
    ∃ cap, cap_init g = some cap ∧ CapWF g.m_n cap ∧
      ∀ a b, capv cap a b = if b ∈ g.neighbors a then 1 else 0 := by
  unfold cap_init Graph.num_vertices
  obtain ⟨cap, e, hw, hv⟩ := fold_opt_spec
    (fun cap u => fold_opt (fun cap2 v => set_cap cap2 (u : Int) (v : Int) 1) (g.neighbors u) cap)
    (fun done c => CapWF g.m_n c ∧
      ∀ a b, capv c a b = if a ∈ done ∧ b ∈ g.neighbors a then 1 else 0)
    (List.range g.m_n) (List.replicate g.m_n (List.replicate g.m_n 0))
    ⟨capWF_replicate _, by intro a b; simp [capv_replicate]⟩ (by
      intro done u rest c hl ⟨hc, hval⟩
      have hu : u < g.m_n := by
        have : u ∈ List.range g.m_n := by rw [← hl]; simp
        exact List.mem_range.1 this
      obtain ⟨c2, e2, w2, v2⟩ := cap_row_spec g.m_n u hu (g.neighbors u)
        (fun v hv => hg.lt u v hv) c hc
      refine ⟨c2, e2, w2, ?_⟩
      intro a b
      rw [v2 a b, hval a b]
      by_cases h1 : a = u
      · subst h1
        by_cases h2 : b ∈ g.neighbors a
        · simp [h2]
        · simp [h2]
      · simp [h1])
  refine ⟨cap, e, hw, ?_⟩
  intro a b
  rw [hv a b]
  by_cases h1 : b ∈ g.neighbors a
  · have : a < g.m_n := by
      by_contra hge
      rw [Graph.neighbors_eq_nil_of_ge g hg.len a (by omega)] at h1
      simp at h1
    simp [h1, this]
  · simp [h1]


theorem count_neg_one_set (par : List Int) (v : Nat) (x : Int) (hx : x ≠ -1)
    (h : par[v]? = some (-1)) : (par.set v x).count (-1) + 1 = par.count (-1) := by
  induction par generalizing v with
  | nil => simp at h
  | cons a t ih =>
    cases v with
    | zero =>
      simp at h
      subst h
      simp [List.count_cons, hx]
    | succ k =>
      simp only [List.getElem?_cons_succ] at h
      have := ih k h
      simp only [List.set_cons_succ, List.count_cons]
      omega

theorem mf_scan_step (n s : Nat) (cap : List (List Int)) (hcap : CapWF n cap) (u : Nat)
    (hu : u < n) (v : Nat) (hv : v < n) (par : List Int) (q : List Int) (d : Nat → Nat)
    (X : Nat → Prop) (ht : MfTree n s cap par d) (hq : MfQueue n par q)
    (huv : MfVisited par u) :
    ∃ par2 q2 d2, (∀ vs, mf_scan cap (u : Int) (v :: vs) (par, q) =
        mf_scan cap (u : Int) vs (par2, q2)) ∧
      MfTree n s cap par2 d2 ∧ MfQueue n par2 q2 ∧
      par2.count (-1) + q2.length = par.count (-1) + q.length ∧
      (0 < capv cap u v → MfVisited par2 v) ∧
      (∀ w, MfVisited par w → MfVisited par2 w) ∧
      (MfClosed n cap par q X → MfClosed n cap par2 q2 X) := by
  have hvl : v < par.length := by rw [ht.len]; exact hv
  have hpv : par[v]? = some (par.getD v (-1)) := by
    rw [List.getElem?_eq_getElem hvl, List.getD_eq_getElem _ _ hvl]
  have hskip : ∀ vs, (par.getD v (-1) ≠ -1 ∨ ¬ 0 < capv cap u v) →
      mf_scan cap (u : Int) (v :: vs) (par, q) = mf_scan cap (u : Int) vs (par, q) := by
    intro vs hc
    rw [mf_scan]
    simp only [hpv]
    by_cases h1 : par.getD v (-1) = -1
    · rw [if_pos h1, get_cap_eq n cap hcap u v hu hv]
      simp only
      rcases hc with hc | hc
      · exact absurd h1 hc
      · rw [if_neg (by simpa using hc)]
    · rw [if_neg h1]
  by_cases hvis : par.getD v (-1) = -1
  · by_cases hc : 0 < capv cap u v
    · -- the vertex is discovered
      have hune : u ≠ v := by
        intro e; subst e; exact huv hvis
      have hsv : s ≠ v := by
        intro e; subst e
        have := ht.root
        rw [hvis] at this
        omega
      have hget : ∀ w, (par.set v (u : Int)).getD w (-1) =
          if w = v then (u : Int) else par.getD w (-1) := fun w =>
        getD_set_any par v w (u : Int) (-1) hvl
      have hmono : ∀ w, MfVisited par w → MfVisited (par.set v (u : Int)) w := by
        intro w hw
        unfold MfVisited at *
        rw [hget w]
        split_ifs
        · omega
        · exact hw
      have hcnt := count_neg_one_set par v (u : Int) (by omega) (by rw [hpv, hvis])
      refine ⟨par.set v (u : Int), q ++ [(v : Int)], Function.update d v (d u + 1), ?_, ?_, ?_,
        ?_, ?_, hmono, ?_⟩
      · intro vs
        rw [mf_scan]
        simp only [hpv]
        rw [if_pos hvis, get_cap_eq n cap hcap u v hu hv]
        simp only
        rw [if_pos (by simpa using hc)]
      · refine ⟨by simp [ht.len], ?_, ?_, ?_, ?_, ?_⟩
        · intro w hw hwv
          unfold MfVisited mf_parent at *
          rw [hget w] at hwv ⊢
          by_cases hwe : w = v
          · rw [if_pos hwe]
            simp only [Int.toNat_ofNat]
            exact ⟨by omega, hu⟩
          · rw [if_neg hwe] at hwv ⊢
            exact ht.range w hw hwv
        · rw [hget s, if_neg hsv]
          exact ht.root
        · intro w hw hwv hws
          by_cases hwe : w = v
          · subst hwe
            have hp : mf_parent (par.set w (u : Int)) w = u := by
              unfold mf_parent
              rw [hget w, if_pos rfl]
              simp
            rw [hp]
            refine ⟨hmono u huv, hc, ?_⟩
            simp [Function.update, hune]
          · have hwold : MfVisited par w := by
              unfold MfVisited at *
              rw [hget w, if_neg hwe] at hwv
              exact hwv
            have hp : mf_parent (par.set v (u : Int)) w = mf_parent par w := by
              unfold mf_parent
              rw [hget w, if_neg hwe]
            obtain ⟨t1, t2, t3⟩ := ht.tree w hw hwold hws
            have hpne : mf_parent par w ≠ v := by
              intro e
              rw [e] at t1
              exact t1 hvis
            rw [hp]
            refine ⟨hmono _ t1, t2, ?_⟩
            simp [Function.update, hwe, hpne, t3]
        · simp [Function.update, hsv, ht.droot]
        · intro w hw hwv
          by_cases hwe : w = v
          · subst hwe
            have := ht.dbound u hu huv
            simp only [Function.update, if_true, dite_eq_ite]
            omega
          · have hwold : MfVisited par w := by
              unfold MfVisited at *
              rw [hget w, if_neg hwe] at hwv
              exact hwv
            have := ht.dbound w hw hwold
            simp only [Function.update, hwe, dite_false, dite_eq_ite, if_false]
            omega
      · intro x hx
        rcases List.mem_append.1 hx with h1 | h1
        · obtain ⟨a, b, c⟩ := hq x h1
          exact ⟨a, b, hmono _ c⟩
        · simp only [List.mem_singleton] at h1
          subst h1
          refine ⟨by omega, by simpa using hv, ?_⟩
          unfold MfVisited
          simp only [Int.toNat_ofNat]
          rw [hget v, if_pos rfl]
          omega
      · simp only [List.length_append, List.length_singleton]
        omega
      · intro _
        unfold MfVisited
        rw [hget v, if_pos rfl]
        omega
      · intro hcl w hw hwv hwq hX z hz hcz
        have hwe : w ≠ v := by
          intro e
          apply hwq
          simp [e]
        have hwold : MfVisited par w := by
          unfold MfVisited at *
          rw [hget w, if_neg hwe] at hwv
          exact hwv
        exact hmono z (hcl w hw hwold (fun hc2 => hwq (List.mem_append_left _ hc2)) hX z hz hcz)
    · exact ⟨par, q, d, fun vs => hskip vs (Or.inr hc), ht, hq, rfl, fun h => absurd h hc,
        fun _ h => h, fun h => h⟩
  · exact ⟨par, q, d, fun vs => hskip vs (Or.inl hvis), ht, hq, rfl, fun _ => hvis,
      fun _ h => h, fun h => h⟩


theorem mf_scan_spec (n s : Nat) (cap : List (List Int)) (hcap : CapWF n cap) (u : Nat)
    (hu : u < n) (X : Nat → Prop) (vs : List Nat) :
    ∀ (par : List Int) (q : List Int) (d : Nat → Nat), (∀ v ∈ vs, v < n) →
      MfTree n s cap par d → MfQueue n par q → MfVisited par u →
    ∃ par2 q2 d2, mf_scan cap (u : Int) vs (par, q) = some (par2, q2) ∧
      MfTree n s cap par2 d2 ∧ MfQueue n par2 q2 ∧
      par2.count (-1) + q2.length = par.count (-1) + q.length ∧
      (∀ v ∈ vs, 0 < capv cap u v → MfVisited par2 v) ∧
      (∀ w, MfVisited par w → MfVisited par2 w) ∧
      (MfClosed n cap par q X → MfClosed n cap par2 q2 X) := by
  induction vs with
  | nil =>
    intro par q d _ ht hq _
    exact ⟨par, q, d, rfl, ht, hq, rfl, by simp, fun _ h => h, fun h => h⟩
  | cons v vs ih =>
    intro par q d hvs ht hq huv
    obtain ⟨par1, q1, d1, e1, t1, q1m, m1, c1, mono1, cl1⟩ :=
      mf_scan_step n s cap hcap u hu v (hvs v (List.mem_cons_self _ _)) par q d X ht hq huv
    obtain ⟨par2, q2, d2, e2, t2, q2m, m2, c2, mono2, cl2⟩ :=
      ih par1 q1 d1 (fun w hw => hvs w (List.mem_cons_of_mem _ hw)) t1 q1m (mono1 u huv)
    refine ⟨par2, q2, d2, by rw [e1 vs, e2], t2, q2m, by omega, ?_,
      fun w hw => mono2 w (mono1 w hw), fun h => cl2 (cl1 h)⟩
    intro w hw hc
    rcases List.mem_cons.1 hw with h | h
    · subst h; exact mono2 _ (c1 hc)
    · exact c2 w h hc

theorem mf_bfs_spec (n s t : Nat) (cap : List (List Int)) (hcap : CapWF n cap) (ht : t < n)
    (fuel : Nat) :
    ∀ (par : List Int) (q : List Int) (d : Nat → Nat),
      MfTree n s cap par d → MfQueue n par q → MfClosed n cap par q (fun _ => False) →
      par.count (-1) + q.length ≤ fuel →
    ∃ par2 d2, mf_bfs cap n (t : Int) fuel (par, q) = some par2 ∧ MfTree n s cap par2 d2 ∧
      (∀ w, MfVisited par w → MfVisited par2 w) ∧
      (¬ MfVisited par2 t →
        ∀ u, u < n → MfVisited par2 u → ∀ v, v < n → 0 < capv cap u v → MfVisited par2 v) := by
  induction fuel with
  | zero =>
    intro par q d htr hq hcl hm
    have hq0 : q = [] := List.length_eq_zero.1 (by omega)
    subst hq0
    refine ⟨par, d, by simp [mf_bfs], htr, fun _ h => h, ?_⟩
    intro _ u hu huv v hv hc
    exact hcl u hu huv (by simp) (fun h => h) v hv hc
  | succ fuel ih =>
    intro par q d htr hq hcl hm
    cases q with
    | nil =>
      refine ⟨par, d, by simp [mf_bfs], htr, fun _ h => h, ?_⟩
      intro _ u hu huv v hv hc
      exact hcl u hu huv (by simp) (fun h => h) v hv hc
    | cons x rest =>
      have htl : t < par.length := by rw [htr.len]; exact ht
      have hpt : get_int par (t : Int) = some (par.getD t (-1)) := by
        rw [get_int_natCast, List.getElem?_eq_getElem htl, List.getD_eq_getElem _ _ htl]
      by_cases hvt : par.getD t (-1) = -1
      · obtain ⟨hx0, hxn, hxv⟩ := hq x (List.mem_cons_self _ _)
        have hxu : x = ((x.toNat : Nat) : Int) := by omega
        have hq0 : MfQueue n par rest := fun y hy => hq y (List.mem_cons_of_mem _ hy)
        have hcl0 : MfClosed n cap par rest (fun w => w = x.toNat) := by
          intro w hw hwv hwq hX z hz hcz
          refine hcl w hw hwv ?_ (fun h => h) z hz hcz
          intro hmem
          rcases List.mem_cons.1 hmem with h | h
          · apply hX
            omega
          · exact hwq h
        obtain ⟨par1, q1, d1, e1, t1, q1m, m1, c1, mono1, cl1⟩ :=
          mf_scan_spec n s cap hcap x.toNat hxn (fun w => w = x.toNat) (List.range n) par rest d
            (fun v hv => List.mem_range.1 hv) htr hq0 hxv
        have hcl1 : MfClosed n cap par1 q1 (fun _ => False) := by
          intro w hw hwv hwq _ z hz hcz
          by_cases hwx : w = x.toNat
          · subst hwx
            exact c1 z (List.mem_range.2 hz) hcz
          · exact cl1 hcl0 w hw hwv hwq hwx z hz hcz
        simp only [List.length_cons] at hm
        obtain ⟨par2, d2, e2, t2, mono2, post2⟩ := ih par1 q1 d1 t1 q1m hcl1 (by omega)
        refine ⟨par2, d2, ?_, t2, fun w hw => mono2 w (mono1 w hw), post2⟩
        rw [mf_bfs]
        simp only [hpt]
        rw [if_pos hvt]
        rw [hxu, e1]
        simpa using e2
      · refine ⟨par, d, ?_, htr, fun _ h => h, fun h => absurd hvt h⟩
        rw [mf_bfs]
        simp only [hpt]
        rw [if_neg hvt]


theorem getD_replicate_set (n s w : Nat) (hs : s < n) :
    ((List.replicate n (-1 : Int)).set s (s : Int)).getD w (-1) =
      if w = s then (s : Int) else -1 := by
  rw [getD_set_any _ _ _ _ _ (by simpa using hs)]
  by_cases h : w = s
  · rw [if_pos h, if_pos h]
  · rw [if_neg h, if_neg h]
    simp only [List.getD_eq_getElem?_getD, List.getElem?_replicate]
    split_ifs <;> rfl

theorem mf_init (n s : Nat) (cap : List (List Int)) (hs : s < n) :
    MfTree n s cap ((List.replicate n (-1 : Int)).set s (s : Int)) (fun _ => 0) ∧
    MfQueue n ((List.replicate n (-1 : Int)).set s (s : Int)) [(s : Int)] ∧
    MfClosed n cap ((List.replicate n (-1 : Int)).set s (s : Int)) [(s : Int)]
      (fun _ => False) ∧
    ((List.replicate n (-1 : Int)).set s (s : Int)).count (-1) + 1 = n ∧
    (∀ w, MfVisited ((List.replicate n (-1 : Int)).set s (s : Int)) w ↔ w = s) := by
  have hget := fun w => getD_replicate_set n s w hs
  have hvis : ∀ w, MfVisited ((List.replicate n (-1 : Int)).set s (s : Int)) w ↔ w = s := by
    intro w
    unfold MfVisited
    rw [hget w]
    by_cases h : w = s
    · rw [if_pos h]
      constructor
      · intro _; exact h
      · intro _; omega
    · rw [if_neg h]
      simp [h]
  have hcnt : ((List.replicate n (-1 : Int)).set s (s : Int)).count (-1) + 1 = n := by
    rw [count_neg_one_set _ _ _ (by omega) (by
      rw [List.getElem?_replicate]; simp [hs])]
    simp
  refine ⟨⟨by simp, ?_, ?_, ?_, rfl, ?_⟩, ?_, ?_, hcnt, hvis⟩
  · intro v _ hv
    have := (hvis v).1 hv
    subst this
    unfold mf_parent
    rw [hget v, if_pos rfl]
    simp only [Int.toNat_ofNat]
    exact ⟨by omega, hs⟩
  · rw [hget s, if_pos rfl]
  · intro v _ hv hne
    exact absurd ((hvis v).1 hv) hne
  · intro v _ _
    simp only [zero_add]
    omega
  · intro x hx
    simp only [List.mem_singleton] at hx
    subst hx
    refine ⟨by omega, by simpa using hs, ?_⟩
    simp only [Int.toNat_ofNat]
    exact (hvis s).2 rfl
  · intro u _ huv huq _ _ _ _
    have := (hvis u).1 huv
    subst this
    exact absurd (List.mem_singleton_self _) huq

theorem mf_tree_reach (n s : Nat) (cap : List (List Int)) (par : List Int) (d : Nat → Nat)
    (ht : MfTree n s cap par d) (k : Nat) :
    ∀ v, v < n → MfVisited par v → d v = k → ResReach n cap s v := by
  induction k with
  | zero =>
    intro v hv hvis hd
    by_cases hvs : v = s
    · subst hvs; exact Relation.ReflTransGen.refl
    · have := (ht.tree v hv hvis hvs).2.2
      omega
  | succ k ih =>
    intro v hv hvis hd
    by_cases hvs : v = s
    · subst hvs; exact Relation.ReflTransGen.refl
    · obtain ⟨t1, t2, t3⟩ := ht.tree v hv hvis hvs
      have hp := (ht.range v hv hvis).2
      exact Relation.ReflTransGen.tail (ih _ hp t1 (by omega)) ⟨hp, hv, t2⟩

theorem mf_step_search (n s t : Nat) (cap : List (List Int)) (hcap : CapWF n cap) (hs : s < n)
    (ht : t < n) (fuel : Nat) (hf : n ≤ fuel) :
    ∃ par d, mf_bfs cap n (t : Int) fuel
        ((List.replicate n (-1 : Int)).set s (s : Int), [(s : Int)]) = some par ∧
      MfTree n s cap par d ∧ MfVisited par s ∧
      (¬ MfVisited par t →
        ∀ u, u < n → MfVisited par u → ∀ v, v < n → 0 < capv cap u v → MfVisited par v) := by
  obtain ⟨i1, i2, i3, i4, i5⟩ := mf_init n s cap hs
  obtain ⟨par, d, e, tr, mono, post⟩ := mf_bfs_spec n s t cap hcap ht fuel _ _ _ i1 i2 i3 (by
    simp only [List.length_singleton]; omega)
  exact ⟨par, d, e, tr, mono s ((i5 s).2 rfl), post⟩

theorem mf_step_unreachable (n s t : Nat) (cap : List (List Int)) (hcap : CapWF n cap)
    (hs : s < n) (ht : t < n) (fuel : Nat) (hf : n ≤ fuel) (hun : ¬ ResReach n cap s t) :
    mf_step n (s : Int) (t : Int) fuel cap = some none := by
  obtain ⟨par, d, e, tr, -, -⟩ := mf_step_search n s t cap hcap hs ht fuel hf
  have hnv : ¬ MfVisited par t := fun h => hun (mf_tree_reach n s cap par d tr (d t) t ht h rfl)
  have htl : t < par.length := by rw [tr.len]; exact ht
  have hpt : get_int par (t : Int) = some (par.getD t (-1)) := by
    rw [get_int_natCast, List.getElem?_eq_getElem htl, List.getD_eq_getElem _ _ htl]
  unfold mf_step
  rw [set_int_natCast _ _ _ (by simpa using hs)]
  simp only [e, hpt]
  unfold MfVisited at hnv
  rw [if_pos (by simpa using hnv)]

theorem resReach_init (g : Graph) (cap : List (List Int))
    (hv : ∀ a b, capv cap a b = if b ∈ g.neighbors a then 1 else 0) (s v : Nat)
    (h : ResReach g.m_n cap s v) : g.Joined s v := by
  unfold ResReach at h
  unfold Graph.Joined
  induction h with
  | refl => exact Relation.ReflTransGen.refl
  | @tail b c _ hbc ih =>
    refine Relation.ReflTransGen.tail ih ?_
    have := hbc.2.2
    rw [hv b c] at this
    unfold Graph.Adj
    by_contra hne
    rw [if_neg hne] at this
    omega

theorem max_flow_unreachable (g : Graph) (hg : g.Inv) (hn : 2 ≤ g.m_n) (fuel : Nat)
    (hf : g.m_n ≤ fuel) (hun : ¬ g.Joined 0 (g.m_n - 1)) :
    max_flow g fuel = some 0 := by
  obtain ⟨cap, e, hw, hv⟩ := cap_init_spec g hg
  unfold max_flow
  rw [e]
  simp only
  unfold Graph.num_vertices
  obtain ⟨f, rfl⟩ : ∃ f, fuel = f + 1 := ⟨fuel - 1, by omega⟩
  rw [mf_loop]
  have ht : ((g.m_n : Int) - 1) = ((g.m_n - 1 : Nat) : Int) := by omega
  have hstep := mf_step_unreachable g.m_n 0 (g.m_n - 1) cap hw (by omega) (by omega) (f + 1) hf
    (fun h => hun (resReach_init g cap hv 0 _ h))
  rw [ht]
  simp only [Nat.cast_zero] at hstep
  rw [hstep]

/-- C20: on every graph built from `Graph(n)` by `add_edge` calls with `n ≥ 2` in which
    vertex `n - 1` is not joined to vertex `0` by a path, `MaxFlowAlg::run` returns (loops
    limited to `fuel ≥ n` iterations) and reports flow value `0`. -/
theorem max_flow_run_unreachable (n : Nat) (ops : List (Nat × Nat)) (fuel : Nat) (hn : 2 ≤ n)
    (hf : n ≤ fuel) (hun : ¬ (Graph.build n ops).Joined 0 (n - 1)) :
    MaxFlowAlg.run (Graph.build n ops) fuel = some "OK MAXFLOW 0" := by
  have hg := Graph.inv_build n ops
  have hmn := Graph.m_n_build n ops
  unfold MaxFlowAlg.run
  rw [max_flow_unreachable _ hg (by omega) fuel (by omega) (by rw [hmn]; exact hun)]
  rfl


theorem max_flow_run_unreachable_witness :
    2 ≤ 4 ∧ 4 ≤ 4 ∧ ¬ (Graph.build 4 [(0, 1), (2, 3)]).Joined 0 (4 - 1) ∧
    MaxFlowAlg.run (Graph.build 4 [(0, 1), (2, 3)]) 4 = some "OK MAXFLOW 0" :=
  have hun : ¬ (Graph.build 4 [(0, 1), (2, 3)]).Joined 0 (4 - 1) := by
    have key : ∀ v, (Graph.build 4 [(0, 1), (2, 3)]).Joined 0 v → v = 0 ∨ v = 1 := by
      intro v hv
      unfold Graph.Joined at hv
      induction hv with
      | refl => exact Or.inl rfl
      | @tail b c _ hbc ih =>
        unfold Graph.Adj at hbc
        rcases ih with h | h
        · subst h
          have h0 : (Graph.build 4 [(0, 1), (2, 3)]).neighbors 0 = [1] := by decide
          rw [h0] at hbc
          right; simpa using hbc
        · subst h
          have h1 : (Graph.build 4 [(0, 1), (2, 3)]).neighbors 1 = [0] := by decide
          rw [h1] at hbc
          left; simpa using hbc
    intro h
    have := key _ h
    omega
  ⟨by decide, le_refl 4, hun,
    max_flow_run_unreachable 4 [(0, 1), (2, 3)] 4 (by decide) (le_refl 4) hun⟩

theorem mf_step_single_vertex (inner : Nat) :
    mf_step 1 0 0 inner [[0]] = some (some ([[0]], 1000000000)) := by
  cases inner <;> rfl

theorem mf_loop_single_vertex (inner fuel : Nat) :
    ∀ flow : Int, mf_loop 1 0 0 inner fuel [[0]] flow = none := by
  induction fuel with
  | zero => intro flow; rfl
  | succ fuel ih =>
    intro flow
    rw [mf_loop, mf_step_single_vertex]
    exact ih _

theorem mf_loop_no_vertex (inner fuel : Nat) (flow : Int) :
    mf_loop 0 0 (-1) inner fuel [] flow = none := by
  cases fuel <;> rfl

/-- C19: on the graphs `Graph(1)` and `Graph(0)`, `MaxFlowAlg::run` never returns a payload.
    With one vertex every pass of `while (true)` finds `par[t] = par[s] = s`, adds
    `1000000000` to `flow` and starts over; with no vertex the write `par[s] = s` is out of
    range. -/
theorem max_flow_degenerate_no_result (fuel : Nat) :
    MaxFlowAlg.run (Graph.new 1) fuel = none ∧
    (∀ inner, mf_step 1 0 0 inner [[0]] = some (some ([[0]], 1000000000))) ∧
    MaxFlowAlg.run (Graph.new 0) fuel = none ∧
    (∀ inner, mf_step 0 0 (-1) inner [] = none) := by
  refine ⟨?_, mf_step_single_vertex, ?_, fun _ => rfl⟩
  · have h : max_flow (Graph.new 1) fuel = none := by
      unfold max_flow
      have hc : cap_init (Graph.new 1) = some [[0]] := by decide
      rw [hc]
      exact mf_loop_single_vertex fuel fuel 0
    unfold MaxFlowAlg.run
    rw [h]; rfl
  · have h : max_flow (Graph.new 0) fuel = none := by
      unfold max_flow
      have hc : cap_init (Graph.new 0) = some [] := by decide
      rw [hc]
      exact mf_loop_no_vertex fuel fuel 0
    unfold MaxFlowAlg.run
    rw [h]; rfl


namespace Graph

theorem mem_neighbors_add_edge (g : Graph) (hg : g.Inv) (u v x y : Nat) :
    y ∈ (g.add_edge u v).2.neighbors x ↔
      (y ∈ g.neighbors x ∨
        (u < g.m_n ∧ v < g.m_n ∧ u ≠ v ∧ ((x = u ∧ y = v) ∨ (x = v ∧ y = u)))) := by
  cases hb : (g.add_edge u v).1 with
  | false =>
    rw [add_edge_snd_of_false g u v hb]
    constructor
    · intro h; exact Or.inl h
    · rintro (h | ⟨h1, h2, h3, h4⟩)
      · exact h
      · have hnot : ¬ (g.add_edge u v).1 = true := by rw [hb]; simp
        rw [add_edge_fst] at hnot
        have hmem : v ∈ g.neighbors u := by
          by_contra hc
          exact hnot ⟨h1, h2, h3, hc⟩
        rcases h4 with ⟨rfl, rfl⟩ | ⟨rfl, rfl⟩
        · exact hmem
        · exact hg.symm _ _ hmem
  | true =>
    obtain ⟨h1, h2, h3, h4⟩ := (add_edge_fst g u v).1 hb
    rw [neighbors_add_edge g u v x hg.len hb]
    have hvu : v ≠ u := fun e => h3 e.symm
    by_cases hxv : x = v
    · subst hxv
      rw [if_pos rfl, List.mem_append, List.mem_singleton]
      constructor
      · rintro (h | h)
        · exact Or.inl h
        · exact Or.inr ⟨h1, h2, h3, Or.inr ⟨rfl, h⟩⟩
      · rintro (h | ⟨-, -, -, ⟨h5, -⟩ | ⟨-, h5⟩⟩)
        · exact Or.inl h
        · exact absurd h5 hvu
        · exact Or.inr h5
    · rw [if_neg hxv]
      by_cases hxu : x = u
      · subst hxu
        rw [if_pos rfl, List.mem_append, List.mem_singleton]
        constructor
        · rintro (h | h)
          · exact Or.inl h
          · exact Or.inr ⟨h1, h2, h3, Or.inl ⟨rfl, h⟩⟩
        · rintro (h | ⟨-, -, -, ⟨-, h5⟩ | ⟨h5, -⟩⟩)
          · exact Or.inl h
          · exact Or.inr h5
          · exact absurd h5 hxv
      · rw [if_neg hxu]
        constructor
        · intro h; exact Or.inl h
        · rintro (h | ⟨-, -, -, ⟨h5, -⟩ | ⟨h5, -⟩⟩)
          · exact h
          · exact absurd h5 hxu
          · exact absurd h5 hxv

theorem inv_add_all (es : List (Nat × Nat)) (g : Graph) (hg : g.Inv) : (g.add_all es).Inv :=
  inv_foldl es g hg

theorem m_n_add_all (es : List (Nat × Nat)) (g : Graph) : (g.add_all es).m_n = g.m_n :=
  m_n_foldl es g

theorem mem_neighbors_add_all (es : List (Nat × Nat)) :
    ∀ (g : Graph), g.Inv → ∀ x y, (y ∈ (g.add_all es).neighbors x ↔
      (y ∈ g.neighbors x ∨
        (x < g.m_n ∧ y < g.m_n ∧ x ≠ y ∧ ((x, y) ∈ es ∨ (y, x) ∈ es)))) := by
  induction es with
  | nil =>
    intro g _ x y
    simp [add_all]
  | cons e es ih =>
    intro g hg x y
    have h1 := ih (g.add_edge e.1 e.2).2 (inv_add_edge g e.1 e.2 hg) x y
    have h2 := mem_neighbors_add_edge g hg e.1 e.2 x y
    have hstep : g.add_all (e :: es) = (g.add_edge e.1 e.2).2.add_all es := rfl
    rw [hstep, h1, h2, m_n_add_edge]
    constructor
    · rintro ((h | ⟨a, b, c, d⟩) | ⟨a, b, c, d⟩)
      · exact Or.inl h
      · right
        rcases d with ⟨rfl, rfl⟩ | ⟨rfl, rfl⟩
        · exact ⟨a, b, c, Or.inl (List.mem_cons_self _ _)⟩
        · exact ⟨b, a, fun e2 => c e2.symm, Or.inr (List.mem_cons_self _ _)⟩
      · right
        refine ⟨a, b, c, ?_⟩
        rcases d with d | d
        · exact Or.inl (List.mem_cons_of_mem _ d)
        · exact Or.inr (List.mem_cons_of_mem _ d)
    · rintro (h | ⟨a, b, c, d⟩)
      · exact Or.inl (Or.inl h)
      · rcases d with d | d
        · rcases List.mem_cons.1 d with d | d
          · left; right
            have e1 : e.1 = x := by rw [← d]
            have e2 : e.2 = y := by rw [← d]
            rw [e1, e2]
            exact ⟨a, b, c, Or.inl ⟨rfl, rfl⟩⟩
          · exact Or.inr ⟨a, b, c, Or.inl d⟩
        · rcases List.mem_cons.1 d with d | d
          · left; right
            have e1 : e.1 = y := by rw [← d]
            have e2 : e.2 = x := by rw [← d]
            rw [e1, e2]
            exact ⟨b, a, fun e3 => c e3.symm, Or.inr ⟨rfl, rfl⟩⟩
          · exact Or.inr ⟨a, b, c, Or.inr d⟩

end Graph

theorem rowsum_set (n : Nat) (cap cap2 : List (List Int)) (u v : Nat) (x : Int) (hv : v < n)
    (h : ∀ a b, capv cap2 a b = if a = u ∧ b = v then x else capv cap a b) (a : Nat) :
    rowsum n cap2 a = rowsum n cap a + (if a = u then x - capv cap u v else 0) := by
  unfold rowsum
  by_cases hau : a = u
  · subst hau
    rw [if_pos rfl]
    have hmem : v ∈ Finset.range n := Finset.mem_range.2 hv
    rw [← Finset.add_sum_erase _ _ hmem, ← Finset.add_sum_erase (Finset.range n) _ hmem]
    have h1 : capv cap2 a v = x := by rw [h a v]; simp
    have h2 : ∑ w in (Finset.range n).erase v, capv cap2 a w =
        ∑ w in (Finset.range n).erase v, capv cap a w := by
      apply Finset.sum_congr rfl
      intro w hw
      rw [h a w, if_neg]
      rintro ⟨-, hwv⟩
      exact (Finset.mem_erase.1 hw).1 hwv
    rw [h1, h2]
    ring
  · rw [if_neg hau, add_zero]
    apply Finset.sum_congr rfl
    intro w _
    rw [h a w, if_neg]
    rintro ⟨h3, -⟩
    exact hau h3

theorem mf_depth_zero (n s : Nat) (cap : List (List Int)) (par : List Int) (d : Nat → Nat)
    (tr : MfTree n s cap par d) (v : Nat) (hv : v < n) (hvis : MfVisited par v)
    (hd : d v = 0) : v = s := by
  by_contra hne
  have := (tr.tree v hv hvis hne).2.2
  omega

theorem mf_parent_spec (n s : Nat) (cap : List (List Int)) (par : List Int) (d : Nat → Nat)
    (tr : MfTree n s cap par d) (v : Nat) (hv : v < n) (hvis : MfVisited par v) :
    get_int par (v : Int) = some ((mf_parent par v : Nat) : Int) := by
  have hvl : v < par.length := by rw [tr.len]; exact hv
  rw [get_int_natCast, List.getElem?_eq_getElem hvl]
  have h0 := (tr.range v hv hvis).1
  unfold mf_parent
  rw [Int.toNat_of_nonneg h0, List.getD_eq_getElem _ _ hvl]

theorem mf_anc_spec (n s : Nat) (cap : List (List Int)) (par : List Int) (d : Nat → Nat)
    (tr : MfTree n s cap par d) (v : Nat) (hv : v < n) (hvis : MfVisited par v) (j : Nat) :
    j ≤ d v → mf_anc par v j < n ∧ MfVisited par (mf_anc par v j) ∧
      d (mf_anc par v j) + j = d v := by
  induction j with
  | zero =>
    intro _
    exact ⟨hv, hvis, rfl⟩
  | succ j ih =>
    intro hj
    obtain ⟨h1, h2, h3⟩ := ih (by omega)
    have hne : mf_anc par v j ≠ s := by
      intro e
      rw [e, tr.droot] at h3
      omega
    obtain ⟨t1, t2, t3⟩ := tr.tree _ h1 h2 hne
    have hstep : mf_anc par v (j + 1) = mf_parent par (mf_anc par v j) := by
      unfold mf_anc
      rw [Function.iterate_succ_apply']
    rw [hstep]
    exact ⟨(tr.range _ h1 h2).2, t1, by omega⟩

theorem mf_anc_succ (par : List Int) (v j : Nat) :
    mf_anc par v (j + 1) = mf_anc par (mf_parent par v) j := by
  unfold mf_anc
  rw [Function.iterate_succ_apply]

theorem mf_bottleneck_spec (n s : Nat) (cap : List (List Int)) (hcap : CapWF n cap)
    (par : List Int) (d : Nat → Nat) (tr : MfTree n s cap par d) (k : Nat) :
    ∀ (fuel v : Nat) (aug0 : Int), v < n → MfVisited par v → d v = k → k ≤ fuel → 1 ≤ aug0 →
    ∃ a, mf_bottleneck cap par (s : Int) fuel (v : Int) aug0 = some a ∧ 1 ≤ a ∧ a ≤ aug0 ∧
      ∀ j, j < k → a ≤ capv cap (mf_anc par v (j + 1)) (mf_anc par v j) := by
  induction k with
  | zero =>
    intro fuel v aug0 hv hvis hd _ ha
    have hvs := mf_depth_zero n s cap par d tr v hv hvis hd
    subst hvs
    refine ⟨aug0, ?_, ha, le_refl _, fun j hj => absurd hj (by omega)⟩
    cases fuel <;> simp [mf_bottleneck]
  | succ k ih =>
    intro fuel v aug0 hv hvis hd hf ha
    have hne : v ≠ s := by
      intro e
      rw [e, tr.droot] at hd
      omega
    obtain ⟨t1, t2, t3⟩ := tr.tree v hv hvis hne
    have hp := (tr.range v hv hvis).2
    obtain ⟨f, rfl⟩ : ∃ f, fuel = f + 1 := ⟨fuel - 1, by omega⟩
    obtain ⟨a, e, a1, a2, a3⟩ := ih f (mf_parent par v) (min aug0 (capv cap (mf_parent par v) v))
      hp t1 (by omega) (by omega) (by
        rw [le_min_iff]
        exact ⟨ha, by omega⟩)
    refine ⟨a, ?_, a1, le_trans a2 (min_le_left _ _), ?_⟩
    · rw [mf_bottleneck, if_pos (by exact_mod_cast hne)]
      simp only [mf_parent_spec n s cap par d tr v hv hvis, get_cap_eq n cap hcap _ v hp hv]
      exact e
    · intro j hj
      cases j with
      | zero =>
        have : mf_anc par v 1 = mf_parent par v := rfl
        rw [this]
        exact le_trans a2 (min_le_right _ _)
      | succ j =>
        rw [mf_anc_succ par v (j + 1), mf_anc_succ par v j]
        exact a3 j (by omega)


theorem mf_augment_spec (n s t : Nat) (cap : List (List Int))
    (par : List Int) (d : Nat → Nat) (tr : MfTree n s cap par d) (aug : Int) (k : Nat) :
    ∀ (fuel v : Nat) (cap2 : List (List Int)), v < n → MfVisited par v → d v = k → k ≤ fuel →
      AugInv n t cap cap2 par d aug v → 0 ≤ aug →
      (∀ j, j < k → aug ≤ capv cap (mf_anc par v (j + 1)) (mf_anc par v j)) →
    ∃ cap3, mf_augment par (s : Int) aug fuel (v : Int) cap2 = some cap3 ∧
      AugInv n t cap cap3 par d aug s := by
  induction k with
  | zero =>
    intro fuel v cap2 hv hvis hd _ hinv _ _
    have hvs := mf_depth_zero n s cap par d tr v hv hvis hd
    subst hvs
    refine ⟨cap2, ?_, hinv⟩
    cases fuel <;> simp [mf_augment]
  | succ k ih =>
    intro fuel v cap2 hv hvis hd hf hinv haug0 hle
    have hne : v ≠ s := by
      intro e
      rw [e, tr.droot] at hd
      omega
    obtain ⟨t1, t2, t3⟩ := tr.tree v hv hvis hne
    have hp := (tr.range v hv hvis).2
    obtain ⟨f, rfl⟩ : ∃ f, fuel = f + 1 := ⟨fuel - 1, by omega⟩
    have hpv : mf_parent par v ≠ v := by
      intro e
      rw [e] at t3
      omega
    -- the two entries of this step are still the original ones
    have hu1 : capv cap2 (mf_parent par v) v = capv cap (mf_parent par v) v := by
      apply hinv.untouched _ _ hp hv
      intro x _ _ hx
      refine ⟨?_, ?_⟩
      · intro e; rw [← e] at hx; omega
      · intro e; rw [← e] at hx; omega
    have haug : aug ≤ capv cap (mf_parent par v) v := hle 0 (by omega)
    obtain ⟨c1, e1, w1, v1⟩ := set_cap_spec n cap2 hinv.wf (mf_parent par v) v
      (capv cap2 (mf_parent par v) v - aug) hp hv
    obtain ⟨c2, e2, w2, v2⟩ := set_cap_spec n c1 w1 v (mf_parent par v)
      (capv c1 v (mf_parent par v) + aug) hv hp
    have hc1vp : capv c1 v (mf_parent par v) = capv cap2 v (mf_parent par v) := by
      rw [v1, if_neg]
      rintro ⟨h1, -⟩
      exact hpv h1.symm
    have hval : ∀ a b, capv c2 a b =
        if a = v ∧ b = mf_parent par v then capv cap2 v (mf_parent par v) + aug
        else if a = mf_parent par v ∧ b = v then capv cap2 (mf_parent par v) v - aug
        else capv cap2 a b := by
      intro a b
      rw [v2 a b, v1 a b, hc1vp]
    have hinv2 : AugInv n t cap c2 par d aug (mf_parent par v) := by
      refine ⟨w2, ?_, ?_, ?_, ?_⟩
      · intro a b ha hb hx
        have hxv := hx v hv hvis (by omega)
        rw [hval a b, if_neg (fun h => hxv.1 h.1), if_neg (fun h => hxv.2 h.2)]
        apply hinv.untouched a b ha hb
        intro x hxn hxvis hdx
        exact hx x hxn hxvis (by omega)
      · intro a b ha hb
        rw [hval a b]
        split_ifs with h1 h2
        · have := hinv.nonneg v (mf_parent par v) hv hp
          have := hinv.nonneg (mf_parent par v) v hp hv
          omega
        · omega
        · exact hinv.nonneg a b ha hb
      · intro a b ha hb
        rw [hval a b, hval b a, ← hinv.pair a b ha hb]
        by_cases h1 : a = v ∧ b = mf_parent par v
        · obtain ⟨rfl, rfl⟩ := h1
          rw [if_pos ⟨rfl, rfl⟩, if_neg (fun h => hpv h.1), if_pos ⟨rfl, rfl⟩]
          ring
        · rw [if_neg h1]
          by_cases h2 : a = mf_parent par v ∧ b = v
          · obtain ⟨rfl, rfl⟩ := h2
            rw [if_pos ⟨rfl, rfl⟩, if_pos ⟨rfl, rfl⟩]
            ring
          · rw [if_neg h2, if_neg (fun h => h2 ⟨h.2, h.1⟩), if_neg (fun h => h1 ⟨h.2, h.1⟩)]
      · intro u hu
        have r2 := rowsum_set n c1 c2 v (mf_parent par v) _ hp v2 u
        have r1 := rowsum_set n cap2 c1 (mf_parent par v) v _ hv v1 u
        have r0 := hinv.rows u hu
        rw [r2, r1, r0, hc1vp]
        split_ifs <;> omega
    obtain ⟨c3, e3, i3⟩ := ih f (mf_parent par v) c2 hp t1 (by omega) (by omega) hinv2 haug0 (by
      intro j hj
      have := hle (j + 1) (by omega)
      rw [mf_anc_succ par v (j + 1), mf_anc_succ par v j] at this
      exact this)
    refine ⟨c3, ?_, i3⟩
    rw [mf_augment, if_pos (by exact_mod_cast hne)]
    simp only [mf_parent_spec n s cap par d tr v hv hvis,
      get_cap_eq n cap2 hinv.wf _ v hp hv, e1, get_cap_eq n c1 w1 v _ hv hp, e2]
    exact e3


theorem mf_step_spec (n s t : Nat) (hs : s < n) (ht : t < n) (hst : s ≠ t)
    (c0 : Nat → Nat → Int) (cap : List (List Int)) (flow : Int)
    (h : FlowInv n s t c0 cap flow) (fuel : Nat) (hf : n ≤ fuel) :
    (mf_step n (s : Int) (t : Int) fuel cap = some none ∧ ∃ par, MfCut n s t cap par) ∨
    (∃ cap2 aug, mf_step n (s : Int) (t : Int) fuel cap = some (some (cap2, aug)) ∧
      1 ≤ aug ∧ FlowInv n s t c0 cap2 (flow + aug)) := by
  obtain ⟨par, d, e, tr, hvs, post⟩ := mf_step_search n s t cap h.wf hs ht fuel hf
  have htl : t < par.length := by rw [tr.len]; exact ht
  have hpt : get_int par (t : Int) = some (par.getD t (-1)) := by
    rw [get_int_natCast, List.getElem?_eq_getElem htl, List.getD_eq_getElem _ _ htl]
  by_cases hvt : MfVisited par t
  · right
    have hdt : d t ≤ fuel := by
      have := tr.dbound t ht hvt
      omega
    obtain ⟨aug, e1, a1, -, a3⟩ := mf_bottleneck_spec n s cap h.wf par d tr (d t) fuel t
      1000000000 ht hvt rfl hdt (by norm_num)
    have hinit : AugInv n t cap cap par d aug t := by
      refine ⟨h.wf, fun _ _ _ _ _ => rfl, h.nonneg, fun _ _ _ _ => rfl, ?_⟩
      intro u _
      ring
    obtain ⟨cap3, e3, i3⟩ := mf_augment_spec n s t cap par d tr aug (d t) fuel t cap ht hvt rfl
      hdt hinit (by omega) a3
    refine ⟨cap3, aug, ?_, a1, ?_⟩
    · unfold mf_step
      rw [set_int_natCast _ _ _ (by simpa using hs)]
      simp only [e, hpt]
      unfold MfVisited at hvt
      rw [if_neg hvt]
      simp only [e1, e3]
    · refine ⟨i3.wf, i3.nonneg, ?_, ?_, ?_⟩
      · intro u v hu hv
        rw [i3.pair u v hu hv, h.pair u v hu hv]
      · intro u hu hus hut
        rw [i3.rows u hu, if_neg hut, if_neg hus, h.conserve u hu hus hut]
        ring
      · rw [i3.rows s hs, if_neg hst, if_pos rfl, ← h.value]
        ring
  · left
    refine ⟨?_, par, hvs, hvt, ?_⟩
    · unfold mf_step
      rw [set_int_natCast _ _ _ (by simpa using hs)]
      simp only [e, hpt]
      unfold MfVisited at hvt
      rw [if_pos (by simpa using hvt)]
    · intro u hu huv v hv hvv
      have h1 := h.nonneg u v hu hv
      by_contra hne
      exact hvv (post hvt u hu huv v hv (by omega))

theorem flowInv_le (n s t : Nat) (c0 : Nat → Nat → Int) (cap : List (List Int)) (flow : Int)
    (h : FlowInv n s t c0 cap flow) (hs : s < n) : flow ≤ ∑ v in Finset.range n, c0 s v := by
  have hpos : 0 ≤ rowsum n cap s := by
    unfold rowsum
    apply Finset.sum_nonneg
    intro w hw
    exact h.nonneg s w hs (Finset.mem_range.1 hw)
  have := h.value
  omega

theorem mf_loop_spec (n s t : Nat) (hs : s < n) (ht : t < n) (hst : s ≠ t)
    (c0 : Nat → Nat → Int) (inner : Nat) (hf : n ≤ inner) (k : Nat) :
    ∀ (cap : List (List Int)) (flow : Int), FlowInv n s t c0 cap flow →
      (∑ v in Finset.range n, c0 s v) - flow < k →
    ∃ cap2 flow2 par, mf_loop n (s : Int) (t : Int) inner k cap flow = some flow2 ∧
      FlowInv n s t c0 cap2 flow2 ∧ MfCut n s t cap2 par := by
  induction k with
  | zero =>
    intro cap flow h hk
    have := flowInv_le n s t c0 cap flow h hs
    simp only [Nat.cast_zero] at hk
    omega
  | succ k ih =>
    intro cap flow h hk
    rcases mf_step_spec n s t hs ht hst c0 cap flow h inner hf with
      ⟨e, par, hcut⟩ | ⟨cap2, aug, e, haug, h2⟩
    · refine ⟨cap, flow, par, ?_, h, hcut⟩
      rw [mf_loop, e]
    · obtain ⟨cap3, flow3, par, e3, h3, hcut⟩ := ih cap2 (flow + aug) h2 (by
        push_cast at hk
        omega)
      refine ⟨cap3, flow3, par, ?_, h3, hcut⟩
      rw [mf_loop, e]
      exact e3

theorem unit_cap_out_le (g : Graph) (hg : g.Inv) (s : Nat) (hs : s < g.m_n) :
    (∑ v in Finset.range g.m_n, unit_cap g s v) + 1 ≤ g.m_n := by
  have hmem : s ∈ Finset.range g.m_n := Finset.mem_range.2 hs
  rw [← Finset.add_sum_erase _ _ hmem]
  have h0 : unit_cap g s s = 0 := by
    unfold unit_cap
    rw [if_neg (hg.irrefl s)]
  have h1 : ∑ v in (Finset.range g.m_n).erase s, unit_cap g s v ≤
      ∑ _v in (Finset.range g.m_n).erase s, (1 : Int) := by
    apply Finset.sum_le_sum
    intro v _
    unfold unit_cap
    split_ifs <;> omega
  rw [Finset.sum_const, Finset.card_erase_of_mem hmem, Finset.card_range] at h1
  simp only [nsmul_eq_mul, mul_one] at h1
  rw [h0]
  have : ((g.m_n - 1 : Nat) : Int) = (g.m_n : Int) - 1 := by omega
  omega

theorem flowInv_init (g : Graph) (cap : List (List Int)) (s t : Nat)
    (hw : CapWF g.m_n cap) (hv : ∀ a b, capv cap a b = if b ∈ g.neighbors a then 1 else 0) :
    FlowInv g.m_n s t (unit_cap g) cap 0 := by
  have hcu : ∀ a b, capv cap a b = unit_cap g a b := fun a b => hv a b
  have hrow : ∀ u, rowsum g.m_n cap u = ∑ v in Finset.range g.m_n, unit_cap g u v := by
    intro u
    unfold rowsum
    exact Finset.sum_congr rfl (fun v _ => hcu u v)
  refine ⟨hw, ?_, ?_, ?_, ?_⟩
  · intro u v _ _
    rw [hv u v]
    split_ifs <;> omega
  · intro u v _ _
    rw [hcu u v, hcu v u]
  · intro u _ _ _
    exact hrow u
  · rw [hrow s]
    ring

theorem max_flow_loop (g : Graph) (hg : g.Inv) (hn : 2 ≤ g.m_n) (fuel : Nat)
    (hf : g.m_n ≤ fuel) :
    ∃ cap flow par, max_flow g fuel = some flow ∧
      FlowInv g.m_n 0 (g.m_n - 1) (unit_cap g) cap flow ∧ MfCut g.m_n 0 (g.m_n - 1) cap par := by
  obtain ⟨cap, e, hw, hv⟩ := cap_init_spec g hg
  have hinit := flowInv_init g cap 0 (g.m_n - 1) hw hv
  have hD := unit_cap_out_le g hg 0 (by omega)
  obtain ⟨cap2, flow2, par, e2, h2, hcut⟩ := mf_loop_spec g.m_n 0 (g.m_n - 1) (by omega)
    (by omega) (by omega) (unit_cap g) fuel hf fuel cap 0 hinit (by omega)
  refine ⟨cap2, flow2, par, ?_, h2, hcut⟩
  unfold max_flow
  rw [e]
  simp only
  unfold Graph.num_vertices
  have ht : ((g.m_n : Int) - 1) = ((g.m_n - 1 : Nat) : Int) := by omega
  rw [ht]
  simp only [Nat.cast_zero] at e2
  exact e2


theorem flow_cut_identity (n s t : Nat) (c f : Nat → Nat → ℚ) (hf : IsFlow n s t c f)
    (S : Finset Nat) (hS : S ⊆ Finset.range n) (hs : s ∈ S) (ht : t ∉ S) :
    flow_value n s f = ∑ u in S, ∑ v in Finset.range n \ S, (f u v - f v u) := by
  have hnet : ∀ u ∈ S, ∑ v in Finset.range n, (f u v - f v u) =
      if u = s then flow_value n s f else 0 := by
    intro u hu
    rw [Finset.sum_sub_distrib]
    by_cases hus : u = s
    · subst hus
      rw [if_pos rfl]
      rfl
    · rw [if_neg hus]
      have hut : u ≠ t := fun e => ht (e ▸ hu)
      rw [hf.conserve u (Finset.mem_range.1 (hS hu)) hus hut]
      ring
  have h1 : ∑ u in S, ∑ v in Finset.range n, (f u v - f v u) = flow_value n s f := by
    rw [Finset.sum_congr rfl hnet, Finset.sum_ite_eq' S s]
    rw [if_pos hs]
  have h2 : ∀ u ∈ S, ∑ v in Finset.range n, (f u v - f v u) =
      ∑ v in Finset.range n \ S, (f u v - f v u) + ∑ v in S, (f u v - f v u) := by
    intro u _
    rw [Finset.sum_sdiff hS]
  have h3 : ∑ u in S, ∑ v in S, (f u v - f v u) = 0 := by
    simp only [Finset.sum_sub_distrib]
    rw [Finset.sum_comm (f := fun u v => f v u)]
    ring
  rw [← h1, Finset.sum_congr rfl h2, Finset.sum_add_distrib, h3, add_zero]

theorem max_flow_optimal (n s t : Nat) (hs : s < n) (c0 : Nat → Nat → Int)
    (hc0 : ∀ u v, 0 ≤ c0 u v) (cap : List (List Int)) (flow : Int)
    (h : FlowInv n s t c0 cap flow) (par : List Int) (hcut : MfCut n s t cap par) :
    (∃ f, IsFlow n s t (fun u v => (c0 u v : ℚ)) f ∧ flow_value n s f = (flow : ℚ)) ∧
    (∀ f, IsFlow n s t (fun u v => (c0 u v : ℚ)) f → flow_value n s f ≤ (flow : ℚ)) := by
  obtain ⟨hvs, hvt, hzero⟩ := hcut
  -- the flow carried by the residual capacities
  have hskew : ∀ u v, u < n → v < n →
      ((c0 u v : ℚ) - (capv cap u v : ℚ)) = -((c0 v u : ℚ) - (capv cap v u : ℚ)) := by
    intro u v hu hv
    have := h.pair u v hu hv
    have hq : ((capv cap u v : ℚ) + (capv cap v u : ℚ)) = (c0 u v : ℚ) + (c0 v u : ℚ) := by
      exact_mod_cast this
    linarith
  have hdiff : ∀ u v, u < n → v < n →
      max ((c0 u v : ℚ) - (capv cap u v : ℚ)) 0 - max ((c0 v u : ℚ) - (capv cap v u : ℚ)) 0 =
        (c0 u v : ℚ) - (capv cap u v : ℚ) := by
    intro u v hu hv
    have := hskew u v hu hv
    rcases le_total ((c0 u v : ℚ) - (capv cap u v : ℚ)) 0 with hle | hle
    · rw [max_eq_right hle, max_eq_left (by linarith)]
      linarith
    · rw [max_eq_left hle, max_eq_right (by linarith)]
      linarith
  have hnetq : ∀ u, u < n →
      ∑ v in Finset.range n, (max ((c0 u v : ℚ) - (capv cap u v : ℚ)) 0 -
        max ((c0 v u : ℚ) - (capv cap v u : ℚ)) 0) =
      (((∑ v in Finset.range n, c0 u v) - rowsum n cap u : Int) : ℚ) := by
    intro u hu
    rw [Finset.sum_congr rfl (fun v hv => hdiff u v hu (Finset.mem_range.1 hv))]
    unfold rowsum
    push_cast
    rw [Finset.sum_sub_distrib]
  have hflow : IsFlow n s t (fun u v => (c0 u v : ℚ))
      (fun u v => max ((c0 u v : ℚ) - (capv cap u v : ℚ)) 0) := by
    refine ⟨fun _ _ _ _ => le_max_right _ _, ?_, ?_⟩
    · intro u v hu hv
      have h1 : (0 : ℚ) ≤ (capv cap u v : ℚ) := by exact_mod_cast h.nonneg u v hu hv
      have h2 : (0 : ℚ) ≤ (c0 u v : ℚ) := by exact_mod_cast hc0 u v
      exact max_le (by linarith) h2
    · intro u hu hus hut
      have := hnetq u hu
      rw [Finset.sum_sub_distrib, h.conserve u hu hus hut] at this
      simp only [sub_self, Int.cast_zero] at this
      linarith
  have hval : flow_value n s (fun u v => max ((c0 u v : ℚ) - (capv cap u v : ℚ)) 0) =
      (flow : ℚ) := by
    unfold flow_value
    have := hnetq s hs
    rw [Finset.sum_sub_distrib, h.value] at this
    exact this
  refine ⟨⟨_, hflow, hval⟩, ?_⟩
  intro f hf
  -- compare both flows on the cut of the reached vertices
  have hSsub : (Finset.range n).filter (fun v => par.getD v (-1) ≠ -1) ⊆ Finset.range n :=
    Finset.filter_subset _ _
  have hsS : s ∈ (Finset.range n).filter (fun v => par.getD v (-1) ≠ -1) := by
    rw [Finset.mem_filter, Finset.mem_range]
    exact ⟨hs, hvs⟩
  have htS : t ∉ (Finset.range n).filter (fun v => par.getD v (-1) ≠ -1) := by
    rw [Finset.mem_filter]
    exact fun hc => hvt hc.2
  rw [flow_cut_identity n s t _ f hf _ hSsub hsS htS, ← hval,
    flow_cut_identity n s t _ _ hflow _ hSsub hsS htS]
  apply Finset.sum_le_sum
  intro u hu
  apply Finset.sum_le_sum
  intro v hv
  rw [Finset.mem_filter, Finset.mem_range] at hu
  rw [Finset.mem_sdiff, Finset.mem_filter, Finset.mem_range] at hv
  have hvn : v < n := hv.1
  have hnv : ¬ MfVisited par v := fun hc => hv.2 ⟨hvn, hc⟩
  have hz : capv cap u v = 0 := hzero u hu.1 hu.2 v hvn hnv
  have h1 := hf.le_cap u v hu.1 hvn
  have h2 := hf.nonneg v u hvn hu.1
  have h3 := hskew u v hu.1 hvn
  have h4 : (0 : ℚ) ≤ (c0 u v : ℚ) := by exact_mod_cast hc0 u v
  simp only at h1 ⊢
  rw [hz] at h3 ⊢
  simp only [Int.cast_zero, sub_zero] at h3 ⊢
  rw [max_eq_left h4, max_eq_right (by linarith)]
  linarith

/-- C18: on every graph built from `Graph(n)` by `add_edge` calls with `n ≥ 2`,
    `MaxFlowAlg::run` returns (every loop needs at most `n` iterations) the payload
    `OK MAXFLOW flow` where `flow` is the value of a maximum flow from vertex `0` to vertex
    `n - 1` in the network with capacity `1` on both arcs of every edge (and `0` elsewhere):
    some flow has that value and no flow has a larger one. -/
theorem max_flow_run_maximum (n : Nat) (ops : List (Nat × Nat)) (fuel : Nat) (hn : 2 ≤ n)
    (hf : n ≤ fuel) :
    (∀ u v, unit_capacity (Graph.build n ops) u v =
      if s(u, v) ∈ (Graph.build n ops).edge_set then 1 else 0) ∧
    ∃ flow : Int,
      MaxFlowAlg.run (Graph.build n ops) fuel = some ("OK MAXFLOW " ++ toString flow) ∧
      (∃ f, IsFlow n 0 (n - 1) (unit_capacity (Graph.build n ops)) f ∧
        flow_value n 0 f = (flow : ℚ)) ∧
      (∀ f, IsFlow n 0 (n - 1) (unit_capacity (Graph.build n ops)) f →
        flow_value n 0 f ≤ (flow : ℚ)) := by
  have hg := Graph.inv_build n ops
  refine ⟨fun u v => by
    unfold unit_capacity
    simp only [Graph.mem_edge_set _ hg], ?_⟩
  have hmn := Graph.m_n_build n ops
  obtain ⟨cap, flow, par, e, hinv, hcut⟩ :=
    max_flow_loop _ hg (by rw [hmn]; exact hn) fuel (by rw [hmn]; exact hf)
  rw [hmn] at hinv hcut
  have hcap : (fun u v => ((unit_cap (Graph.build n ops) u v : Int) : ℚ)) =
      unit_capacity (Graph.build n ops) := by
    funext u v
    unfold unit_cap unit_capacity
    split_ifs <;> simp
  have hopt := max_flow_optimal n 0 (n - 1) (by omega) (unit_cap (Graph.build n ops)) (by
    intro u v
    unfold unit_cap
    split_ifs <;> omega) cap flow hinv par hcut
  rw [hcap] at hopt
  refine ⟨flow, ?_, hopt⟩
  unfold MaxFlowAlg.run
  rw [e]
  rfl

theorem max_flow_run_maximum_witness :
    2 ≤ 4 ∧ 4 ≤ 4 ∧
    MaxFlowAlg.run (Graph.build 4 [(0, 1), (0, 2), (0, 3), (1, 2), (1, 3), (2, 3)]) 4 =
      some "OK MAXFLOW 3" ∧
    ∃ flow : Int,
      MaxFlowAlg.run (Graph.build 4 [(0, 1), (0, 2), (0, 3), (1, 2), (1, 3), (2, 3)]) 4 =
        some ("OK MAXFLOW " ++ toString flow) :=
  ⟨by decide, le_refl 4, by decide,
    (max_flow_run_maximum 4 [(0, 1), (0, 2), (0, 3), (1, 2), (1, 3), (2, 3)] 4 (by decide)
      (le_refl 4)).2.imp (fun _ h => h.1)⟩


theorem to_int_of_lt (x : Nat) (h : x < 2 ^ 31) : to_int x = (x : Int) := by
  unfold to_int
  have h1 : x % 2 ^ 32 = x := Nat.mod_eq_of_lt (by omega)
  rw [h1, if_pos h]

theorem set_eq_self_of_getElem? {α : Type} (l : List α) (i : Nat) (a : α)
    (h : l[i]? = some a) : l.set i a = l := by
  induction l generalizing i with
  | nil => rfl
  | cons x xs ih =>
    cases i with
    | zero =>
      simp only [List.getElem?_cons_zero, Option.some.injEq] at h
      rw [List.set_cons_zero, h]
    | succ k =>
      simp only [List.getElem?_cons_succ] at h
      rw [List.set_cons_succ, ih k h]

theorem hamState_length_le (g : Graph) (n : Nat) (pn : List Nat) (used : List Int)
    (h : HamState g n pn used) : pn.length ≤ n := by
  have h1 : pn.toFinset ⊆ Finset.range n := by
    intro v hv
    rw [List.mem_toFinset] at hv
    exact Finset.mem_range.2 (h.lt v hv)
  have h2 := Finset.card_le_card h1
  rw [List.toFinset_card_of_nodup h.nodup, Finset.card_range] at h2
  exact h2

theorem hamState_push (g : Graph) (n : Nat) (pn : List Nat) (used : List Int) (u v : Nat)
    (h : HamState g n pn used) (hlast : pn.getLast? = some u) (hv : v < n) (hnot : v ∉ pn)
    (hadj : g.Adj u v) : HamState g n (pn ++ [v]) (used.set v 1) := by
  refine ⟨by simp, ?_, ?_, ?_, by rw [List.length_set]; exact h.ulen, ?_⟩
  · rw [List.nodup_append]
    refine ⟨h.nodup, List.nodup_singleton v, ?_⟩
    intro a ha hb
    rw [List.mem_singleton] at hb
    subst hb
    exact hnot ha
  · intro w hw
    rcases List.mem_append.1 hw with h1 | h1
    · exact h.lt w h1
    · rw [List.mem_singleton] at h1
      subst h1
      exact hv
  · rw [List.chain'_append]
    refine ⟨h.chain, List.chain'_singleton v, ?_⟩
    intro x hx y hy
    rw [hlast] at hx
    simp only [Option.mem_def, Option.some.injEq] at hx
    simp only [List.head?_cons, Option.mem_def, Option.some.injEq] at hy
    subst hx
    subst hy
    exact hadj
  · intro w hw
    rw [List.getElem?_set]
    by_cases hvw : v = w
    · subst hvw
      rw [if_pos rfl, if_pos (by rw [h.ulen]; exact hv), if_pos (by simp)]
    · rw [if_neg hvw, h.umark w hw]
      congr 1
      have : (w ∈ pn ++ [v]) ↔ w ∈ pn := by
        simp only [List.mem_append, List.mem_singleton]
        constructor
        · rintro (h1 | h1)
          · exact h1
          · exact absurd h1.symm hvw
        · exact Or.inl
      simp only [this]

theorem hamCompletes_cons (g : Graph) (n : Nat) (pn : List Nat) (v : Nat) (ext : List Nat)
    (hv : v < n) : HamCompletes g n (pn ++ [v]) ext ↔ HamCompletes g n pn (v :: ext) := by
  unfold HamCompletes
  have e : pn ++ [v] ++ ext = pn ++ v :: ext := by simp
  rw [e]
  constructor
  · rintro ⟨h1, h2, h3, h4, h5⟩
    refine ⟨h1, h2, ?_, h4, h5⟩
    intro w hw
    rcases List.mem_cons.1 hw with h | h
    · subst h; exact hv
    · exact h3 w h
  · rintro ⟨h1, h2, h3, h4, h5⟩
    exact ⟨h1, h2, fun w hw => h3 w (List.mem_cons_of_mem _ hw), h4, h5⟩

theorem ham_dfs_loop_spec (g : Graph) (n : Nat) (hn : n < 2 ^ 31)
    (rec : List Int → List Int → Option (Bool × List Int × List Int))
    (pn : List Nat) (u : Nat) (used : List Int)
    (hst : HamState g n pn used)
    (hrec : ∀ v, v < n → v ∉ pn → g.Adj u v →
      ∃ r, rec ((pn ++ [v]).map (fun x : Nat => (x : Int))) (used.set v 1) = some r ∧
        HamPost g n (pn ++ [v]) (used.set v 1) r) :
    ∀ vs, (∀ v ∈ vs, v < n ∧ g.Adj u v) →
      ∃ r, HamiltonAlg.dfs_loop rec vs (pn.map (fun x : Nat => (x : Int))) used = some r ∧
        HamLoopPost g n pn used vs r := by
  intro vs
  induction vs with
  | nil =>
    intro _
    refine ⟨_, rfl, ?_, ?_⟩
    · intro _
      exact ⟨rfl, rfl, fun v hv => absurd hv (List.not_mem_nil v)⟩
    · intro h
      cases h
  | cons v vs ih =>
    intro hvs
    obtain ⟨hv, hadj⟩ := hvs v (List.mem_cons_self _ _)
    obtain ⟨r, er, pr⟩ := ih (fun w hw => hvs w (List.mem_cons_of_mem _ hw))
    have hmark := hst.umark v hv
    by_cases hin : v ∈ pn
    · rw [if_pos hin] at hmark
      refine ⟨r, ?_, ?_, pr.2⟩
      · rw [HamiltonAlg.dfs_loop]
        simp only [hmark]
        rw [if_neg (by decide)]
        exact er
      · intro hb
        obtain ⟨p1, p2, p3⟩ := pr.1 hb
        refine ⟨p1, p2, ?_⟩
        intro w hw ext hc
        rcases List.mem_cons.1 hw with h | h
        · subst h
          have hnd := hc.2.1
          rw [List.nodup_append] at hnd
          exact hnd.2.2 hin (List.mem_cons_self _ _) 
        · exact p3 w h ext hc
    · rw [if_neg hin] at hmark
      obtain ⟨r1, e1, q1⟩ := hrec v hv hin hadj
      have hpath : (pn.map (fun x : Nat => (x : Int))) ++ [to_int v] =
          (pn ++ [v]).map (fun x : Nat => (x : Int)) := by
        rw [to_int_of_lt v (by omega), List.map_append]
        rfl
      obtain ⟨b, p2, u2⟩ := r1
      cases b with
      | true =>
        obtain ⟨ext, x1, x2⟩ := q1.2 rfl
        refine ⟨(true, p2, u2), ?_, ?_, ?_⟩
        · rw [HamiltonAlg.dfs_loop]
          simp only [hmark]
          rw [if_pos trivial, hpath, e1]
        · intro h
          cases h
        · intro _
          refine ⟨v :: ext, ?_, (hamCompletes_cons g n pn v ext hv).1 x2⟩
          simp only at x1
          rw [x1]
          simp
      | false =>
        obtain ⟨x1, x2, x3⟩ := q1.1 rfl
        simp only at x1 x2
        have hdrop : p2.dropLast = pn.map (fun x : Nat => (x : Int)) := by
          rw [x1, List.map_append]
          simp
        have hrestore : u2.set v 0 = used := by
          rw [x2, List.set_set]
          exact set_eq_self_of_getElem? used v 0 hmark
        refine ⟨r, ?_, ?_, pr.2⟩
        · rw [HamiltonAlg.dfs_loop]
          simp only [hmark]
          rw [if_pos trivial, hpath, e1]
          simp only
          rw [hdrop, hrestore]
          exact er
        · intro hb
          obtain ⟨y1, y2, y3⟩ := pr.1 hb
          refine ⟨y1, y2, ?_⟩
          intro w hw ext hc
          rcases List.mem_cons.1 hw with h | h
          · subst h
            exact x3 ext ((hamCompletes_cons g n pn w ext hv).2 hc)
          · exact y3 w h ext hc


theorem ham_dfs_spec (g : Graph) (hg : g.Inv) (n : Nat) (hgn : g.m_n = n) (hn : n < 2 ^ 31) :
    ∀ (fuel : Nat) (pn : List Nat) (used : List Int), HamState g n pn used →
      n + 1 ≤ fuel + pn.length →
      ∃ r, HamiltonAlg.dfs g (n : Int) fuel (pn.map (fun x : Nat => (x : Int))) used = some r ∧
        HamPost g n pn used r := by
  intro fuel
  induction fuel with
  | zero =>
    intro pn used hst hf
    have := hamState_length_le g n pn used hst
    omega
  | succ fuel ih =>
    intro pn used hst hf
    have hle := hamState_length_le g n pn used hst
    obtain ⟨u, hu⟩ : ∃ u, pn.getLast? = some u := by
      cases h : pn.getLast? with
      | none => exact absurd (List.getLast?_eq_none_iff.1 h) hst.ne
      | some u => exact ⟨u, rfl⟩
    obtain ⟨h0, hh0⟩ : ∃ h0, pn.head? = some h0 := by
      cases h : pn.head? with
      | none => exact absurd (List.head?_eq_none_iff.1 h) hst.ne
      | some u => exact ⟨u, rfl⟩
    have hult : u < n := hst.lt u (mem_of_getLast?_eq_some _ _ hu)
    have hadj : get_int g.adj (u : Int) = some (g.neighbors u) := by
      rw [get_int_natCast]
      exact Graph.adj_getElem?_of_lt g hg.len u (by omega)
    rw [HamiltonAlg.dfs]
    simp only [List.length_map, List.getLast?_map, List.head?_map, hu, hh0, Option.map_some',
      hadj]
    rw [to_int_of_lt pn.length (by omega)]
    by_cases hlen : pn.length = n
    · rw [if_pos (by rw [hlen])]
      refine ⟨_, rfl, ?_, ?_⟩
      · intro hb
        simp only at hb
        refine ⟨rfl, rfl, ?_⟩
        intro ext hc
        have hext : ext = [] := by
          have := hc.1
          rw [List.length_append] at this
          exact List.length_eq_zero.1 (by omega)
        subst hext
        obtain ⟨l, h, e1, e2, e3⟩ := hc.2.2.2.2
        rw [List.append_nil] at e1 e2
        rw [hu] at e1
        rw [hh0] at e2
        cases e1
        cases e2
        have : (g.neighbors u).any (fun x => decide (to_int x = (h0 : Int))) = true := by
          rw [List.any_eq_true]
          refine ⟨h0, e3, ?_⟩
          rw [to_int_of_lt h0 (by have := hg.lt u h0 e3; omega)]
          simp
        rw [this] at hb
        cases hb
      · intro hb
        simp only at hb
        refine ⟨[], by simp, ?_⟩
        rw [List.any_eq_true] at hb
        obtain ⟨x, hx, hxe⟩ := hb
        rw [to_int_of_lt x (by have := hg.lt u x hx; omega)] at hxe
        simp only [decide_eq_true_eq, Nat.cast_inj] at hxe
        subst hxe
        refine ⟨by simpa using hlen, by simpa using hst.nodup, by simp, by simpa using hst.chain,
          u, x, by simpa using hu, by simpa using hh0, hx⟩
    · rw [if_neg (by
        intro h
        exact hlen (by exact_mod_cast h))]
      obtain ⟨r, er, pr⟩ := ham_dfs_loop_spec g n hn (HamiltonAlg.dfs g (n : Int) fuel) pn u used
        hst (fun v hv hnot hadjv =>
          ih (pn ++ [v]) (used.set v 1) (hamState_push g n pn used u v hst hu hv hnot hadjv) (by
            rw [List.length_append, List.length_singleton]; omega))
        (g.neighbors u) (fun v hv => ⟨by have := hg.lt u v hv; omega, hv⟩)
      refine ⟨r, er, ?_, pr.2⟩
      intro hb
      obtain ⟨p1, p2, p3⟩ := pr.1 hb
      refine ⟨p1, p2, ?_⟩
      intro ext hc
      cases ext with
      | nil =>
        have := hc.1
        rw [List.append_nil] at this
        exact hlen this
      | cons v ext =>
        have hch := hc.2.2.2.1
        rw [List.chain'_append] at hch
        have hv : g.Adj u v := hch.2.2 u (by rw [hu]; rfl) v (by simp)
        exact p3 v hv ext hc

theorem intercalate_go_concat (s x : String) (l : List String) :
    ∀ acc : String, String.intercalate.go acc s (l ++ [x]) =
      String.intercalate.go acc s l ++ s ++ x := by
  induction l with
  | nil =>
    intro acc
    rfl
  | cons a l ih =>
    intro acc
    exact ih (acc ++ s ++ a)

theorem join_sp_concat (p : List Nat) (hp : p ≠ []) (x : Nat) :
    join_sp (p ++ [x]) = join_sp p ++ " " ++ toString x := by
  unfold join_sp
  cases p with
  | nil => exact absurd rfl hp
  | cons a p =>
    rw [List.cons_append, List.map_cons, List.map_cons, List.map_append]
    exact intercalate_go_concat " " (toString x) (p.map toString) (toString a)

theorem ok_ne_err (x : String) : "OK HAMILTON " ++ x ≠ "ERR No Hamiltonian cycle" := by
  intro h
  have h2 := congrArg String.data h
  rw [String.data_append] at h2
  have h3 := congrArg List.head? h2
  have e1 : ("OK HAMILTON ".data ++ x.data).head? = some 'O' := rfl
  have e2 : "ERR No Hamiltonian cycle".data.head? = some 'E' := rfl
  rw [e1, e2] at h3
  exact absurd h3 (by decide)

theorem hamCompletes_iff_order (g : Graph) (n : Nat) (hn : 0 < n) (ext : List Nat) :
    HamCompletes g n [0] ext ↔ IsHamiltonOrder g n ([0] ++ ext) := by
  unfold HamCompletes IsHamiltonOrder
  constructor
  · rintro ⟨h1, h2, h3, h4, l, h, e1, e2, e3⟩
    refine ⟨h1, h2, ?_, rfl, h4, l, e1, ?_⟩
    · intro v hv
      rcases List.mem_append.1 hv with h | h
      · rw [List.mem_singleton] at h
        omega
      · exact h3 v h
    · simp only [List.singleton_append, List.head?_cons, Option.some.injEq] at e2
      rw [e2]
      exact e3
  · rintro ⟨h1, h2, h3, -, h4, l, e1, e3⟩
    exact ⟨h1, h2, fun v hv => h3 v (List.mem_append_right _ hv), h4, l, 0, e1, rfl, e3⟩

theorem order_eq_cons (g : Graph) (n : Nat) (p : List Nat) (h : IsHamiltonOrder g n p) :
    ∃ ext, p = [0] ++ ext := by
  obtain ⟨-, -, -, h4, -⟩ := h
  cases p with
  | nil => cases h4
  | cons a p =>
    simp only [List.head?_cons, Option.some.injEq] at h4
    subst h4
    exact ⟨p, rfl⟩

theorem hamState_init (g : Graph) (n : Nat) (hn : 0 < n) :
    HamState g n [0] ((List.replicate n (0 : Int)).set 0 1) := by
  refine ⟨by simp, by simp, ?_, List.chain'_singleton 0, by simp, ?_⟩
  · intro v hv
    rw [List.mem_singleton] at hv
    omega
  · intro v hv
    rw [List.getElem?_set]
    by_cases h0 : 0 = v
    · subst h0
      rw [if_pos rfl, if_pos (by simpa using hn), if_pos (by simp)]
    · rw [if_neg h0, List.getElem?_replicate, if_pos hv, if_neg (by
        rw [List.mem_singleton]; omega)]

theorem ham_run_unfold (g : Graph) (n : Nat) (hgn : g.m_n = n) (hn0 : 0 < n) (hn : n < 2 ^ 31)
    (fuel : Nat) :
    HamiltonAlg.run g fuel =
      match HamiltonAlg.dfs g (n : Int) fuel ([0].map (fun x : Nat => (x : Int)))
          ((List.replicate n (0 : Int)).set 0 1) with
      | none => none
      | some (true, path, _) =>
        match path.head? with
        | none => none
        | some p0 =>
          some ("OK HAMILTON " ++ " ".intercalate (path.map toString) ++ " " ++ toString p0)
      | some (false, _, _) => some "ERR No Hamiltonian cycle" := by
  unfold HamiltonAlg.run Graph.num_vertices
  simp only
  rw [hgn, to_int_of_lt n hn, if_neg (by omega), Int.toNat_ofNat]
  have : set_int (List.replicate n (0 : Int)) 0 1 = some ((List.replicate n (0 : Int)).set 0 1) := by
    unfold set_int
    rw [if_pos]
    · rfl
    · simpa using hn0
  rw [this]
  rfl

theorem ham_run_spec (g : Graph) (hg : g.Inv) (n : Nat) (hgn : g.m_n = n) (hn0 : 0 < n)
    (hn : n < 2 ^ 31) (fuel : Nat) (hf : n ≤ fuel) :
    (HamiltonAlg.run g fuel = some "ERR No Hamiltonian cycle" ∧
      ¬ ∃ p, IsHamiltonOrder g n p) ∨
    (∃ p, IsHamiltonOrder g n p ∧
      HamiltonAlg.run g fuel = some ("OK HAMILTON " ++ join_sp (p ++ [0]))) := by
  obtain ⟨r, er, pr⟩ := ham_dfs_spec g hg n hgn hn fuel [0] _ (hamState_init g n hn0) (by
    simp only [List.length_singleton]; omega)
  rw [ham_run_unfold g n hgn hn0 hn fuel, er]
  obtain ⟨b, p2, u2⟩ := r
  cases b with
  | false =>
    left
    refine ⟨rfl, ?_⟩
    rintro ⟨p, hp⟩
    obtain ⟨ext, rfl⟩ := order_eq_cons g n p hp
    exact (pr.1 rfl).2.2 ext ((hamCompletes_iff_order g n hn0 ext).2 hp)
  | true =>
    right
    obtain ⟨ext, x1, x2⟩ := pr.2 rfl
    simp only at x1
    refine ⟨[0] ++ ext, (hamCompletes_iff_order g n hn0 ext).1 x2, ?_⟩
    simp only
    rw [x1]
    have hfun : (toString ∘ fun x : Nat => (x : Int)) = (toString : Nat → String) := by
      funext x
      rfl
    have h0 : toString ((0 : Nat) : Int) = toString (0 : Nat) := rfl
    simp only [List.singleton_append, List.map_cons, List.head?_cons, List.map_map, hfun, h0]
    rw [join_sp_concat _ (by simp)]
    simp only [String.append_assoc]
    rfl

theorem ham_run_no_vertex (g : Graph) (hgn : g.m_n = 0) (fuel : Nat) :
    HamiltonAlg.run g fuel = none := by
  unfold HamiltonAlg.run Graph.num_vertices
  rw [hgn]
  rfl

theorem hamilton_run_complete (n : Nat) (ops : List (Nat × Nat)) (fuel : Nat) (hn0 : 0 < n)
    (hn : n < 2 ^ 31) (hf : n ≤ fuel) :
    ∃ s, HamiltonAlg.run (Graph.build n ops) fuel = some s ∧
      (s = "ERR No Hamiltonian cycle" ↔ ¬ ∃ p, IsHamiltonOrder (Graph.build n ops) n p) ∧
      ((∃ p, IsHamiltonOrder (Graph.build n ops) n p) →
        ∃ p, IsHamiltonOrder (Graph.build n ops) n p ∧
          s = "OK HAMILTON " ++ join_sp (p ++ [0])) := by
  rcases ham_run_spec _ (Graph.inv_build n ops) n (Graph.m_n_build n ops) hn0 hn fuel hf with
    ⟨e, hno⟩ | ⟨p, hp, e⟩
  · exact ⟨_, e, ⟨fun _ => hno, fun _ => rfl⟩, fun h => absurd h hno⟩
  · refine ⟨_, e, ⟨fun h => absurd h (ok_ne_err _), fun h => absurd ⟨p, hp⟩ h⟩, fun _ => ⟨p, hp, rfl⟩⟩

/-- C22: on `Graph(0)` the write `used[0] = 1` of `HamiltonAlg::run` is outside the empty
    vector `used`, so no payload is returned, although no ordering of the vertices exists
    and the failure signal is due. -/
theorem hamilton_run_empty_graph (fuel : Nat) :
    HamiltonAlg.run (Graph.build 0 []) fuel = none ∧
      ¬ ∃ p, IsHamiltonOrder (Graph.build 0 []) 0 p := by
  refine ⟨ham_run_no_vertex _ rfl fuel, ?_⟩
  rintro ⟨p, hp⟩
  obtain ⟨h1, -, -, h4, -⟩ := hp
  rw [List.length_eq_zero.1 h1] at h4
  cases h4


theorem hweak_push (n m : Nat) (s : HState) (u v : Nat) (rest : List Nat)
    (h : HWeak n m s) (hst : s.st = u :: rest)
    (hlast : (s.adj.getD u []).getLast? = some v) :
    ∃ s2, hierholzer_step s = some s2 ∧ HWeak n m s2 ∧
      s2.st = v :: u :: rest ∧ s2.out = s.out ∧
      (s2.adj.map List.length).sum + 2 = (s.adj.map List.length).sum := by
  have hvAu : v ∈ s.adj.getD u [] := mem_of_getLast?_eq_some _ _ hlast
  have huv : v ≠ u := fun e => h.irrefl u (e ▸ hvAu)
  have hvlt : v < n := h.lt u v hvAu
  have hult : u < n := h.st_lt u (by simp [hst])
  have huAv : u ∈ s.adj.getD v [] := h.symm u v hvAu
  have rU := removed_dropLast _ v hlast (h.nodup u)
  have rV := removed_swap_remove _ u huAv (h.nodup v)
  have hlen := h.len
  have hsum : (((s.adj.set u (s.adj.getD u []).dropLast).set v
      (swap_remove (s.adj.getD v []) u)).map List.length).sum + 2 =
      (s.adj.map List.length).sum := by
    have e1 := sum_length_set (s.adj.set u (s.adj.getD u []).dropLast) v
      (swap_remove (s.adj.getD v []) u) (by rw [List.length_set]; omega)
    have e2 := sum_length_set s.adj u (s.adj.getD u []).dropLast (by omega)
    rw [getD_set _ _ _ _ (by omega), if_neg huv] at e1
    have := rU.length
    have := rV.length
    omega
  refine ⟨_, hierholzer_step_push_eq s u v rest hst (by omega) (by omega) huv hlast (h.nodup u),
    ?_, rfl, rfl, hsum⟩
  have hget : ∀ w, ((s.adj.set u (s.adj.getD u []).dropLast).set v
        (swap_remove (s.adj.getD v []) u)).getD w [] =
      if w = v then swap_remove (s.adj.getD v []) u
      else if w = u then (s.adj.getD u []).dropLast else s.adj.getD w [] := by
    intro w
    rw [getD_set _ _ _ _ (by rw [List.length_set]; omega), getD_set _ _ _ _ (by omega)]
  have hmem : ∀ x y, y ∈ ((s.adj.set u (s.adj.getD u []).dropLast).set v
        (swap_remove (s.adj.getD v []) u)).getD x [] ↔
      (y ∈ s.adj.getD x [] ∧ ¬ (x = u ∧ y = v) ∧ ¬ (x = v ∧ y = u)) := by
    intro x y
    rw [hget x]
    by_cases hxv : x = v
    · subst hxv
      rw [if_pos rfl, rV.mem y]
      constructor
      · rintro ⟨h1, h2⟩
        exact ⟨h1, fun hc => huv hc.1, fun hc => h2 hc.2⟩
      · rintro ⟨h1, -, h3⟩
        exact ⟨h1, fun e => h3 ⟨rfl, e⟩⟩
    · rw [if_neg hxv]
      by_cases hxu : x = u
      · subst hxu
        rw [if_pos rfl, rU.mem y]
        constructor
        · rintro ⟨h1, h2⟩
          exact ⟨h1, fun hc => h2 hc.2, fun hc => hxv hc.1⟩
        · rintro ⟨h1, h2, -⟩
          exact ⟨h1, fun e => h2 ⟨rfl, e⟩⟩
      · rw [if_neg hxu]
        constructor
        · intro h1
          exact ⟨h1, fun hc => hxu hc.1, fun hc => hxv hc.1⟩
        · rintro ⟨h1, -, -⟩
          exact h1
  refine ⟨by simp [hlen], ?_, ?_, ?_, ?_, ?_, ?_⟩
  · intro x y hxy
    rw [hmem] at hxy ⊢
    obtain ⟨h1, h2, h3⟩ := hxy
    exact ⟨h.symm x y h1, fun hc => h3 ⟨hc.2, hc.1⟩, fun hc => h2 ⟨hc.2, hc.1⟩⟩
  · intro x
    rw [hget x]
    split_ifs
    · exact rV.nodup
    · exact rU.nodup
    · exact h.nodup x
  · intro x hx
    rw [hmem] at hx
    exact h.irrefl x hx.1
  · intro x y hxy
    rw [hmem] at hxy
    exact h.lt x y hxy.1
  · intro x hx
    simp only [List.mem_cons] at hx
    rcases hx with rfl | hx
    · exact hvlt
    · exact h.st_lt x (by rw [hst]; simpa using hx)
  · have := h.count
    rw [hst] at this
    simp only [List.length_cons] at this ⊢
    omega

theorem hweak_pop (n m : Nat) (s : HState) (u : Nat) (rest : List Nat)
    (h : HWeak n m s) (hst : s.st = u :: rest) (hempty : s.adj.getD u [] = []) :
    ∃ s2, hierholzer_step s = some s2 ∧ HWeak n m s2 ∧
      s2.st = rest ∧ s2.out = s.out ++ [u] ∧ s2.adj = s.adj := by
  have hult : u < n := h.st_lt u (by simp [hst])
  refine ⟨_, hierholzer_step_pop_eq s u rest hst (by rw [h.len]; exact hult) hempty,
    ?_, rfl, rfl, rfl⟩
  refine ⟨h.len, h.symm, h.nodup, h.irrefl, h.lt, ?_, ?_⟩
  · intro x hx
    exact h.st_lt x (by rw [hst]; exact List.mem_cons_of_mem _ hx)
  · have := h.count
    rw [hst] at this
    simp only [List.length_cons, List.length_append, List.length_singleton, List.length_nil] at this ⊢
    omega

theorem hierholzer_loop_total (n m : Nat) (fuel : Nat) :
    ∀ (s : HState), HWeak n m s →
      (s.adj.map List.length).sum + s.st.length ≤ fuel →
    ∃ s2, hierholzer_loop fuel s = some s2 ∧ HWeak n m s2 ∧ s2.st = [] := by
  induction fuel with
  | zero =>
    intro s h hm
    have hq : s.st = [] := List.length_eq_zero.1 (by omega)
    exact ⟨s, by simp [hierholzer_loop, hq], h, hq⟩
  | succ fuel ih =>
    intro s h hm
    cases hq : s.st with
    | nil => exact ⟨s, by simp [hierholzer_loop, hq], h, hq⟩
    | cons u rest =>
      rw [hq] at hm
      simp only [List.length_cons] at hm
      cases hl : (s.adj.getD u []).getLast? with
      | none =>
        have hempty : s.adj.getD u [] = [] := List.getLast?_eq_none_iff.1 hl
        obtain ⟨s1, e1, i1, st1, -, adj1⟩ := hweak_pop n m s u rest h hq hempty
        obtain ⟨s2, e2, i2, st2⟩ := ih s1 i1 (by rw [st1, adj1]; omega)
        refine ⟨s2, ?_, i2, st2⟩
        simp [hierholzer_loop, hq]
        rw [e1]
        simpa using e2
      | some v =>
        obtain ⟨s1, e1, i1, st1, -, sum1⟩ := hweak_push n m s u v rest h hq hl
        obtain ⟨s2, e2, i2, st2⟩ := ih s1 i1 (by
          rw [st1]; simp only [List.length_cons]; omega)
        refine ⟨s2, ?_, i2, st2⟩
        simp [hierholzer_loop, hq]
        rw [e1]
        simpa using e2

theorem hweak_init (g : Graph) (hg : g.Inv) (start : Nat) (hs : start < g.m_n) :
    HWeak g.m_n g.m_m { adj := g.adj, st := [start], out := [] } := by
  refine ⟨hg.len, hg.symm, hg.nodup, hg.irrefl, hg.lt, ?_, ?_⟩
  · intro x hx
    simp only [List.mem_singleton] at hx
    subst hx
    exact hs
  · have := hg.count
    unfold Graph.degree_sum at this
    simp only [List.length_singleton, List.length_nil]
    omega

theorem find_start_lt (adj : List (List Nat)) (n : Nat) (hn : 0 < n) : find_start adj n < n := by
  unfold find_start
  cases hf : (List.range n).find? (fun i => !(adj.getD i []).isEmpty) with
  | none => exact hn
  | some j =>
    simp only [Option.getD_some]
    exact List.mem_range.1 (List.mem_of_find?_eq_some hf)


theorem src_add_edge_eq (g : Graph) (hg : g.Inv) (u v : Nat) :
    Src.add_edge g u v = g.add_edge u v := by
  unfold Src.add_edge Graph.add_edge
  by_cases h1 : u ≥ g.m_n ∨ v ≥ g.m_n
  · rw [if_pos h1, if_pos h1]
  · rw [if_neg h1, if_neg h1]
    by_cases h2 : u = v
    · rw [if_pos h2, if_pos h2]
    · rw [if_neg h2, if_neg h2]
      by_cases h3 : v ∈ g.adj.getD u []
      · rw [if_pos h3, if_pos h3]
      · rw [if_neg h3, if_neg h3]
        have : u ∉ g.adj.getD v [] := fun h => h3 (hg.symm v u h)
        rw [if_neg this]

theorem src_build_eq (n : Nat) (ops : List (Nat × Nat)) : Src.build n ops = Graph.build n ops := by
  unfold Src.build Graph.build
  have key : ∀ (ops : List (Nat × Nat)) (g : Graph), g.Inv →
      ops.foldl (fun g e => (Src.add_edge g e.1 e.2).2) g =
        ops.foldl (fun g e => (g.add_edge e.1 e.2).2) g := by
    intro ops
    induction ops with
    | nil => intro g _; rfl
    | cons e ops ih =>
      intro g hg
      simp only [List.foldl_cons]
      rw [src_add_edge_eq g hg]
      exact ih _ (Graph.inv_add_edge g e.1 e.2 hg)
  exact key ops _ (Graph.inv_new n)

theorem bfs_sim_visit (g : Graph) (s1 ss : Graph.BfsState) (v : Nat) (h : BfsSim s1 ss)
    (hv : g.neighbors v ≠ []) (t1 : Graph.BfsState) (e : g.bfs_visit s1 v = some t1) :
    ∃ ts, Src.bfs_visit ss v = some ts ∧ BfsSim t1 ts := by
  obtain ⟨h1, h2, h3⟩ := h
  unfold Graph.bfs_visit at e
  unfold Src.bfs_visit
  rw [h1]
  cases hb : s1.vis[v]? with
  | none => rw [hb] at e; cases e
  | some b =>
    rw [hb] at e
    cases b with
    | true =>
      simp only [Option.some.injEq] at e
      subst e
      exact ⟨ss, rfl, h1, h2, h3⟩
    | false =>
      simp only [Option.some.injEq] at e
      subst e
      refine ⟨_, rfl, ?_, ?_, ?_⟩
      · simp only [h1]
      · simp only [h2]
      · have hne : (g.neighbors v).isEmpty = false := by
          cases hn : g.neighbors v with
          | nil => exact absurd hn hv
          | cons a t => rfl
        simp only [hne, Bool.false_eq_true, if_false, List.length_append, List.length_singleton]
        omega

theorem bfs_sim_inner (g : Graph) (vs : List Nat) (hvs : ∀ v ∈ vs, g.neighbors v ≠ []) :
    ∀ (s1 ss : Graph.BfsState), BfsSim s1 ss → ∀ t1, g.bfs_inner vs s1 = some t1 →
      ∃ ts, Src.bfs_inner vs ss = some ts ∧ BfsSim t1 ts := by
  induction vs with
  | nil =>
    intro s1 ss h t1 e
    simp only [Graph.bfs_inner, Option.some.injEq] at e
    subst e
    exact ⟨ss, rfl, h⟩
  | cons v vs ih =>
    intro s1 ss h t1 e
    simp only [Graph.bfs_inner] at e
    cases hv : g.bfs_visit s1 v with
    | none => rw [hv] at e; cases e
    | some m1 =>
      rw [hv] at e
      simp only [Option.some_bind] at e
      obtain ⟨ms, e2, h2⟩ := bfs_sim_visit g s1 ss v h (hvs v (List.mem_cons_self _ _)) m1 hv
      obtain ⟨ts, e3, h3⟩ := ih (fun w hw => hvs w (List.mem_cons_of_mem _ hw)) m1 ms h2 t1 e
      refine ⟨ts, ?_, h3⟩
      simp only [Src.bfs_inner, e2, Option.some_bind, e3]

theorem bfs_sim_loop (g : Graph) (hg : g.Inv) (fuel : Nat) :
    ∀ (s1 ss : Graph.BfsState), BfsSim s1 ss → ∀ t1, g.bfs_loop fuel s1 = some t1 →
      ∃ ts, Src.bfs_loop g fuel ss = some ts ∧ ts.reached = t1.reached := by
  induction fuel with
  | zero =>
    intro s1 ss h t1 e
    obtain ⟨h1, h2, h3⟩ := h
    unfold Graph.bfs_loop at e
    unfold Src.bfs_loop
    rw [h2]
    cases hq : s1.q with
    | nil =>
      rw [hq] at e
      simp only [Option.some.injEq] at e
      subst e
      rw [h2, hq] at h3
      exact ⟨ss, rfl, by simpa using h3.symm⟩
    | cons u rest => rw [hq] at e; cases e
  | succ fuel ih =>
    intro s1 ss h t1 e
    obtain ⟨h1, h2, h3⟩ := h
    unfold Graph.bfs_loop at e
    unfold Src.bfs_loop
    rw [h2]
    cases hq : s1.q with
    | nil =>
      rw [hq] at e
      simp only [Option.some.injEq] at e
      subst e
      rw [h2, hq] at h3
      exact ⟨ss, rfl, by simpa using h3.symm⟩
    | cons u rest =>
      rw [hq] at e
      simp only at e ⊢
      cases ha : g.adj[u]? with
      | none => rw [ha] at e; cases e
      | some nb =>
        rw [ha] at e
        simp only at e ⊢
        cases hi : g.bfs_inner nb { s1 with q := rest } with
        | none => rw [hi] at e; cases e
        | some m1 =>
          rw [hi] at e
          simp only [Option.some_bind] at e
          have hu : u < g.adj.length := by
            by_contra hc
            rw [List.getElem?_eq_none (by omega)] at ha
            cases ha
          have hnb : nb = g.neighbors u := by
            have := Graph.adj_getElem?_of_lt g hg.len u (by rw [← hg.len]; exact hu)
            rw [ha] at this
            exact Option.some.inj this
          have hsim : BfsSim { s1 with q := rest }
              { ss with q := rest, reached := ss.reached + 1 } := by
            refine ⟨h1, rfl, ?_⟩
            rw [h2, hq] at h3
            simp only [List.length_cons] at h3 ⊢
            omega
          obtain ⟨ms, e2, h4⟩ := bfs_sim_inner g nb (by
            intro v hv
            rw [hnb] at hv
            exact List.ne_nil_of_mem (hg.symm u v hv)) _ _ hsim m1 hi
          obtain ⟨ts, e3, h5⟩ := ih m1 ms h4 t1 e
          refine ⟨ts, ?_, h5⟩
          rw [e2]
          simpa using e3


theorem scan_first_count (g : Graph) (k : Nat) (hk : k ≤ g.m_n) :
    ((List.range k).foldl g.scan_step (g.m_n, 0)).1 =
        ((List.range k).find? (fun i => !(g.neighbors i).isEmpty)).getD g.m_n ∧
      ((List.range k).foldl g.scan_step (g.m_n, 0)).2 =
        (List.range k).countP (fun i => !(g.neighbors i).isEmpty) := by
  induction k with
  | zero => exact ⟨rfl, rfl⟩
  | succ k ih =>
    obtain ⟨h1, h2⟩ := ih (by omega)
    rw [List.range_succ, List.foldl_append, List.find?_append, List.countP_append]
    simp only [List.foldl_cons, List.foldl_nil, List.find?_cons, List.find?_nil,
      List.countP_cons, List.countP_nil]
    generalize (List.range k).foldl g.scan_step (g.m_n, 0) = acc at h1 h2 ⊢
    unfold Graph.scan_step
    cases hf : (List.range k).find? (fun i => !(g.neighbors i).isEmpty) with
    | none =>
      rw [hf] at h1
      simp only [Option.getD_none] at h1
      cases he : (g.neighbors k).isEmpty with
      | true =>
        simp only [if_true, Bool.not_true, Option.or, Option.getD_none,
          Bool.false_eq_true, if_false, Nat.add_zero]
        exact ⟨h1, h2⟩
      | false =>
        simp only [Bool.false_eq_true, if_false, Bool.not_false, Option.or,
          Option.getD_some, if_true, Nat.zero_add]
        rw [if_pos h1]
        exact ⟨rfl, by rw [h2]⟩
    | some j =>
      rw [hf] at h1
      simp only [Option.getD_some] at h1
      have hj : j < k := List.mem_range.1 (List.mem_of_find?_eq_some hf)
      cases he : (g.neighbors k).isEmpty with
      | true =>
        simp only [if_true, Bool.not_true, Option.or, Option.getD_some,
          Bool.false_eq_true, if_false, Nat.add_zero]
        exact ⟨h1, h2⟩
      | false =>
        simp only [Bool.false_eq_true, if_false, Bool.not_false, Option.or,
          Option.getD_some, if_true, Nat.zero_add]
        rw [if_neg (by omega)]
        exact ⟨h1, by rw [h2]⟩

theorem src_is_connected_eq (g : Graph) (hg : g.Inv) (fuel : Nat) (hf : g.m_n ≤ fuel) :
    Src.is_connected_ignoring_isolated g fuel = g.is_connected_ignoring_isolated fuel := by
  obtain ⟨b, hb, -⟩ := Graph.is_connected_spec g hg fuel hf
  obtain ⟨hN, hstart⟩ := Graph.scan_spec g
  obtain ⟨hfst, hcnt⟩ := scan_first_count g g.m_n (le_refl _)
  have hfst2 : g.scan.1 =
      ((List.range g.m_n).find? (fun i => !(g.neighbors i).isEmpty)).getD g.m_n := hfst
  have hcnt2 : g.scan.2 = (List.range g.m_n).countP (fun i => !(g.neighbors i).isEmpty) := hcnt
  unfold Src.is_connected_ignoring_isolated
  unfold Graph.is_connected_ignoring_isolated at hb ⊢
  simp only at hb ⊢
  rw [← hfst2, ← hcnt2]
  by_cases hle : g.scan.2 ≤ 1
  · rw [if_pos hle]
    by_cases hn : g.m_n = 0
    · rw [if_pos hn]
    · rw [if_neg hn]
      by_cases hs : g.scan.1 = g.m_n
      · rw [if_pos hs]
      · exfalso
        have hpos : 0 < g.scan.2 := by
          by_contra hc
          have hz : g.scan.2 = 0 := by omega
          rw [hcnt2, List.countP_eq_zero] at hz
          have hnone : (List.range g.m_n).find? (fun i => !(g.neighbors i).isEmpty) = none := by
            rw [List.find?_eq_none]
            exact hz
          rw [hfst2, hnone] at hs
          exact hs rfl
        obtain ⟨hsl, hsn⟩ := hstart hpos
        obtain ⟨w, hw⟩ := List.exists_mem_of_ne_nil _ hsn
        have hwl : w < g.m_n := hg.lt _ w hw
        have hwn : g.neighbors w ≠ [] := List.ne_nil_of_mem (hg.symm _ w hw)
        have hne : w ≠ g.scan.1 := fun e => hg.irrefl _ (e ▸ hw)
        have h1 : g.scan.1 ∈ g.nonIsolated g.m_n := by simp [Graph.nonIsolated, hsl, hsn]
        have h2 : w ∈ g.nonIsolated g.m_n := by simp [Graph.nonIsolated, hwl, hwn]
        rw [hN] at hle
        exact hne (Finset.card_le_one.1 hle w h2 _ h1)
  · rw [if_neg hle] at hb ⊢
    obtain ⟨hsl, -⟩ := hstart (by omega)
    rw [if_neg (by omega), if_neg (by omega)]
    cases h1 : g.bfs_loop fuel
        { vis := (List.replicate g.m_n false).set g.scan.1 true, q := [g.scan.1],
          reached := 1 } with
    | none => rw [h1] at hb; cases hb
    | some t1 =>
      obtain ⟨ts, e, hr⟩ := bfs_sim_loop g hg fuel
        { vis := (List.replicate g.m_n false).set g.scan.1 true, q := [g.scan.1],
          reached := 1 }
        { vis := (List.replicate g.m_n false).set g.scan.1 true, q := [g.scan.1],
          reached := 0 } ⟨rfl, rfl, rfl⟩ t1 h1
      rw [e]
      simp only [Option.map_some', hr]

theorem src_all_even_degrees_eq (g : Graph) : Src.all_even_degrees g = g.all_even_degrees := by
  unfold Src.all_even_degrees Graph.all_even_degrees
  congr 1
  funext i
  rw [Nat.and_one_is_mod]

theorem src_euler_feasibility_eq (g : Graph) (hg : g.Inv) (fuel : Nat) (hf : g.m_n ≤ fuel) :
    Src.euler_feasibility g fuel = euler_feasibility g fuel := by
  unfold Src.euler_feasibility euler_feasibility
  rw [src_is_connected_eq g hg fuel hf, src_all_even_degrees_eq]

theorem find_euler_circuit_src_reverse (g : Graph) (hg : g.Inv) (fuel_bfs fuel : Nat)
    (hb : g.m_n ≤ fuel_bfs) (hf : 2 * g.m_m + 1 ≤ fuel) (chk : EulerCheck)
    (hchk : euler_feasibility g fuel_bfs = some chk) (hok : chk.ok = true) (hm : 0 < g.m_m) :
    ∃ c, Src.find_euler_circuit g fuel_bfs fuel = some c ∧
      find_euler_circuit g fuel_bfs fuel = some c.reverse := by
  obtain ⟨hs, -⟩ := find_start_spec g hg hm
  have hcount := hg.count
  unfold Graph.degree_sum at hcount
  obtain ⟨s2, e2, -, -⟩ := hierholzer_loop_total g.m_n g.m_m fuel _ (hweak_init g hg _ hs) (by
    simp only [List.length_singleton]; omega)
  have hn : ¬ g.n = 0 := by unfold Graph.n; omega
  have hm0 : ¬ g.m = 0 := by unfold Graph.m; omega
  refine ⟨s2.out, ?_, ?_⟩
  · unfold Src.find_euler_circuit
    rw [src_euler_feasibility_eq g hg fuel_bfs hb, hchk]
    simp only [hok, Bool.not_true, Bool.false_eq_true, if_false]
    unfold Graph.n
    rw [Graph.map_neighbors_range g hg.len, e2]
  · unfold find_euler_circuit
    rw [hchk]
    simp only [hok, Bool.not_true, Bool.false_eq_true, if_false, hn, hm0]
    unfold Graph.n
    rw [Graph.map_neighbors_range g hg.len, e2]


/-- C29: on every graph built from `Graph(n)` by `add_edge` calls the Hierholzer loop of
    `find_euler_circuit`, started as the function starts it, ends with an empty stack within
    `2 * m + 1` iterations and reads no vector out of range (`n > 0`, as the function returns
    before the loop when `n = 0`); every edge it removed is matched by one written vertex
    beyond the first.  Hence `find_euler_circuit` itself returns on every such graph. -/
theorem hierholzer_loop_terminates (n : Nat) (ops : List (Nat × Nat)) (fuel_bfs fuel : Nat)
    (hb : n ≤ fuel_bfs) (hf : 2 * (Graph.build n ops).m + 1 ≤ fuel) :
    (0 < n →
      ∃ s, hierholzer_loop fuel
          { adj := (List.range (Graph.build n ops).n).map (Graph.build n ops).neighbors,
            st := [find_start ((List.range (Graph.build n ops).n).map
              (Graph.build n ops).neighbors) (Graph.build n ops).n],
            out := [] } = some s ∧
        s.st = [] ∧
        (s.adj.map List.length).sum + 2 * s.out.length = 2 * (Graph.build n ops).m + 2) ∧
    ∃ c, find_euler_circuit (Graph.build n ops) fuel_bfs fuel = some c := by
  have hg := Graph.inv_build n ops
  have hgn := Graph.m_n_build n ops
  have hcount := hg.count
  unfold Graph.degree_sum at hcount
  unfold Graph.m at hf ⊢
  have hloop : 0 < n →
      ∃ s, hierholzer_loop fuel
          { adj := (List.range (Graph.build n ops).n).map (Graph.build n ops).neighbors,
            st := [find_start ((List.range (Graph.build n ops).n).map
              (Graph.build n ops).neighbors) (Graph.build n ops).n],
            out := [] } = some s ∧
        s.st = [] ∧
        (s.adj.map List.length).sum + 2 * s.out.length = 2 * (Graph.build n ops).m_m + 2 := by
    intro hn
    unfold Graph.n
    rw [Graph.map_neighbors_range _ hg.len]
    obtain ⟨s2, e2, i2, st2⟩ := hierholzer_loop_total (Graph.build n ops).m_n
      (Graph.build n ops).m_m fuel _
      (hweak_init _ hg _ (find_start_lt _ _ (by rw [hgn]; exact hn))) (by
        simp only [List.length_singleton]; omega)
    refine ⟨s2, e2, st2, ?_⟩
    have := i2.count
    rw [st2] at this
    simpa using this
  refine ⟨hloop, ?_⟩
  obtain ⟨chk, hchk, -⟩ := euler_feasibility_spec _ hg fuel_bfs (by rw [hgn]; exact hb)
  unfold find_euler_circuit
  rw [hchk]
  simp only
  by_cases hok : (!chk.ok) = true
  · rw [if_pos hok]
    exact ⟨_, rfl⟩
  · rw [if_neg hok]
    by_cases h0 : (Graph.build n ops).n = 0
    · rw [if_pos h0]
      exact ⟨_, rfl⟩
    · rw [if_neg h0]
      by_cases hm : (Graph.build n ops).m = 0
      · rw [if_pos hm]
        exact ⟨_, rfl⟩
      · rw [if_neg hm]
        obtain ⟨s, es, -, -⟩ := hloop (by
          unfold Graph.n at h0
          omega)
        rw [es]
        exact ⟨_, rfl⟩

theorem hierholzer_loop_terminates_witness :
    3 ≤ 3 ∧ 2 * (Graph.build 3 [(0, 1), (1, 2)]).m + 1 ≤ 5 ∧
    hierholzer_loop 5
      { adj := [[1], [0, 2], [1]], st := [0], out := [] } =
        some { adj := [[], [], []], st := [], out := [2, 1, 0] } ∧
    ∃ c, find_euler_circuit (Graph.build 3 [(0, 1), (1, 2)]) 3 5 = some c :=
  ⟨le_refl 3, by decide, by decide,
    (hierholzer_loop_terminates 3 [(0, 1), (1, 2)] 3 5 (le_refl 3) (by decide)).2⟩

/-- C30: both versions of `add_edge` build the same graph, and on every graph built from
    `Graph(n)` by `add_edge` calls on which `euler_feasibility` passes and `m > 0`, the
    sequence returned by `find_euler_circuit` of `Stage2/euler.cpp` is the reverse of the one
    returned by `find_euler_circuit` of `src/src/euler.cpp`; both return. -/
theorem find_euler_circuit_versions_agree (n : Nat) (ops : List (Nat × Nat))
    (fuel_bfs fuel : Nat) (hb : n ≤ fuel_bfs)
    (hf : 2 * (Graph.build n ops).m + 1 ≤ fuel) (chk : EulerCheck)
    (hchk : euler_feasibility (Graph.build n ops) fuel_bfs = some chk) (hok : chk.ok = true)
    (hm : 0 < (Graph.build n ops).m) :
    Src.build n ops = Graph.build n ops ∧
    Src.euler_feasibility (Src.build n ops) fuel_bfs = some chk ∧
    ∃ c, Src.find_euler_circuit (Src.build n ops) fuel_bfs fuel = some c ∧
      find_euler_circuit (Graph.build n ops) fuel_bfs fuel = some c.reverse := by
  have hg := Graph.inv_build n ops
  have hgn := Graph.m_n_build n ops
  rw [src_build_eq]
  refine ⟨rfl, ?_, ?_⟩
  · rw [src_euler_feasibility_eq _ hg fuel_bfs (by rw [hgn]; exact hb)]
    exact hchk
  · exact find_euler_circuit_src_reverse _ hg fuel_bfs fuel (by rw [hgn]; exact hb) hf chk hchk
      hok hm

theorem find_euler_circuit_versions_agree_witness :
    Src.find_euler_circuit (Src.build 3 [(0, 1), (1, 2), (2, 0)]) 3 7 = some [0, 1, 2, 0] ∧
    find_euler_circuit (Graph.build 3 [(0, 1), (1, 2), (2, 0)]) 3 7 = some [0, 2, 1, 0] ∧
    Src.build 3 [(0, 1), (1, 2), (2, 0)] = Graph.build 3 [(0, 1), (1, 2), (2, 0)] :=
  ⟨by decide, by decide,
    (find_euler_circuit_versions_agree 3 [(0, 1), (1, 2), (2, 0)] 3 7 (le_refl 3) (by decide)
      ⟨true, "OK"⟩ (by decide) rfl (by decide)).1⟩


theorem sample_loop_congr (rs1 rs2 : RandomSource) (hd : rs1.draw = rs2.draw) (n m : Nat) :
    ∀ (fuel i : Nat) (seen : List Nat),
      sample_loop rs1 n m fuel i seen = sample_loop rs2 n m fuel i seen := by
  intro fuel
  induction fuel with
  | zero =>
    intro i seen
    rfl
  | succ fuel ih =>
    intro i seen
    simp only [sample_loop, hd, ih]

theorem edge_set_add_all_perm (n : Nat) (es1 es2 : List (Nat × Nat)) (hp : es1.Perm es2) :
    ((Graph.new n).add_all es1).edge_set = ((Graph.new n).add_all es2).edge_set := by
  have h1 := Graph.inv_add_all es1 _ (Graph.inv_new n)
  have h2 := Graph.inv_add_all es2 _ (Graph.inv_new n)
  ext e
  induction e using Sym2.ind with
  | _ x y =>
    rw [Graph.mem_edge_set _ h1, Graph.mem_edge_set _ h2,
      Graph.mem_neighbors_add_all es1 _ (Graph.inv_new n),
      Graph.mem_neighbors_add_all es2 _ (Graph.inv_new n), hp.mem_iff, hp.mem_iff]

theorem random_simple_view_congr (rs1 rs2 : RandomSource) (hd : rs1.draw = rs2.draw)
    (hs : rs1.shuffle = rs2.shuffle) (n m fuel : Nat) :
    (Graph.random_simple rs1 n m fuel).map GenResult.view =
      (Graph.random_simple rs2 n m fuel).map GenResult.view := by
  unfold Graph.random_simple
  by_cases h1 : m > max_edges_u64 n
  · rw [if_pos h1, if_pos h1]
  · rw [if_neg h1, if_neg h1]
    by_cases h2 : n = 0 ∧ m ≠ 0
    · rw [if_pos h2, if_pos h2]
    · rw [if_neg h2, if_neg h2]
      by_cases h5 : n > adj_max_size
      · rw [if_pos h5, if_pos h5]
      · rw [if_neg h5, if_neg h5]
        by_cases h3 : m = 0 ∨ n ≤ 1
        · rw [if_pos h3, if_pos h3]
        · rw [if_neg h3, if_neg h3]
          by_cases h6 : m > max_edges_u64 n / 2 ∧ max_edges_u64 n > pair_max_size
          · rw [if_pos h6, if_pos h6]
          · rw [if_neg h6, if_neg h6]
            unfold random_simple_edges
            by_cases h4 : m ≤ max_edges_u64 n / 2
            · rw [if_pos h4, if_pos h4, sample_loop_congr rs1 rs2 hd]
              cases sample_loop rs2 n m fuel 0 [] with
              | none => rfl
              | some seen =>
                simp only [Option.map_some', GenResult.view, Graph.m_n_add_all]
                rw [edge_set_add_all_perm n _ _
                  (((rs1.order_perm seen).trans (rs2.order_perm seen).symm).map unpack)]
            · rw [if_neg h4, if_neg h4, hs]


theorem sample_loop_mono (rs : RandomSource) (n m : Nat) :
    ∀ (fuel i : Nat) (seen s : List Nat),
      sample_loop rs n m fuel i seen = some s → sample_loop rs n m (fuel + 1) i seen = some s := by
  intro fuel
  induction fuel with
  | zero =>
    intro i seen s h
    simp only [sample_loop] at h ⊢
    split_ifs at h with hlt
    rw [if_neg hlt]
    exact h
  | succ fuel ih =>
    intro i seen s h
    rw [sample_loop] at h ⊢
    by_cases hlt : seen.length < m
    · rw [if_pos hlt] at h ⊢
      simp only at h ⊢
      by_cases huv : rs.draw n i = rs.draw n (i + 1)
      · rw [if_pos huv] at h ⊢
        exact ih _ _ _ h
      · rw [if_neg huv] at h ⊢
        exact ih _ _ _ h
    · rw [if_neg hlt] at h ⊢
      exact h

theorem random_simple_mono (rs : RandomSource) (n m fuel fuel2 : Nat) (hle : fuel ≤ fuel2)
    (r : GenResult) (h : Graph.random_simple rs n m fuel = some r) :
    Graph.random_simple rs n m fuel2 = some r := by
  induction hle with
  | refl => exact h
  | @step k _ ih =>
    unfold Graph.random_simple at ih ⊢
    split_ifs at ih ⊢
    · exact ih
    · exact ih
    · exact ih
    · exact ih
    · exact ih
    · unfold random_simple_edges at ih ⊢
      split_ifs at ih ⊢
      · cases hs : sample_loop rs n m k 0 [] with
        | none => rw [hs] at ih; cases ih
        | some seen =>
          rw [hs] at ih
          rw [sample_loop_mono rs n m k 0 [] seen hs]
          exact ih
      · exact ih


/-- C28: `random_simple(n, m, seed)` is determined by `(n, m)` and the pseudo-random values
    the seed selects: two runs that draw the same values and apply the same shuffle, whatever
    order the `unordered_set` is visited in and however long the sampling is allowed to run,
    either both throw with the same reason or both return graphs with the same vertex count
    and the same edge set. -/
theorem random_simple_deterministic (rs1 rs2 : RandomSource) (hd : rs1.draw = rs2.draw)
    (hs : rs1.shuffle = rs2.shuffle) (n m fuel : Nat) :
    (Graph.random_simple rs1 n m fuel).map GenResult.view =
      (Graph.random_simple rs2 n m fuel).map GenResult.view ∧
    ∀ (fuel2 : Nat) (r1 r2 : GenResult), Graph.random_simple rs1 n m fuel = some r1 →
      Graph.random_simple rs2 n m fuel2 = some r2 → r1.view = r2.view := by
  refine ⟨random_simple_view_congr rs1 rs2 hd hs n m fuel, ?_⟩
  intro fuel2 r1 r2 h1 h2
  have e1 := random_simple_mono rs1 n m fuel (max fuel fuel2) (le_max_left _ _) r1 h1
  have e2 := random_simple_mono rs2 n m fuel2 (max fuel fuel2) (le_max_right _ _) r2 h2
  have := random_simple_view_congr rs1 rs2 hd hs n m (max fuel fuel2)
  rw [e1, e2] at this
  exact Option.some.inj this

theorem random_simple_deterministic_witness :
    Graph.random_simple RandomSource.counting 5 3 3 =
      some (.graph ⟨5, 3, [[1, 4], [0], [3], [2], [0]]⟩) ∧
    Graph.random_simple RandomSource.counting_reversed 5 3 3 =
      some (.graph ⟨5, 3, [[4, 1], [0], [3], [2], [0]]⟩) ∧
    (Graph.random_simple RandomSource.counting 5 3 3).map GenResult.view =
      (Graph.random_simple RandomSource.counting_reversed 5 3 3).map GenResult.view :=
  ⟨by decide, by decide,
    (random_simple_deterministic RandomSource.counting RandomSource.counting_reversed rfl rfl
      5 3 3).1⟩


theorem create_algorithm_eq_none_iff (alg_name : List Char) :
    create_algorithm alg_name = none ↔
      alg_name ∉ ["EULER".toList, "MST".toList, "SCC".toList, "MAXFLOW".toList,
        "HAMILTON".toList] := by
  unfold create_algorithm
  simp only [List.mem_cons, List.mem_singleton, List.not_mem_nil, or_false, not_or]
  split_ifs <;> simp_all

theorem handle_client_of_tokens (rng : Nat → RandomSource) (fuel : Nat)
    (input line rest : List Char) (alg_name mode : List Char) (more : List (List Char))
    (hline : recv_line input = some (line, rest))
    (htoks : split_ws line = "ALG".toList :: alg_name :: mode :: more) :
    handle_client rng fuel input =
      match request_graph rng fuel (split_ws line) mode rest with
      | none => none
      | some (.inl o) => some o
      | some (.inr g) =>
        match create_algorithm alg_name with
        | none => some (.sent "ERR unknown algorithm\nEND\n")
        | some alg =>
          match run_algorithm alg g fuel with
          | none => none
          | some result => some (.sent (result ++ "\nEND\n")) := by
  unfold handle_client
  rw [hline]
  simp only
  rw [if_neg (by rw [htoks]; simp)]
  simp only [htoks, List.getElem?_cons_succ, List.getElem?_cons_zero]


theorem framed_sent (body : String) : (Outcome.sent (body ++ "\nEND\n")).Framed := by
  intro r hr
  cases hr
  exact ⟨body, rfl⟩

theorem framed_uncaught (what : String) : (Outcome.uncaught what).Framed := by
  intro r hr
  cases hr

theorem read_edges_framed :
    ∀ (k : Nat) (g : Graph) (input : List Char) (o : Outcome),
      read_edges k g input = .inl o → o.Framed := by
  intro k
  induction k with
  | zero =>
    intro g input o h
    simp [read_edges] at h
  | succ k ih =>
    intro g input o h
    rw [read_edges] at h
    split at h
    · cases h
      exact framed_sent "ERR missing edges"
    · split at h
      · split at h
        · cases h
          exact framed_uncaught _
        · split at h
          · cases h
            exact framed_uncaught _
          · split at h
            · exact ih _ _ _ h
            · cases h
              exact framed_sent "ERR invalid/duplicate edge"
      · cases h
        exact framed_sent "ERR bad edge"

theorem file_graph_framed (rest : List Char) (o : Outcome) (h : file_graph rest = .inl o) :
    o.Framed := by
  unfold file_graph at h
  split at h
  · cases h
    exact framed_sent "ERR missing n m"
  · split at h
    · split at h
      · cases h
        exact framed_uncaught _
      · split at h
        · cases h
          exact framed_uncaught _
        · split at h
          · cases h
            exact framed_uncaught _
          · split at h
            · rename_i o2 heq
              cases h
              exact read_edges_framed _ _ _ _ heq
            · split at h
              · cases h
                exact framed_sent "ERR expected END"
              · split at h
                · cases h
                  exact framed_sent "ERR expected END"
                · cases h
    · cases h
      exact framed_sent "ERR bad n m"

theorem rand_graph_framed (rng : Nat → RandomSource) (fuel : Nat) (toks : List (List Char))
    (o : Outcome) (h : rand_graph rng fuel toks = some (.inl o)) : o.Framed := by
  unfold rand_graph at h
  split at h
  · split at h
    · cases h
      exact framed_uncaught _
    · split at h
      · cases h
        exact framed_uncaught _
      · split at h
        · cases h
          exact framed_uncaught _
        · split at h
          · cases h
          · cases h
            exact framed_sent _
          · cases h
            exact framed_sent _
          · cases h
  · cases h
    exact framed_sent "ERR RAND usage"

theorem request_graph_framed (rng : Nat → RandomSource) (fuel : Nat) (toks : List (List Char))
    (mode rest : List Char) (o : Outcome)
    (h : request_graph rng fuel toks mode rest = some (.inl o)) : o.Framed := by
  unfold request_graph at h
  split_ifs at h
  · exact rand_graph_framed rng fuel toks o h
  · simp only [Option.some.injEq] at h
    exact file_graph_framed rest o h
  · cases h
    exact framed_sent "ERR unknown input mode"

theorem handle_client_framed (rng : Nat → RandomSource) (fuel : Nat) (input : List Char)
    (o : Outcome) (h : handle_client rng fuel input = some o) : o.Framed := by
  unfold handle_client at h
  split at h
  · cases h
    intro r hr
    cases hr
  · simp only at h
    split_ifs at h
    · cases h
      exact framed_sent "ERR bad request"
    · split at h
      · split at h
        · cases h
        · rename_i o2 heq
          cases h
          exact request_graph_framed rng fuel _ _ _ _ heq
        · split at h
          · cases h
            exact framed_sent "ERR unknown algorithm"
          · split at h
            · cases h
            · cases h
              exact framed_sent _
      · cases h
        intro r hr
        cases hr


theorem rand_graph_usage (rng : Nat → RandomSource) (fuel : Nat) (toks : List (List Char))
    (h : toks.length ≠ 6) :
    rand_graph rng fuel toks = some (.inl (.sent "ERR RAND usage\nEND\n")) := by
  unfold rand_graph
  split
  · simp at h
  · rfl

theorem handle_client_rand_usage (rng : Nat → RandomSource) (fuel : Nat)
    (input line rest : List Char) (alg_name : List Char) (more : List (List Char))
    (hline : recv_line input = some (line, rest))
    (htoks : split_ws line = "ALG".toList :: alg_name :: "RAND".toList :: more)
    (hmore : more.length ≠ 3) :
    handle_client rng fuel input = some (.sent "ERR RAND usage\nEND\n") := by
  rw [handle_client_of_tokens rng fuel input line rest alg_name _ more hline htoks]
  unfold request_graph
  rw [if_pos rfl, rand_graph_usage rng fuel _ (by
    rw [htoks]
    simp only [List.length_cons]
    omega)]

theorem file_graph_bad_header (rest line2 rest2 : List Char)
    (hline : recv_line rest = some (line2, rest2)) (htoks : (split_ws line2).length ≠ 2) :
    file_graph rest = .inl (.sent "ERR bad n m\nEND\n") := by
  unfold file_graph
  rw [hline]
  simp only
  split
  · rename_i a b heq
    rw [heq] at htoks
    simp at htoks
  · rfl

theorem read_edges_bad_edge (k : Nat) (g : Graph) (input line rest : List Char)
    (hline : recv_line input = some (line, rest)) (htoks : (split_ws line).length ≠ 2) :
    read_edges (k + 1) g input = .inl (.sent "ERR bad edge\nEND\n") := by
  rw [read_edges, hline]
  simp only
  split
  · rename_i a b heq
    rw [heq] at htoks
    simp at htoks
  · rfl

/-- The request of C23 that is answered with another error: `FOO` names no algorithm, yet
    the unknown mode `BAR` is reported. -/
theorem unknown_algorithm_counterexample :
    create_algorithm "FOO".toList = none ∧
    handle_client (fun _ => RandomSource.counting) 0 "ALG FOO BAR\n".toList =
      some (.sent "ERR unknown input mode\nEND\n") ∧
    handle_client (fun _ => RandomSource.counting) 0 "ALG FOO BAR\n".toList ≠
      some (.sent "ERR unknown algorithm\nEND\n") := by
  decide

theorem read_edges_of_lines :
    ∀ (es : List (Nat × Nat)) (g : Graph) (input out : List Char), EdgeLines es input out →
      (∀ f ∈ Graph.add_flags g es, f = true) →
      read_edges es.length g input = .inr (g.add_all es, out) := by
  intro es
  induction es with
  | nil =>
    intro g input out h _
    simp only [EdgeLines] at h
    subst h
    rfl
  | cons e es ih =>
    intro g input out h hf
    simp only [EdgeLines] at h
    obtain ⟨line, rest, a, b, hl, hs, ha, hb, hrest⟩ := h
    have hflag : (g.add_edge e.1 e.2).1 = true := hf _ (by simp [Graph.add_flags])
    have hf2 : ∀ f ∈ Graph.add_flags (g.add_edge e.1 e.2).2 es, f = true :=
      fun f hfm => hf f (by simp [Graph.add_flags, hfm])
    rw [List.length_cons, read_edges, hl]
    simp only [hs, ha, hb]
    rw [if_pos hflag]
    exact ih _ _ _ hrest hf2

/-- C23 (amended): `create_algorithm` returns no strategy exactly for the names other than
    `EULER`, `MST`, `SCC`, `MAXFLOW`, `HAMILTON`, and a request `ALG <NAME> <mode> …` with
    such a name is answered with `ERR unknown algorithm` followed by `END` when its graph is
    built: in mode `RAND`, six tokens of which the last three are numbers `n m seed` for
    which `random_simple` returns a graph; in mode `FILE`, a header line of two numbers
    `n m` (with `n` within the size limit of a vector), then `m` lines of two numbers `u v`
    that `add_edge` accepts in turn, then the line `END`. -/
theorem unknown_algorithm_response (rng : Nat → RandomSource) (fuel : Nat)
    (input line rest : List Char) (alg_name mode : List Char) (more : List (List Char))
    (hline : recv_line input = some (line, rest))
    (htoks : split_ws line = "ALG".toList :: alg_name :: mode :: more)
    (hname : alg_name ∉ ["EULER".toList, "MST".toList, "SCC".toList, "MAXFLOW".toList,
      "HAMILTON".toList])
    (hgraph :
      (mode = "RAND".toList ∧
        ∃ (a b c : List Char) (n m seed : Nat) (g : Graph), more = [a, b, c] ∧
          stoul a = .ok n ∧ stoul b = .ok m ∧ stoul c = .ok seed ∧
          Graph.random_simple (rng (seed % 2 ^ 32)) n m fuel = some (.graph g)) ∨
      (mode = "FILE".toList ∧
        ∃ (hdr r0 a b : List Char) (n : Nat) (es : List (Nat × Nat)) (r1 tail : List Char),
          recv_line rest = some (hdr, r0) ∧ split_ws hdr = [a, b] ∧
          stoul a = .ok n ∧ stoul b = .ok es.length ∧ n ≤ adj_max_size ∧
          EdgeLines es r0 r1 ∧ (∀ f ∈ Graph.add_flags (Graph.new n) es, f = true) ∧
          recv_line r1 = some ("END".toList, tail))) :
    (∀ name, create_algorithm name = none ↔
      name ∉ ["EULER".toList, "MST".toList, "SCC".toList, "MAXFLOW".toList,
        "HAMILTON".toList]) ∧
    handle_client rng fuel input = some (.sent "ERR unknown algorithm\nEND\n") := by
  refine ⟨create_algorithm_eq_none_iff, ?_⟩
  rw [handle_client_of_tokens rng fuel input line rest alg_name mode more hline htoks]
  rcases hgraph with ⟨hmode, a, b, c, n, m, seed, g, hmore, ha, hb, hc, hg⟩ |
    ⟨hmode, hdr, r0, a, b, n, es, r1, tail, hl, hs, ha, hb, hn, hedges, hflags, hend⟩
  · have hreq : request_graph rng fuel (split_ws line) mode rest = some (.inr g) := by
      unfold request_graph
      rw [if_pos hmode, htoks, hmore]
      unfold rand_graph
      simp only [ha, hb, hc, hg]
    rw [hreq, (create_algorithm_eq_none_iff alg_name).2 hname]
  · have hreq : request_graph rng fuel (split_ws line) mode rest =
        some (.inr ((Graph.new n).add_all es)) := by
      unfold request_graph
      rw [if_neg (by rw [hmode]; decide), if_pos hmode]
      unfold file_graph
      rw [hl]
      simp only [hs, ha, hb]
      rw [if_neg (by omega), read_edges_of_lines es _ _ _ hedges hflags]
      simp only [hend]
      rw [if_neg (by simp)]
    rw [hreq, (create_algorithm_eq_none_iff alg_name).2 hname]

theorem unknown_algorithm_response_witness :
    handle_client (fun _ => RandomSource.counting) 0 "ALG FOO RAND 3 0 1\n".toList =
      some (.sent "ERR unknown algorithm\nEND\n") ∧
    handle_client (fun _ => RandomSource.counting) 0
        "ALG FOO FILE\n2 1\n0 1\nEND\n".toList =
      some (.sent "ERR unknown algorithm\nEND\n") :=
  ⟨(unknown_algorithm_response (fun _ => RandomSource.counting) 0
      "ALG FOO RAND 3 0 1\n".toList "ALG FOO RAND 3 0 1".toList [] "FOO".toList
      "RAND".toList ["3".toList, "0".toList, "1".toList] (by decide) (by decide) (by decide)
      (Or.inl ⟨rfl, "3".toList, "0".toList, "1".toList, 3, 0, 1, Graph.new 3, rfl, rfl, rfl,
        rfl, by decide⟩)).2,
    (unknown_algorithm_response (fun _ => RandomSource.counting) 0
      "ALG FOO FILE\n2 1\n0 1\nEND\n".toList "ALG FOO FILE".toList
      "2 1\n0 1\nEND\n".toList "FOO".toList "FILE".toList [] (by decide) (by decide)
      (by decide)
      (Or.inr ⟨rfl, "2 1".toList, "0 1\nEND\n".toList, "2".toList, "1".toList, 2, [(0, 1)],
        "END\n".toList, [], by decide, by decide, rfl, rfl, by decide,
        ⟨"0 1".toList, "END\n".toList, "0".toList, "1".toList, by decide, by decide, rfl,
          rfl, rfl⟩,
        by decide, by decide⟩)).2⟩

/-- A RAND request whose `n` is above the size limit of a vector is answered with the
    message of the `std::length_error` that `Graph g(n)` throws inside `random_simple`; in
    FILE mode the same exception of `G = Graph(n)` leaves `handle_client`. -/
theorem handle_client_length_error (rng : Nat → RandomSource) (fuel : Nat) :
    handle_client rng fuel "ALG FOO RAND 1152921504606846976 0 1\n".toList =
      some (.sent "ERR cannot create std::vector larger than max_size()\nEND\n") ∧
    handle_client rng fuel "ALG FOO FILE\n1152921504606846976 0\nEND\n".toList =
      some (.uncaught "cannot create std::vector larger than max_size()") := by
  constructor <;> rfl

/-- C24: the request `ALG MST RAND 3 x 1` gets no response: `std::stoul("x")` throws outside
    the `try` block and the exception leaves `handle_client`. -/
theorem handle_client_no_response (rng : Nat → RandomSource) (fuel : Nat) :
    handle_client rng fuel "ALG MST RAND 3 x 1\n".toList = some (.uncaught "stoul") := by
  rfl

/-- C25: on the two-token request `ALG EULER` the test `toks.size() < 2` passes and
    `toks[2]` is read beyond the end of the vector. -/
theorem handle_client_two_tokens (rng : Nat → RandomSource) (fuel : Nat) :
    handle_client rng fuel "ALG EULER\n".toList = some .out_of_range := by
  rfl

/-- C26: a field that is not a number makes `std::stoul` throw where nothing catches it, in
    RAND mode (`n`, `m`, `seed`) and in FILE mode (`n`, `m`, an edge endpoint); no `ERR` line
    is sent. -/
theorem handle_client_non_numeric (rng : Nat → RandomSource) (fuel : Nat) :
    handle_client rng fuel "ALG EULER RAND x 1 1\n".toList = some (.uncaught "stoul") ∧
    handle_client rng fuel "ALG EULER RAND 4 y 1\n".toList = some (.uncaught "stoul") ∧
    handle_client rng fuel "ALG EULER RAND 4 4 z\n".toList = some (.uncaught "stoul") ∧
    handle_client rng fuel "ALG EULER FILE\na 1\n0 1\nEND\n".toList =
      some (.uncaught "stoul") ∧
    handle_client rng fuel "ALG EULER FILE\n2 b\n0 1\nEND\n".toList =
      some (.uncaught "stoul") ∧
    handle_client rng fuel "ALG EULER FILE\n2 1\nu 1\nEND\n".toList =
      some (.uncaught "stoul") ∧
    handle_client rng fuel "ALG EULER FILE\n2 1\n0 v\nEND\n".toList =
      some (.uncaught "stoul") := by
  refine ⟨rfl, rfl, rfl, rfl, rfl, rfl, rfl⟩


theorem read_header_spec (ls : List (List Char)) (hdr : List Char) (els : List (List Char))
    (h : ls.filter (fun l => !skip_line l) = hdr :: els) :
    ∃ rest, rest.filter (fun l => !skip_line l) = els ∧
      read_header ls = (extract_two hdr).map (fun nm => (nm, rest)) := by
  induction ls with
  | nil => simp at h
  | cons l ls ih =>
    rw [read_header]
    cases hs : skip_line l with
    | true =>
      rw [List.filter_cons_of_neg (by simp [hs])] at h
      simp only [if_true]
      exact ih h
    | false =>
      rw [List.filter_cons_of_pos (by simp [hs])] at h
      simp only [List.cons.injEq] at h
      obtain ⟨rfl, h2⟩ := h
      refine ⟨ls, h2, ?_⟩
      simp only [Bool.false_eq_true, if_false]
      cases extract_two l with
      | none => rfl
      | some nm => rfl

theorem read_header_no_header (ls : List (List Char))
    (h : ls.filter (fun l => !skip_line l) = []) : read_header ls = some ((0, 0), []) := by
  induction ls with
  | nil => rfl
  | cons l ls ih =>
    rw [read_header]
    cases hs : skip_line l with
    | true =>
      rw [List.filter_cons_of_neg (by simp [hs])] at h
      simp only [if_true]
      exact ih h
    | false =>
      rw [List.filter_cons_of_pos (by simp [hs])] at h
      cases h

theorem read_edge_lines_spec :
    ∀ (ls : List (List Char)) (k : Nat) (g g2 : Graph),
      read_edge_lines k g ls = some g2 ↔
        ∃ es : List (Nat × Nat), k ≤ (ls.filter (fun l => !skip_line l)).length ∧
          ((ls.filter (fun l => !skip_line l)).take k).map extract_two = es.map some ∧
          (∀ b ∈ Graph.add_flags g es, b = true) ∧ g2 = g.add_all es := by
  intro ls
  induction ls with
  | nil =>
    intro k g g2
    rw [read_edge_lines]
    constructor
    · intro h
      split_ifs at h with hk
      cases h
      subst hk
      exact ⟨[], by simp, by simp, by simp [Graph.add_flags], rfl⟩
    · rintro ⟨es, h1, h2, -, h4⟩
      simp only [List.filter_nil, List.length_nil, Nat.le_zero] at h1
      subst h1
      simp only [List.filter_nil, List.take_nil, List.map_nil] at h2
      have : es = [] := List.map_eq_nil_iff.1 h2.symm
      subst this
      rw [if_pos rfl, h4]
      rfl
  | cons l ls ih =>
    intro k g g2
    cases k with
    | zero =>
      rw [read_edge_lines]
      constructor
      · intro h
        cases h
        exact ⟨[], by simp, by simp, by simp [Graph.add_flags], rfl⟩
      · rintro ⟨es, -, h2, -, h4⟩
        simp only [List.take_zero, List.map_nil] at h2
        have : es = [] := List.map_eq_nil_iff.1 h2.symm
        subst this
        rw [h4]
        rfl
    | succ k2 =>
      rw [read_edge_lines]
      cases hs : skip_line l with
      | true =>
        rw [List.filter_cons_of_neg (by simp [hs])]
        simp only [if_true]
        exact ih (k2 + 1) g g2
      | false =>
        rw [List.filter_cons_of_pos (by simp [hs])]
        simp only [Bool.false_eq_true, if_false, List.length_cons, List.take_succ_cons,
          List.map_cons]
        cases he : extract_two l with
        | none =>
          simp only
          constructor
          · intro h
            cases h
          · rintro ⟨es, -, h2, -, -⟩
            cases es with
            | nil => cases h2
            | cons e es =>
              simp only [List.map_cons, List.cons.injEq] at h2
              cases h2.1
        | some uv =>
          obtain ⟨u, v⟩ := uv
          simp only
          cases hf : (g.add_edge u v).1 with
          | false =>
            simp only [Bool.false_eq_true, if_false]
            constructor
            · intro h
              cases h
            · rintro ⟨es, -, h2, h3, -⟩
              cases es with
              | nil => cases h2
              | cons e es =>
                simp only [List.map_cons, List.cons.injEq, Option.some.injEq] at h2
                have := h3 (g.add_edge e.1 e.2).1 (by simp [Graph.add_flags])
                rw [← h2.1] at this
                simp only at this
                rw [hf] at this
                cases this
          | true =>
            simp only [if_true]
            rw [ih k2 (g.add_edge u v).2 g2]
            constructor
            · rintro ⟨es, h1, h2, h3, h4⟩
              refine ⟨(u, v) :: es, by omega, by simp [h2], ?_, ?_⟩
              · intro b hb
                simp only [Graph.add_flags, List.mem_cons] at hb
                rcases hb with rfl | hb
                · exact hf
                · exact h3 b hb
              · rw [h4]
                rfl
            · rintro ⟨es, h1, h2, h3, h4⟩
              cases es with
              | nil => cases h2
              | cons e es =>
                simp only [List.map_cons, List.cons.injEq, Option.some.injEq] at h2
                obtain ⟨h2a, h2b⟩ := h2
                subst h2a
                refine ⟨es, by omega, h2b, ?_, ?_⟩
                · intro b hb
                  exact h3 b (by simp [Graph.add_flags, hb])
                · rw [h4]
                  rfl

theorem add_all_flags_spec (es : List (Nat × Nat)) :
    ∀ (g : Graph), (∀ b ∈ Graph.add_flags g es, b = true) →
      (g.add_all es).m_m = g.m_m + es.length ∧
      ∀ e ∈ es, e.1 < g.m_n ∧ e.2 < g.m_n ∧ e.1 ≠ e.2 := by
  induction es with
  | nil =>
    intro g _
    exact ⟨rfl, by simp⟩
  | cons e es ih =>
    intro g h
    have hf : (g.add_edge e.1 e.2).1 = true := h _ (by simp [Graph.add_flags])
    have hrest := ih (g.add_edge e.1 e.2).2 (fun b hb => h b (by simp [Graph.add_flags, hb]))
    have hstep : g.add_all (e :: es) = (g.add_edge e.1 e.2).2.add_all es := rfl
    have hmn := Graph.m_n_add_edge g e.1 e.2
    have hmm : (g.add_edge e.1 e.2).2.m_m = g.m_m + 1 := by
      rw [Graph.add_edge_snd_of_true g e.1 e.2 hf]
    obtain ⟨a1, a2, a3, -⟩ := (Graph.add_edge_fst g e.1 e.2).1 hf
    rw [hstep]
    refine ⟨by rw [hrest.1, hmm, List.length_cons]; omega, ?_⟩
    intro x hx
    rcases List.mem_cons.1 hx with rfl | hx
    · exact ⟨a1, a2, a3⟩
    · have := hrest.2 x hx
      rw [hmn] at this
      exact this

theorem load_from_file_iff (content hdr : List Char) (els : List (List Char))
    (hls : (get_lines content).filter (fun l => !skip_line l) = hdr :: els) (g : Graph) :
    Graph.load_from_file (some content) = .loaded g ↔
      ∃ (n m : Nat) (es : List (Nat × Nat)), extract_two hdr = some (n, m) ∧
        (n = 0 → m = 0) ∧ (n ≠ 0 → m ≤ max_edges_u64 n) ∧ n ≤ adj_max_size ∧
        m ≤ els.length ∧
        (els.take m).map extract_two = es.map some ∧
        (∀ b ∈ Graph.add_flags (Graph.new n) es, b = true) ∧
        g = (Graph.new n).add_all es := by
  obtain ⟨rest, hrest, hhdr⟩ := read_header_spec _ hdr els hls
  unfold Graph.load_from_file
  simp only
  rw [hhdr]
  cases he : extract_two hdr with
  | none =>
    simp only [Option.map_none']
    constructor
    · intro h
      cases h
    · rintro ⟨n, m, es, h, -⟩
      cases h
  | some nm =>
    obtain ⟨n, m⟩ := nm
    simp only [Option.map_some']
    constructor
    · intro h
      split_ifs at h with h1 h2 h3
      cases hr : read_edge_lines m (Graph.new n) rest with
      | none =>
        rw [hr] at h
        cases h
      | some g2 =>
        rw [hr] at h
        simp only [LoadResult.loaded.injEq] at h
        subst h
        obtain ⟨es, e1, e2, e3, e4⟩ := (read_edge_lines_spec rest m (Graph.new n) g2).1 hr
        rw [hrest] at e1 e2
        refine ⟨n, m, es, rfl, ?_, ?_, by omega, e1, e2, e3, e4⟩
        · intro hn
          by_contra hm
          exact h1 ⟨hn, hm⟩
        · intro hn
          by_contra hm
          exact h2 ⟨hn, by omega⟩
    · rintro ⟨n2, m2, es, h0, h1, h2, hmax, h3, h4, h5, h6⟩
      simp only [Option.some.injEq, Prod.mk.injEq] at h0
      obtain ⟨rfl, rfl⟩ := h0
      rw [if_neg (fun hc => hc.2 (h1 hc.1)), if_neg (fun hc => by
        have := h2 hc.1
        omega), if_neg (by omega)]
      have hr : read_edge_lines m (Graph.new n) rest = some g := by
        rw [read_edge_lines_spec rest m (Graph.new n) g]
        rw [hrest]
        exact ⟨es, h3, h4, h5, h6⟩
      rw [hr]


/-- The files of C27 that load although they deviate: a header that announces no edge
    followed by an edge line, a file without any header line, and a file whose header and
    edge line carry text after their two numbers. -/
theorem load_from_file_counterexample :
    (get_lines "2 0\n0 1\n".toList).filter (fun l => !skip_line l) =
      ["2 0".toList, "0 1".toList] ∧
    extract_two "2 0".toList = some (2, 0) ∧
    Graph.load_from_file (some "2 0\n0 1\n".toList) = .loaded (Graph.new 2) ∧
    (get_lines "# no header\n\n".toList).filter (fun l => !skip_line l) = [] ∧
    Graph.load_from_file (some "# no header\n\n".toList) = .loaded (Graph.new 0) ∧
    Graph.load_from_file (some "2 1 x\n0 1 y\n".toList) =
      .loaded (Graph.build 2 [(0, 1)]) := by
  decide

/-- C27 (amended): for a file whose lines that are neither blank nor `#` comments are `hdr`
    followed by `els`, `load_from_file` returns a graph `g` only if `hdr` starts with two
    numbers `n m` (as `operator>>` reads them) with `m ≤ n(n-1)/2`, at least `m` lines
    follow, and the first `m` of them each start with two numbers `u v` that `add_edge`
    accepts in turn; then `g` has `n` vertices and exactly the `m` listed edges.  So a file
    with fewer than `m` edge lines, a header or edge line that does not start with two
    numbers, an edge that `add_edge` refuses, or `m > n(n-1)/2` yields no graph. -/
theorem load_from_file_spec (content hdr : List Char) (els : List (List Char))
    (hls : (get_lines content).filter (fun l => !skip_line l) = hdr :: els) (g : Graph)
    (h : Graph.load_from_file (some content) = .loaded g) :
    ∃ (n m : Nat) (es : List (Nat × Nat)), extract_two hdr = some (n, m) ∧
      m ≤ n * (n - 1) / 2 ∧ m ≤ els.length ∧
      (els.take m).map extract_two = es.map some ∧ es.length = m ∧
      (∀ b ∈ Graph.add_flags (Graph.new n) es, b = true) ∧
      g.n = n ∧ g.m = m ∧
      ∀ x y, y ∈ g.neighbors x ↔ ((x, y) ∈ es ∨ (y, x) ∈ es) := by
  obtain ⟨n, m, es, h0, -, -, -, h3, h4, h5, h6⟩ :=
    (load_from_file_iff content hdr els hls g).1 h
  have hlen : es.length = m := by
    have := congrArg List.length h4
    simp only [List.length_map, List.length_take] at this
    omega
  obtain ⟨c1, c2⟩ := add_all_flags_spec es (Graph.new n) h5
  have hinv : g.Inv := by
    rw [h6]
    exact Graph.inv_add_all es _ (Graph.inv_new n)
  have hn : g.m_n = n := by
    rw [h6, Graph.m_n_add_all]
    rfl
  have hm : g.m_m = m := by
    rw [h6, c1, hlen]
    simp [Graph.new]
  refine ⟨n, m, es, h0, ?_, h3, h4, hlen, h5, hn, hm, ?_⟩
  · have := Graph.m_le_of_inv g hinv
    rw [hn, hm] at this
    exact this
  · intro x y
    rw [h6, Graph.mem_neighbors_add_all es _ (Graph.inv_new n), Graph.neighbors_new]
    simp only [List.not_mem_nil, false_or]
    constructor
    · rintro ⟨-, -, -, h⟩
      exact h
    · intro h
      have hn2 : (Graph.new n).m_n = n := rfl
      rcases h with h | h
      · obtain ⟨a, b, c⟩ := c2 _ h
        exact ⟨a, b, c, Or.inl h⟩
      · obtain ⟨a, b, c⟩ := c2 _ h
        exact ⟨b, a, fun e => c e.symm, Or.inr h⟩

theorem load_from_file_spec_witness :
    Graph.load_from_file (some "# c\n\n3 2\n0 1\n  \n1 2\n9 9\n".toList) =
      .loaded (Graph.build 3 [(0, 1), (1, 2)]) ∧
    ∃ (n m : Nat) (es : List (Nat × Nat)), extract_two "3 2".toList = some (n, m) ∧
      m ≤ n * (n - 1) / 2 ∧ m ≤ ["0 1".toList, "1 2".toList, "9 9".toList].length ∧
      (["0 1".toList, "1 2".toList, "9 9".toList].take m).map extract_two = es.map some ∧
      es.length = m ∧
      (∀ b ∈ Graph.add_flags (Graph.new n) es, b = true) ∧
      (Graph.build 3 [(0, 1), (1, 2)]).n = n ∧ (Graph.build 3 [(0, 1), (1, 2)]).m = m ∧
      ∀ x y, y ∈ (Graph.build 3 [(0, 1), (1, 2)]).neighbors x ↔ ((x, y) ∈ es ∨ (y, x) ∈ es) :=
  ⟨by decide,
    load_from_file_spec "# c\n\n3 2\n0 1\n  \n1 2\n9 9\n".toList "3 2".toList
      ["0 1".toList, "1 2".toList, "9 9".toList] (by decide)
      (Graph.build 3 [(0, 1), (1, 2)]) (by decide)⟩

/-- A header whose vertex count is above the size limit of a vector: `"-1 0"` is read as
    `n = 2^64 - 1`, passes the validation, and `Graph g(n)` throws. -/
theorem load_from_file_length_error :
    Graph.load_from_file (some "-1 0\n".toList) = .length_error vector_length_what := by
  decide


theorem lt_of_symm (g : Graph) (hlen : g.adj.length = g.m_n)
    (hsymm : ∀ u v, v ∈ g.neighbors u → u ∈ g.neighbors v) (u v : Nat)
    (h : v ∈ g.neighbors u) : v < g.m_n := by
  by_contra hge
  have := hsymm u v h
  rw [Graph.neighbors_eq_nil_of_ge g hlen v (by omega)] at this
  exact absurd this (List.not_mem_nil u)

theorem bfs_loop_spec_of_symm (g : Graph) (hlen : g.adj.length = g.m_n)
    (hsymm : ∀ u v, v ∈ g.neighbors u → u ∈ g.neighbors v) (start : Nat) (fuel : Nat) :
    ∀ (s : Graph.BfsState), Graph.BfsInv g start s →
      s.vis.count false + s.q.length ≤ fuel →
    ∃ s2, g.bfs_loop fuel s = some s2 ∧ Graph.BfsInv g start s2 ∧
      (∀ w : Nat, s.vis[w]? = some true → s2.vis[w]? = some true) := by
  induction fuel with
  | zero =>
    intro s hs hm
    have hq : s.q = [] := List.length_eq_zero.1 (by omega)
    refine ⟨s, ?_, hs, fun _ h => h⟩
    simp [Graph.bfs_loop, hq]
  | succ fuel ih =>
    intro s hs hm
    cases hq : s.q with
    | nil =>
      refine ⟨s, ?_, hs, fun _ h => h⟩
      simp [Graph.bfs_loop, hq]
    | cons u rest =>
      have huvis : s.vis[u]? = some true := hs.qvis u (by simp [hq])
      have hu : u < g.m_n := by
        have : u < s.vis.length := by
          by_contra hcon
          rw [List.getElem?_eq_none (by omega)] at huvis
          cases huvis
        rw [← hs.len]; exact this
      have hs0 : Graph.BfsInv g start { s with q := rest } :=
        ⟨hs.len, fun v hv => hs.qvis v (by simp [hq, hv]), hs.reach, hs.cnt⟩
      obtain ⟨s1, e1, i1, m1, -, mono1, -⟩ :=
        Graph.bfs_inner_spec g start (fun _ => False) (g.neighbors u) { s with q := rest } hs0
          (fun v hv => ⟨lt_of_symm g hlen hsymm u v hv,
            Relation.ReflTransGen.tail (hs.reach u huvis) hv⟩)
      simp only at m1
      rw [hq] at hm
      simp only [List.length_cons] at hm
      obtain ⟨s2, e2, i2, mono2⟩ := ih s1 i1 (by omega)
      refine ⟨s2, ?_, i2, fun w hw => mono2 w (mono1 w hw)⟩
      simp [Graph.bfs_loop, hq, Graph.adj_getElem?_of_lt g hlen u hu, e1, e2]

theorem bfs_sim_loop_of_symm (g : Graph) (hlen : g.adj.length = g.m_n)
    (hsymm : ∀ u v, v ∈ g.neighbors u → u ∈ g.neighbors v) (fuel : Nat) :
    ∀ (s1 ss : Graph.BfsState), BfsSim s1 ss → ∀ t1, g.bfs_loop fuel s1 = some t1 →
      ∃ ts, Src.bfs_loop g fuel ss = some ts ∧ ts.reached = t1.reached := by
  induction fuel with
  | zero =>
    intro s1 ss h t1 e
    obtain ⟨h1, h2, h3⟩ := h
    unfold Graph.bfs_loop at e
    unfold Src.bfs_loop
    rw [h2]
    cases hq : s1.q with
    | nil =>
      rw [hq] at e
      simp only [Option.some.injEq] at e
      subst e
      rw [h2, hq] at h3
      exact ⟨ss, rfl, by simpa using h3.symm⟩
    | cons u rest => rw [hq] at e; cases e
  | succ fuel ih =>
    intro s1 ss h t1 e
    obtain ⟨h1, h2, h3⟩ := h
    unfold Graph.bfs_loop at e
    unfold Src.bfs_loop
    rw [h2]
    cases hq : s1.q with
    | nil =>
      rw [hq] at e
      simp only [Option.some.injEq] at e
      subst e
      rw [h2, hq] at h3
      exact ⟨ss, rfl, by simpa using h3.symm⟩
    | cons u rest =>
      rw [hq] at e
      simp only at e ⊢
      cases ha : g.adj[u]? with
      | none => rw [ha] at e; cases e
      | some nb =>
        rw [ha] at e
        simp only at e ⊢
        cases hi : g.bfs_inner nb { s1 with q := rest } with
        | none => rw [hi] at e; cases e
        | some m1 =>
          rw [hi] at e
          simp only [Option.some_bind] at e
          have hu : u < g.adj.length := by
            by_contra hc
            rw [List.getElem?_eq_none (by omega)] at ha
            cases ha
          have hnb : nb = g.neighbors u := by
            have := Graph.adj_getElem?_of_lt g hlen u (by rw [← hlen]; exact hu)
            rw [ha] at this
            exact Option.some.inj this
          have hsim : BfsSim { s1 with q := rest }
              { ss with q := rest, reached := ss.reached + 1 } := by
            refine ⟨h1, rfl, ?_⟩
            rw [h2, hq] at h3
            simp only [List.length_cons] at h3 ⊢
            omega
          obtain ⟨ms, e2, h4⟩ := bfs_sim_inner g nb (by
            intro v hv
            rw [hnb] at hv
            exact List.ne_nil_of_mem (hsymm u v hv)) _ _ hsim m1 hi
          obtain ⟨ts, e3, h5⟩ := ih m1 ms h4 t1 e
          refine ⟨ts, ?_, h5⟩
          rw [e2]
          simpa using e3

theorem is_connected_eq_of_symm (g : Graph) (hlen : g.adj.length = g.m_n)
    (hsymm : ∀ u v, v ∈ g.neighbors u → u ∈ g.neighbors v) (fuel : Nat)
    (hf : g.m_n ≤ fuel) :
    ∃ b, g.is_connected_ignoring_isolated fuel = some b ∧
      Src.is_connected_ignoring_isolated g fuel = some b := by
  obtain ⟨hN, hstart⟩ := Graph.scan_spec g
  obtain ⟨hfst, hcnt⟩ := scan_first_count g g.m_n (le_refl _)
  have hfst2 : g.scan.1 =
      ((List.range g.m_n).find? (fun i => !(g.neighbors i).isEmpty)).getD g.m_n := hfst
  have hcnt2 : g.scan.2 = (List.range g.m_n).countP (fun i => !(g.neighbors i).isEmpty) := hcnt
  -- the search from the first vertex of positive degree, when there is one
  have hbfs : 0 < g.scan.2 →
      ∃ t1 ts, g.bfs_loop fuel
          { vis := (List.replicate g.m_n false).set g.scan.1 true, q := [g.scan.1],
            reached := 1 } = some t1 ∧
        Src.bfs_loop g fuel
          { vis := (List.replicate g.m_n false).set g.scan.1 true, q := [g.scan.1],
            reached := 0 } = some ts ∧
        ts.reached = t1.reached ∧ 1 ≤ t1.reached ∧ t1.reached ≤ g.scan.2 := by
    intro hpos
    obtain ⟨hsl, hsn⟩ := hstart hpos
    have hinit : Graph.BfsInv g g.scan.1
        { vis := (List.replicate g.m_n false).set g.scan.1 true, q := [g.scan.1],
          reached := 1 } := by
      refine ⟨by simp, ?_, ?_, ?_⟩
      · intro v hv
        simp only [List.mem_singleton] at hv
        simp only
        rw [Graph.getElem?_replicate_set _ _ _ hsl]; exact hv
      · intro v hv
        simp only at hv
        rw [Graph.getElem?_replicate_set _ _ _ hsl] at hv
        subst hv
        exact Relation.ReflTransGen.refl
      · simp only
        have : g.visitedNonIsolated ((List.replicate g.m_n false).set g.scan.1 true) =
            {g.scan.1} := by
          ext w
          unfold Graph.visitedNonIsolated
          simp only [Finset.mem_filter, Finset.mem_range, Finset.mem_singleton,
            Graph.getElem?_replicate_set _ _ _ hsl]
          constructor
          · rintro ⟨-, h, -⟩; exact h
          · intro h; subst h; exact ⟨hsl, rfl, hsn⟩
        rw [this, Finset.card_singleton]
    have hmeas := Graph.count_false_init g.m_n g.scan.1 hsl
    obtain ⟨t1, e1, i1, mono1⟩ := bfs_loop_spec_of_symm g hlen hsymm g.scan.1 fuel _ hinit (by
      simp only [List.length_singleton]; omega)
    obtain ⟨ts, es, hr⟩ := bfs_sim_loop_of_symm g hlen hsymm fuel
      { vis := (List.replicate g.m_n false).set g.scan.1 true, q := [g.scan.1],
        reached := 1 }
      { vis := (List.replicate g.m_n false).set g.scan.1 true, q := [g.scan.1],
        reached := 0 } ⟨rfl, rfl, rfl⟩ t1 e1
    have hvis : t1.vis[g.scan.1]? = some true :=
      mono1 _ (by simp only; rw [Graph.getElem?_replicate_set _ _ _ hsl])
    have hmem : g.scan.1 ∈ g.visitedNonIsolated t1.vis := by
      unfold Graph.visitedNonIsolated
      simp only [Finset.mem_filter, Finset.mem_range]
      exact ⟨hsl, hvis, hsn⟩
    have hsub : g.visitedNonIsolated t1.vis ⊆ g.nonIsolated g.m_n := by
      intro w hw
      unfold Graph.visitedNonIsolated at hw
      unfold Graph.nonIsolated
      simp only [Finset.mem_filter, Finset.mem_range] at hw ⊢
      exact ⟨hw.1, hw.2.2⟩
    refine ⟨t1, ts, e1, es, hr, ?_, ?_⟩
    · rw [i1.cnt]
      exact Finset.card_pos.2 ⟨_, hmem⟩
    · rw [i1.cnt, hN]
      exact Finset.card_le_card hsub
  unfold Src.is_connected_ignoring_isolated Graph.is_connected_ignoring_isolated
  simp only
  rw [← hfst2, ← hcnt2]
  by_cases hle : g.scan.2 ≤ 1
  · rw [if_pos hle]
    refine ⟨true, rfl, ?_⟩
    by_cases hn : g.m_n = 0
    · rw [if_pos hn]
    · rw [if_neg hn]
      by_cases hs : g.scan.1 = g.m_n
      · rw [if_pos hs]
      · rw [if_neg hs]
        have hpos : 0 < g.scan.2 := by
          by_contra hc
          have hz : g.scan.2 = 0 := by omega
          rw [hcnt2, List.countP_eq_zero] at hz
          have hnone : (List.range g.m_n).find? (fun i => !(g.neighbors i).isEmpty) = none := by
            rw [List.find?_eq_none]
            exact hz
          rw [hfst2, hnone] at hs
          exact hs rfl
        obtain ⟨t1, ts, -, es, hr, h1, h2⟩ := hbfs hpos
        rw [es]
        simp only [Option.map_some', Option.some.injEq, beq_iff_eq]
        omega
  · rw [if_neg hle]
    obtain ⟨hsl, -⟩ := hstart (by omega)
    rw [if_neg (by omega), if_neg (by omega)]
    obtain ⟨t1, ts, e1, es, hr, -, -⟩ := hbfs (by omega)
    rw [e1, es]
    exact ⟨_, rfl, by simp only [Option.map_some', hr]⟩

/-- C31: on every graph whose adjacency vector has `n` entries and is symmetric (self-loops
    and repeated entries allowed) both versions of `is_connected_ignoring_isolated`, the one
    of `Stage1/graph.cpp` and the one of `src/src/graph.cpp`, return, and return the same
    boolean (their searches need at most `n` iterations); in particular on every graph built
    from `Graph(n)` by `add_edge` calls, which both versions of `add_edge` build alike. -/
theorem is_connected_versions_agree (fuel : Nat) :
    (∀ g : Graph, g.adj.length = g.m_n →
      (∀ u v, v ∈ g.neighbors u → u ∈ g.neighbors v) → g.m_n ≤ fuel →
      ∃ b, g.is_connected_ignoring_isolated fuel = some b ∧
        Src.is_connected_ignoring_isolated g fuel = some b) ∧
    (∀ (n : Nat) (ops : List (Nat × Nat)), n ≤ fuel →
      Src.build n ops = Graph.build n ops ∧
      ∃ b, (Graph.build n ops).is_connected_ignoring_isolated fuel = some b ∧
        Src.is_connected_ignoring_isolated (Src.build n ops) fuel = some b) := by
  refine ⟨fun g hlen hsymm hf => is_connected_eq_of_symm g hlen hsymm fuel hf, ?_⟩
  intro n ops hf
  have hg := Graph.inv_build n ops
  rw [src_build_eq]
  exact ⟨rfl, is_connected_eq_of_symm _ hg.len hg.symm fuel (by
    rw [Graph.m_n_build]; exact hf)⟩

theorem is_connected_versions_agree_witness :
    (Graph.build 4 [(0, 1), (2, 3)]).is_connected_ignoring_isolated 4 = some false ∧
    Src.is_connected_ignoring_isolated (Src.build 4 [(0, 1), (2, 3)]) 4 = some false ∧
    (⟨2, 0, [[0, 0], []]⟩ : Graph).is_connected_ignoring_isolated 2 = some true ∧
    Src.is_connected_ignoring_isolated ⟨2, 0, [[0, 0], []]⟩ 2 = some true ∧
    (∃ b, (Graph.build 4 [(0, 1), (2, 3)]).is_connected_ignoring_isolated 4 = some b ∧
      Src.is_connected_ignoring_isolated (Src.build 4 [(0, 1), (2, 3)]) 4 = some b) ∧
    ∃ b, (⟨2, 0, [[0, 0], []]⟩ : Graph).is_connected_ignoring_isolated 2 = some b ∧
      Src.is_connected_ignoring_isolated ⟨2, 0, [[0, 0], []]⟩ 2 = some b :=
  ⟨by decide, by decide, by decide, by decide,
    ((is_connected_versions_agree 4).2 4 [(0, 1), (2, 3)] (le_refl 4)).2,
    (is_connected_versions_agree 2).1 ⟨2, 0, [[0, 0], []]⟩ rfl (by
      intro u v h
      rcases u with _ | _ | u
      · have hv : v = 0 := by simpa [Graph.neighbors] using h
        subst hv
        exact h
      · simp [Graph.neighbors] at h
      · simp [Graph.neighbors] at h) (le_refl 2)⟩

end OSProj
